import Mathlib

/-!
# The lexer of `Source/Analyzer/Lexer.cpp`

A shallow embedding of the class `Lexer`: the member data becomes a structure, every
member function a function on that structure, `throw` an explicit `Outcome.thrown`, and
each `while` / `do ... while` loop a function recursing on a fuel argument (`none` means
the fuel ran out before the loop left).

Bytes (`Text8`) are natural numbers.  The source buffer is the list of its bytes, the
terminating zero byte included; a read beyond the list yields `0`.
-/

namespace Compiler

/-! ## Collaborators that live outside `Lexer.cpp` -/

/-- Modelled from the spec: the character-classification predicate is-whitespace of
`Utilities/Text.cpp`, taken as the C whitespace set (space, `\t`, `\n`, `\v`, `\f`, `\r`). -/
def U.Text.IsWhitespace (c : Nat) : Bool := c == 32 || (9 ≤ c && c ≤ 13)

/-- Modelled from the spec: the character-classification predicate is-alphabetic of
`Utilities/Text.cpp`, the ASCII letters. -/
def U.Text.IsAlphabetic (c : Nat) : Bool := (65 ≤ c && c ≤ 90) || (97 ≤ c && c ≤ 122)

/-- Modelled from the spec: the character-classification predicate is-numeric-digit of
`Utilities/Text.cpp`, the decimal digits. -/
def U.Text.IsNumeric (c : Nat) : Bool := 48 ≤ c && c ≤ 57

/-- Modelled from the spec: the exact, case-sensitive comparison of two zero-terminated
texts of `Utilities/Text.cpp`; the result is `0` exactly when the texts agree up to their
terminators (the end of a list counts as a terminator). -/
def U.Text.Compare : List Nat → List Nat → Int
  | [], [] => 0
  | [], b :: _ => if b = 0 then 0 else -1
  | a :: _, [] => if a = 0 then 0 else 1
  | a :: as, b :: bs =>
    if a = b then (if a = 0 then 0 else U.Text.Compare as bs) else (a : Int) - (b : Int)

/-- The two failures a text-to-number conversion may raise
(`Exception::InvalidArgument`, `Exception::OutOfRange`). -/
inductive ConvertFailure
  | InvalidArgument
  | OutOfRange
  deriving DecidableEq

/-- Value of a byte as a digit: `0`-`9`, then letters of either case from ten upwards. -/
def U.Text.digitValue (c : Nat) : Option Nat :=
  if 48 ≤ c ∧ c ≤ 57 then some (c - 48)
  else if 97 ≤ c ∧ c ≤ 122 then some (c - 87)
  else if 65 ≤ c ∧ c ≤ 90 then some (c - 55)
  else none

/-- Reads the longest run of digits of the base at the head of the text; `none` while no
digit has been read. -/
def U.Text.scanDigits (base : Nat) : List Nat → Option Nat → Option Nat
  | [], acc => acc
  | c :: cs, acc =>
    match U.Text.digitValue c with
    | some d =>
      if d < base then U.Text.scanDigits base cs (some (acc.getD 0 * base + d)) else acc
    | none => acc

/-- Modelled from the spec: the conversion (string, base) → unsigned 64-bit of
`Utilities/Text.cpp`, which fails with `InvalidArgument` when the text starts with no
digit of the base and with `OutOfRange` when the value does not fit 64 bits. -/
def U.Text.ConvertToNatural (text : List Nat) (base : Nat) : Except ConvertFailure Nat :=
  match U.Text.scanDigits base text none with
  | none => .error .InvalidArgument
  | some v => if v < 2 ^ 64 then .ok v else .error .OutOfRange

/-- Modelled from the spec: the conversion string → signed 64-bit of `Utilities/Text.cpp`
(decimal), which fails with `InvalidArgument` when the text starts with no digit and
with `OutOfRange` when the value exceeds `2 ^ 63 - 1`. -/
def U.Text.ConvertToInteger (text : List Nat) : Except ConvertFailure Int :=
  match U.Text.scanDigits 10 text none with
  | none => .error .InvalidArgument
  | some v => if v < 2 ^ 63 then .ok (v : Int) else .error .OutOfRange

/-- The exact decimal `mantissa / 10 ^ scale` that the conversion reads from a text,
before it is rounded to a float. -/
structure Decimal where
  mantissa : Nat
  scale : Nat
  deriving DecidableEq

/-- Modelled from the spec: the 64-bit float payload of a real literal, held as its
IEEE 754 binary64 bit pattern (a sign bit, 11 exponent bits, 52 fraction bits).  A
literal carries no sign, so the sign bit is clear, and a conversion yields finite values
only: `bits < 2047 * 2 ^ 52`. -/
structure Real64 where
  bits : Nat
  deriving DecidableEq

/-- The integer nearest to `n / d`, a tie going to the even one. -/
def Real64.nearest (n d : Nat) : Nat :=
  if 2 * (n % d) < d then n / d
  else if d < 2 * (n % d) then n / d + 1
  else if n / d % 2 = 0 then n / d
  else n / d + 1

/-- The number of halvings that bring `q` below `2 ^ 53`.  A pass halves once, or 16
or 128 times at once while that many halvings are sure to be needed; the fuel of 100
passes serves every `q` below `2 ^ 9000`, and a greater `q` gives a count above 9000. -/
def Real64.shift : Nat → Nat → Nat
  | 0, _ => 0
  | fuel + 1, q =>
    if q < 2 ^ 53 then 0
    else if q < 2 ^ 69 then Real64.shift fuel (q / 2) + 1
    else if q < 2 ^ 181 then Real64.shift fuel (q / 2 ^ 16) + 16
    else Real64.shift fuel (q / 2 ^ 128) + 128

/-- Modelled from the spec: the 64-bit float nearest to `num / den` (round to nearest,
ties to even), or `OutOfRange` when the number exceeds the width of the format, that is
when the nearest value lies beyond the largest finite float.  With `b` the biased
exponent less one (`0` for the subnormal floats as well), the significand is `num / den`
in units of `2 ^ (b - 1074)` rounded to an integer; adding it to `b * 2 ^ 52` gives the
bit pattern, a carry out of the significand moving into the exponent.  (`n <<< k` is
`n * 2 ^ k`.) -/
def Real64.ofRatio (num den : Nat) : Except ConvertFailure Real64 :=
  let b := Real64.shift 100 ((num <<< 1074) / den)
  let bits := b * 2 ^ 52 + Real64.nearest (num <<< 1074) (den <<< b)
  if bits < 2047 * 2 ^ 52 then .ok ⟨bits⟩ else .error .OutOfRange

/-- Reads the digits after the point: each one extends the mantissa and the scale. -/
def U.Text.scanFraction : List Nat → Decimal → Nat → Decimal × Nat
  | [], r, n => (r, n)
  | c :: cs, r, n =>
    if 48 ≤ c ∧ c ≤ 57 then
      U.Text.scanFraction cs ⟨r.mantissa * 10 + (c - 48), r.scale + 1⟩ (n + 1)
    else (r, n)

/-- Reads the digits before the point, then the point and the digits after it; the
second component counts the digits read. -/
def U.Text.scanReal : List Nat → Nat → Nat → Decimal × Nat
  | [], m, n => (⟨m, 0⟩, n)
  | c :: cs, m, n =>
    if 48 ≤ c ∧ c ≤ 57 then U.Text.scanReal cs (m * 10 + (c - 48)) (n + 1)
    else if c = 46 then U.Text.scanFraction cs ⟨m, 0⟩ n
    else (⟨m, 0⟩, n)

/-- Modelled from the spec: the conversion string → 64-bit float of `Utilities/Text.cpp`,
which fails with `InvalidArgument` when the text holds no digit before or after its
point and with `OutOfRange` when the number read exceeds the width of the format, and
otherwise gives the float nearest to the number read. -/
def U.Text.ConvertToReal (text : List Nat) : Except ConvertFailure Real64 :=
  match U.Text.scanReal text 0 0 with
  | (_, 0) => .error .InvalidArgument
  | (d, _ + 1) => Real64.ofRatio d.mantissa (10 ^ d.scale)

/-- Modelled from the spec: the growable byte buffer `U::Dynar<Text8>` of
`Utilities/Dynar.cpp` (append a byte, size, drain to an owned array). -/
abbrev U.Dynar := List Nat

/-- Appends one byte. -/
def U.Dynar.Put (buf : U.Dynar) (c : Nat) : U.Dynar := buf ++ [c]

/-- Number of bytes held. -/
def U.Dynar.Size (buf : U.Dynar) : Nat := buf.length

/-- Hands the accumulated bytes over as an array. -/
def U.Dynar.Flush (buf : U.Dynar) : List Nat := buf

/-- The bytes of a string literal followed by its terminating zero. -/
def literal (s : String) : List Nat := s.toList.map Char.toNat ++ [0]

/-! ## `Token.cpp` -/

/-- Modelled from the spec: the enumeration `TokenSymbol` of `Token.cpp`, with the
enumerators `Lexer.cpp` names; `ofByte c` is the value `(TokenSymbol) c` that the
lexer obtains by casting a byte. -/
inductive TokenSymbol
  | End | Procedure | Datum | Give
  | Nat8 | Nat16 | Nat32 | Nat64 | Int8 | Int16 | Int32 | Int64
  | Identity | Natural | Machine | Real
  | LesserEquivalent | LeftShift | Lesser
  | GreaterEquivalent | RightShift | Greater
  | DoubleColon | Colon
  | Increment | Plus
  | RightArrow | Minus
  | DoubleAnd | And
  | DoubleLine | Line
  | Comment | Slosh
  | Equivalent | Equal
  | None
  | ofByte (c : Nat)
  deriving DecidableEq

/-- Modelled from the spec: the payload union of `Token.cpp`; the constructor is the
field last written. -/
inductive TokenValue
  | Identity (text : List Nat)
  | Integer (value : Int)
  | Machine (value : Nat)
  | Real (value : Real64)
  | None (byte : Nat)
  deriving DecidableEq

/-- Modelled from the spec: a source position `{Line, Column}` of `Token.cpp`. -/
structure TokenPoint where
  Line : Nat
  Column : Nat
  deriving DecidableEq

/-- Modelled from the spec: the record `Token` of `Token.cpp`. -/
structure Token where
  Symbol : TokenSymbol
  Value : TokenValue
  Start : TokenPoint
  End : TokenPoint
  deriving DecidableEq

/-! ## `Lexer.cpp` -/

/-- The enumeration `LexerModule`. -/
inductive LexerModule
  | Alphabetic | Numeric | Natural | Binary | Hexadecimal | Real | Scientific | Symbolic
  deriving DecidableEq

/-- Numeric value of a `LexerModule` enumerator. -/
def LexerModule.toNat : LexerModule → Nat
  | .Alphabetic => 0
  | .Numeric => 1
  | .Natural => 2
  | .Binary => 3
  | .Hexadecimal => 4
  | .Real => 5
  | .Scientific => 6
  | .Symbolic => 7

/-- The enumeration `LexerError`. -/
inductive LexerError
  | WrongFormat | Valueless | Incomplete | Inconvertible | OutOfRange
  deriving DecidableEq

/-- Numeric value of a `LexerError` enumerator (`WrongFormat = 1`). -/
def LexerError.toNat : LexerError → Nat
  | .WrongFormat => 1
  | .Valueless => 2
  | .Incomplete => 3
  | .Inconvertible => 4
  | .OutOfRange => 5

/-- Modelled from the spec: the structured fault `Exception` of `Exception.cpp`, as
`Yeet` builds it: the compiler module is always the lexer, so only the numeric code and
the description are kept. -/
structure Exception where
  code : Nat
  description : List Nat
  deriving DecidableEq

/-- The member data of `Lexer`.  `reads` is not a member: it logs, newest first, the
buffer index of every read of `source`. -/
structure Lexer where
  point : TokenPoint
  index : Int
  source : List Nat
  peek : Nat
  token : Token
  reads : List Int
  deriving DecidableEq

/-- How a member function leaves: by returning, or by the exception that
`Yeet way error` throws; either way with the lexer as it then stands. -/
inductive Outcome
  | returned (s : Lexer)
  | thrown (way : LexerModule) (error : LexerError) (e : Exception) (s : Lexer)
  deriving DecidableEq

namespace Lexer

/-- The value-initialised `token()` member. -/
def emptyToken : Token := ⟨.ofByte 0, .Integer 0, ⟨0, 0⟩, ⟨0, 0⟩⟩

/-- The constructor `Lexer(source)`. -/
def new (source : List Nat) : Lexer :=
  { point := ⟨1, 1⟩
    index := -1
    source := source
    peek := source.getD 0 0
    token := emptyToken
    reads := [0] }

/-- The byte `source[index + offset]`. -/
def Peek (s : Lexer) (offset : Nat) : Nat :=
  s.source.getD (s.index + (offset : Int)).toNat 0

/-- Records that `Peek offset` was evaluated. -/
def logPeek (s : Lexer) (offset : Nat) : Lexer :=
  { s with reads := (s.index + (offset : Int)) :: s.reads }

/-- The member function `Advance`. -/
def Advance (s : Lexer) : Lexer :=
  let s1 : Lexer := { s with index := s.index + 1 }
  let s2 : Lexer := { s1.logPeek 1 with peek := s1.Peek 1 }
  let s3 : Lexer := if s2.peek = 10 then { s2 with point := ⟨s2.point.Line + 1, 0⟩ } else s2
  { s3 with point := ⟨s3.point.Line, s3.point.Column + 1⟩ }

/-- The member function `Yeet`: throws the exception whose code is `error + way`. -/
def Yeet (s : Lexer) (way : LexerModule) (error : LexerError) : Outcome :=
  .thrown way error ⟨(error.toNat + way.toNat) % 2 ^ 64, []⟩ s

/-- The member function `PeekIsValidIdentity`. -/
def PeekIsValidIdentity (s : Lexer) : Bool :=
  U.Text.IsAlphabetic s.peek || s.peek == 95

/-- The assignment `token.Symbol = t`. -/
def setSymbol (s : Lexer) (t : TokenSymbol) : Lexer :=
  { s with token := { s.token with Symbol := t } }

/-- The assignment to the active field of `token.Value`. -/
def setValue (s : Lexer) (v : TokenValue) : Lexer :=
  { s with token := { s.token with Value := v } }

/-- The assignment `token.Start = point`. -/
def setStart (s : Lexer) : Lexer :=
  { s with token := { s.token with Start := s.point } }

/-- The member function `MatchWord`. -/
def MatchWord (s : Lexer) (buf : List Nat) : Lexer :=
  if U.Text.Compare (literal "procedure") buf = 0 then s.setSymbol .Procedure
  else if U.Text.Compare (literal "datum") buf = 0 then s.setSymbol .Datum
  else if U.Text.Compare (literal "give") buf = 0 then s.setSymbol .Give
  else if U.Text.Compare (literal "Nat8") buf = 0 then s.setSymbol .Nat8
  else if U.Text.Compare (literal "Nat16") buf = 0 then s.setSymbol .Nat16
  else if U.Text.Compare (literal "Nat32") buf = 0 then s.setSymbol .Nat32
  else if U.Text.Compare (literal "Nat64") buf = 0 then s.setSymbol .Nat64
  else if U.Text.Compare (literal "Int8") buf = 0 then s.setSymbol .Int8
  else if U.Text.Compare (literal "Int16") buf = 0 then s.setSymbol .Int16
  else if U.Text.Compare (literal "Int32") buf = 0 then s.setSymbol .Int32
  else if U.Text.Compare (literal "Int64") buf = 0 then s.setSymbol .Int64
  else (s.setSymbol .Identity).setValue (.Identity buf)

/-- The `do ... while` loop of `LexAlphabetic`, entered with the buffer `buf`. -/
def alphabeticLoop : Nat → Lexer → U.Dynar → Option (Outcome × U.Dynar)
  | 0, _, _ => none
  | fuel + 1, s, buf =>
    if buf.Size > 1024 then some (s.Yeet .Alphabetic .OutOfRange, buf)
    else
      let buf := buf.Put s.peek
      let s := s.Advance
      if U.Text.IsNumeric s.peek || s.PeekIsValidIdentity then alphabeticLoop fuel s buf
      else some (.returned s, buf)

/-- The member function `LexAlphabetic`. -/
def LexAlphabetic (fuel : Nat) (s : Lexer) : Option Outcome :=
  match alphabeticLoop fuel s [] with
  | none => none
  | some (.thrown way error e s, _) => some (.thrown way error e s)
  | some (.returned s, buf) =>
    let buf := buf.Put 0
    some (.returned (s.MatchWord buf.Flush))

/-- The member function `PutNumericBuf`; the second component is the buffer after it. -/
def PutNumericBuf (s : Lexer) (buf : U.Dynar) : Lexer × U.Dynar :=
  (s.Advance, if s.peek ≠ 95 then buf.Put s.peek else buf)

/-- The member function `PeekIsValidBinary`. -/
def PeekIsValidBinary (s : Lexer) : Bool :=
  s.peek == 48 || s.peek == 49 || s.peek == 95

/-- The member function `PeekIsValidNatural`. -/
def PeekIsValidNatural (s : Lexer) : Bool :=
  U.Text.IsNumeric s.peek || s.peek == 95

/-- The member function `PeekIsValidHexadecimal`. -/
def PeekIsValidHexadecimal (s : Lexer) : Bool :=
  (97 ≤ s.peek && s.peek ≤ 102) || (65 ≤ s.peek && s.peek ≤ 70) || s.PeekIsValidNatural

/-- The loop `do PutNumericBuf(buf); while (PeekIsValidBinary());` of `LexBinary`. -/
def binaryLoop : Nat → Lexer → U.Dynar → Option (Lexer × U.Dynar)
  | 0, _, _ => none
  | fuel + 1, s, buf =>
    let r := s.PutNumericBuf buf
    if r.1.PeekIsValidBinary then binaryLoop fuel r.1 r.2 else some r

/-- The member function `LexBinary`. -/
def LexBinary (fuel : Nat) (s : Lexer) (buf : U.Dynar) : Option Outcome :=
  let s := s.setSymbol .Machine
  if s.PeekIsValidBinary then
    match binaryLoop fuel s buf with
    | none => none
    | some (s, buf) =>
      if buf.Size = 0 then some (s.Yeet .Binary .Valueless)
      else
        match U.Text.ConvertToNatural (buf.Put 0).Flush 2 with
        | .ok v => some (.returned (s.setValue (.Machine v)))
        | .error .InvalidArgument => some (s.Yeet .Binary .Inconvertible)
        | .error .OutOfRange => some (s.Yeet .Binary .OutOfRange)
  else some (s.Yeet .Binary .WrongFormat)

/-- The loop `do PutNumericBuf(buf); while (PeekIsValidHexadecimal());` of
`LexHexadecimal`. -/
def hexadecimalLoop : Nat → Lexer → U.Dynar → Option (Lexer × U.Dynar)
  | 0, _, _ => none
  | fuel + 1, s, buf =>
    let r := s.PutNumericBuf buf
    if r.1.PeekIsValidHexadecimal then hexadecimalLoop fuel r.1 r.2 else some r

/-- The member function `LexHexadecimal`. -/
def LexHexadecimal (fuel : Nat) (s : Lexer) (buf : U.Dynar) : Option Outcome :=
  let s := s.setSymbol .Machine
  if s.PeekIsValidHexadecimal then
    match hexadecimalLoop fuel s buf with
    | none => none
    | some (s, buf) =>
      if buf.Size = 0 then some (s.Yeet .Hexadecimal .Valueless)
      else
        match U.Text.ConvertToNatural (buf.Put 0).Flush 16 with
        | .ok v => some (.returned (s.setValue (.Machine v)))
        | .error .InvalidArgument => some (s.Yeet .Hexadecimal .Inconvertible)
        | .error .OutOfRange => some (s.Yeet .Hexadecimal .OutOfRange)
  else some (s.Yeet .Hexadecimal .WrongFormat)

/-- The `do ... while` loop of `LexReal`, which leaves by `RealYeet` at a second point. -/
def realLoop : Nat → Lexer → U.Dynar → Option (Outcome × U.Dynar)
  | 0, _, _ => none
  | fuel + 1, s, buf =>
    let r := s.PutNumericBuf buf
    if r.1.peek = 46 then some (r.1.Yeet .Real .WrongFormat, r.2)
    else if r.1.PeekIsValidNatural then realLoop fuel r.1 r.2
    else some (.returned r.1, r.2)

/-- The member function `LexReal`. -/
def LexReal (fuel : Nat) (s : Lexer) (buf : U.Dynar) : Option Outcome :=
  let s := s.setSymbol .Real
  match realLoop fuel s buf with
  | none => none
  | some (.thrown way error e s, _) => some (.thrown way error e s)
  | some (.returned s, buf) =>
    match U.Text.ConvertToReal (buf.Put 0).Flush with
    | .ok v => some (.returned (s.setValue (.Real v)))
    | .error .InvalidArgument => some (s.Yeet .Real .Inconvertible)
    | .error .OutOfRange => some (s.Yeet .Real .OutOfRange)

/-- The member function `LexNatural`: each call is one pass of its `do ... while` loop,
which hands over to `LexReal` at a point, goes round again on a digit or underscore, and
otherwise falls through to the statements after the loop. -/
def LexNatural : Nat → Lexer → U.Dynar → Option Outcome
  | 0, _, _ => none
  | fuel + 1, s, buf =>
    let r := s.PutNumericBuf buf
    if r.1.peek = 46 then LexReal fuel r.1 r.2
    else if r.1.PeekIsValidNatural then LexNatural fuel r.1 r.2
    else
      let s := r.1.setSymbol .Natural
      let buf := r.2
      if buf.Size = 0 then some (s.Yeet .Natural .Valueless)
      else
        match U.Text.ConvertToInteger (buf.Put 0).Flush with
        | .ok v => some (.returned (s.setValue (.Integer v)))
        | .error .InvalidArgument => some (s.Yeet .Natural .Inconvertible)
        | .error .OutOfRange => some (s.Yeet .Natural .OutOfRange)

/-- The loop `do Advance(); while (peek == '0');` of `LexNumeric`. -/
def zeroLoop : Nat → Lexer → Option Lexer
  | 0, _ => none
  | fuel + 1, s =>
    let s := s.Advance
    if s.peek = 48 then zeroLoop fuel s else some s

/-- The statements of `LexNumeric` that follow its `if ($ peek == '0')` block. -/
def numericRest (fuel : Nat) (s : Lexer) (buf : U.Dynar) : Option Outcome :=
  if s.PeekIsValidNatural then LexNatural fuel s buf
  else if s.peek = 46 then LexReal fuel s buf
  else some (.returned ((s.setSymbol .Natural).setValue (.Integer 0)))

/-- The member function `LexNumeric`. -/
def LexNumeric (fuel : Nat) (s : Lexer) : Option Outcome :=
  let buf : U.Dynar := []
  if s.peek = 48 then
    let s := s.Advance
    if s.peek = 48 then
      match zeroLoop fuel s with
      | none => none
      | some s => numericRest fuel s buf
    else if s.peek = 98 ∨ s.peek = 66 then LexBinary fuel s.Advance buf
    else if s.peek = 120 ∨ s.peek = 88 then LexHexadecimal fuel s.Advance buf
    else numericRest fuel s buf
  else numericRest fuel s buf

/-- The loop `do Advance(); while (peek != '\n' && peek != '\0');` of the line comment. -/
def lineCommentLoop : Nat → Lexer → Option Lexer
  | 0, _ => none
  | fuel + 1, s =>
    let s := s.Advance
    if s.peek ≠ 10 ∧ s.peek ≠ 0 then lineCommentLoop fuel s else some s

/-- The loop `do Advance(); while (peek != '*' && Peek(2) != '\\' && peek != '\0');` of
the block comment; `Peek(2)` is evaluated only when `peek != '*'` holds. -/
def blockCommentLoop : Nat → Lexer → Option Lexer
  | 0, _ => none
  | fuel + 1, s =>
    let s := s.Advance
    if s.peek ≠ 42 then
      if s.Peek 2 ≠ 92 ∧ s.peek ≠ 0 then blockCommentLoop fuel (s.logPeek 2)
      else some (s.logPeek 2)
    else some s

/-- The label `SINGLE` of `LexSymbolic`. -/
def SINGLE (s : Lexer) : Lexer := s.Advance

/-- The label `DOUBLE` of `LexSymbolic`, which falls through to `SINGLE`. -/
def DOUBLE (s : Lexer) : Lexer := SINGLE s.Advance

/-- The member function `LexSymbolic`.  In the nine cases with an inner
`switch ($ Peek(2))` the byte `c` is what that `Peek(2)` reads. -/
def LexSymbolic (fuel : Nat) (s : Lexer) : Option Lexer :=
  let c := s.Peek 2
  let t := s.logPeek 2
  if s.peek = 60 then
    if c = 61 then some (DOUBLE (t.setSymbol .LesserEquivalent))
    else if c = 60 then some (DOUBLE (t.setSymbol .LeftShift))
    else some (SINGLE (t.setSymbol .Lesser))
  else if s.peek = 62 then
    if c = 61 then some (DOUBLE (t.setSymbol .GreaterEquivalent))
    else if c = 60 then some (DOUBLE (t.setSymbol .RightShift))
    else some (SINGLE (t.setSymbol .Greater))
  else if s.peek = 58 then
    if c = 58 then some (DOUBLE (t.setSymbol .DoubleColon))
    else some (SINGLE (t.setSymbol .Colon))
  else if s.peek = 43 then
    if c = 43 then some (DOUBLE (t.setSymbol .Increment))
    else some (SINGLE (t.setSymbol .Plus))
  else if s.peek = 45 then
    if c = 45 then some (DOUBLE (t.setSymbol .Increment))
    else if c = 62 then some (DOUBLE (t.setSymbol .RightArrow))
    else some (SINGLE (t.setSymbol .Minus))
  else if s.peek = 38 then
    if c = 38 then some (DOUBLE (t.setSymbol .DoubleAnd))
    else some (SINGLE (t.setSymbol .And))
  else if s.peek = 124 then
    if c = 43 then some (DOUBLE (t.setSymbol .DoubleLine))
    else some (SINGLE (t.setSymbol .Line))
  else if s.peek = 92 then
    if c = 92 then lineCommentLoop fuel (t.setSymbol .Comment)
    else if c = 42 then blockCommentLoop fuel (t.setSymbol .Comment)
    else some (SINGLE (t.setSymbol .Slosh))
  else if s.peek = 61 then
    if c = 61 then some (DOUBLE (t.setSymbol .Equivalent))
    else some (SINGLE (t.setSymbol .Equal))
  else if s.peek = 123 ∨ s.peek = 125 ∨ s.peek = 40 ∨ s.peek = 41 ∨ s.peek = 91 ∨
      s.peek = 93 ∨ s.peek = 34 ∨ s.peek = 44 ∨ s.peek = 59 ∨ s.peek = 33 ∨
      s.peek = 63 ∨ s.peek = 64 then
    some (SINGLE (s.setSymbol (.ofByte s.peek)))
  else some (SINGLE ((s.setSymbol .None).setValue (.None s.peek)))

/-- The loop `while (IsWhitespace(peek)) Advance();` of `Lex`. -/
def skipWhitespace : Nat → Lexer → Option Lexer
  | 0, _ => none
  | fuel + 1, s =>
    if U.Text.IsWhitespace s.peek then skipWhitespace fuel s.Advance else some s

/-- The label `EPILOGUE` of `Lex`: sets `token.End` to `{Line, Column - 1}`. -/
def EPILOGUE (s : Lexer) : Lexer :=
  { s with token := { s.token with End := ⟨s.point.Line, s.point.Column - 1⟩ } }

/-- The member function `Lex`.  On `Outcome.returned s` the token handed to the caller
is `s.token`. -/
def Lex (fuel : Nat) (s : Lexer) : Option Outcome :=
  match skipWhitespace fuel s with
  | none => none
  | some s =>
    if s.peek = 0 then some (.returned (EPILOGUE (s.setSymbol .End)))
    else
      let s := s.setStart
      let r : Option Outcome :=
        if U.Text.IsAlphabetic s.peek then LexAlphabetic fuel s
        else if U.Text.IsNumeric s.peek then LexNumeric fuel s
        else (LexSymbolic fuel s).map Outcome.returned
      match r with
      | none => none
      | some (.returned s) => some (.returned (EPILOGUE s))
      | some (.thrown way error e s) => some (.thrown way error e s)

end Lexer

/-! ## Vocabulary of the statements -/

/-- The zero-terminated buffer that holds the input bytes. -/
def buffer (input : List Nat) : List Nat := input ++ [0]

/-- The bytes of a string. -/
def bytes (s : String) : List Nat := s.toList.map Char.toNat

/-- The token a call hands back, when it returned one. -/
def Outcome.token? : Outcome → Option Token
  | .returned s => some s.token
  | .thrown _ _ _ _ => none

/-- The lexer as the call left it. -/
def Outcome.state : Outcome → Lexer
  | .returned s => s
  | .thrown _ _ _ s => s

/-- The cursor: the buffer index of the lookahead byte. -/
def Lexer.cursor (s : Lexer) : Int := s.index + 1

/-- The lexer stands between the bytes `pre`, which it has passed, and the bytes `post`,
the first of which is its lookahead. -/
structure Lexer.At (s : Lexer) (pre post : List Nat) : Prop where
  source : s.source = pre ++ post
  index : s.index + 1 = pre.length
  peek : s.peek = post.headD 0

/-- The two-byte forms of the operator table of the spec, keyed by first and second byte. -/
def specDouble (c d : Nat) : Option TokenSymbol :=
  if c = 60 ∧ d = 61 then some .LesserEquivalent
  else if c = 60 ∧ d = 60 then some .LeftShift
  else if c = 62 ∧ d = 61 then some .GreaterEquivalent
  else if c = 62 ∧ d = 60 then some .RightShift
  else if c = 58 ∧ d = 58 then some .DoubleColon
  else if c = 43 ∧ d = 43 then some .Increment
  else if c = 45 ∧ d = 45 then some .Increment
  else if c = 45 ∧ d = 62 then some .RightArrow
  else if c = 38 ∧ d = 38 then some .DoubleAnd
  else if c = 124 ∧ d = 43 then some .DoubleLine
  else if c = 61 ∧ d = 61 then some .Equivalent
  else none

/-- The one-byte forms of the operator table of the spec, keyed by the byte. -/
def specSingle (c : Nat) : Option TokenSymbol :=
  if c = 60 then some .Lesser
  else if c = 62 then some .Greater
  else if c = 58 then some .Colon
  else if c = 43 then some .Plus
  else if c = 45 then some .Minus
  else if c = 38 then some .And
  else if c = 124 then some .Line
  else if c = 61 then some .Equal
  else none

/-- The shape that the digit loops of `LexBinary` and `LexHexadecimal` share,
`do PutNumericBuf(buf); while (valid(peek));`, with the test on the lookahead left open. -/
def Lexer.putLoop (valid : Nat → Bool) : Nat → Lexer → U.Dynar → Option (Lexer × U.Dynar)
  | 0, _, _ => none
  | fuel + 1, s, buf =>
    let r := s.PutNumericBuf buf
    if valid r.1.peek then Lexer.putLoop valid fuel r.1 r.2 else some r

/-- The value of a byte as a hexadecimal digit, in the words of the spec: `0`-`9`,
`a`-`f`, `A`-`F`. -/
def specDigit (c : Nat) : Option Nat :=
  if 48 ≤ c ∧ c ≤ 57 then some (c - 48)
  else if 97 ≤ c ∧ c ≤ 102 then some (c - 97 + 10)
  else if 65 ≤ c ∧ c ≤ 70 then some (c - 65 + 10)
  else none

/-- A byte is a digit of the base. -/
def specIsDigit (base c : Nat) : Bool :=
  match specDigit c with
  | some d => decide (d < base)
  | none => false

/-- The run with its underscores removed. -/
def specStrip (run : List Nat) : List Nat := run.filter (fun c => c ≠ 95)

/-- The value in the base of a run of digits and underscores: the underscores are
removed and the digits read most significant first. -/
def specValue (base : Nat) (run : List Nat) : Nat :=
  Nat.ofDigits base (((specStrip run).map (fun c => (specDigit c).getD 0)).reverse)

/-- The base that the letter after the leading `0` announces: `b`, `B` for two and
`x`, `X` for sixteen. -/
def specRadix (p : Nat) : Option Nat :=
  if p = 98 ∨ p = 66 then some 2
  else if p = 120 ∨ p = 88 then some 16
  else none

/-- The sub-scanner in charge of the literals of a base. -/
def specScanner (base : Nat) : LexerModule :=
  if base = 2 then .Binary else .Hexadecimal

/-- What `Lex` does with the way its sub-scanner left: a return goes through `EPILOGUE`,
an exception passes unchanged. -/
def Outcome.epilogue : Outcome → Outcome
  | .returned s => .returned s.EPILOGUE
  | .thrown way error e s => .thrown way error e s

/-- A byte that continues an identifier: a letter, a decimal digit or an underscore. -/
def specIsWordByte (c : Nat) : Bool :=
  U.Text.IsAlphabetic c || U.Text.IsNumeric c || c == 95

/-- The keyword set of the spec: the tag of a run that is exactly, case-sensitively, one
of the eleven keywords, and `none` for every other run. -/
def specKeyword (run : List Nat) : Option TokenSymbol :=
  if run = bytes "procedure" then some .Procedure
  else if run = bytes "datum" then some .Datum
  else if run = bytes "give" then some .Give
  else if run = bytes "Nat8" then some .Nat8
  else if run = bytes "Nat16" then some .Nat16
  else if run = bytes "Nat32" then some .Nat32
  else if run = bytes "Nat64" then some .Nat64
  else if run = bytes "Int8" then some .Int8
  else if run = bytes "Int16" then some .Int16
  else if run = bytes "Int32" then some .Int32
  else if run = bytes "Int64" then some .Int64
  else none

/-- What the caller observes of a call, positions and lexer state left aside: the tag and
payload of the token handed back, or the scanner, kind and code of the fault. -/
inductive Verdict
  | token (symbol : TokenSymbol) (value : TokenValue)
  | fault (way : LexerModule) (error : LexerError) (code : Nat)
  deriving DecidableEq

/-- The verdict of a way of leaving. -/
def Outcome.verdict : Outcome → Verdict
  | .returned s => .token s.token.Symbol s.token.Value
  | .thrown way error e _ => .fault way error e.code

/-- The run without its leading zeros. -/
def specSignificant (run : List Nat) : List Nat := run.dropWhile (fun c => c == 48)

/-- The statements of `LexReal` that follow its loop, on the lexer and buffer the loop
left. -/
def Lexer.realFinish (s : Lexer) (buf : U.Dynar) : Outcome :=
  match U.Text.ConvertToReal (buf.Put 0).Flush with
  | .ok v => .returned (s.setValue (.Real v))
  | .error .InvalidArgument => s.Yeet .Real .Inconvertible
  | .error .OutOfRange => s.Yeet .Real .OutOfRange

/-- The statements of `LexNatural` that follow its loop, on the lexer and buffer the
loop left. -/
def Lexer.naturalFinish (s : Lexer) (buf : U.Dynar) : Outcome :=
  if buf.Size = 0 then (s.setSymbol .Natural).Yeet .Natural .Valueless
  else
    match U.Text.ConvertToInteger (buf.Put 0).Flush with
    | .ok v => .returned ((s.setSymbol .Natural).setValue (.Integer v))
    | .error .InvalidArgument => (s.setSymbol .Natural).Yeet .Natural .Inconvertible
    | .error .OutOfRange => (s.setSymbol .Natural).Yeet .Natural .OutOfRange

/-- The verdict on a run of decimal digits and underscores when the underscores are pure
separators: the `Natural` token of the value of the run, or `OutOfRange` of the natural
scanner (code 5 + 2) when the value does not fit a signed 64-bit integer. -/
def specDecimalVerdict (run : List Nat) : Verdict :=
  if specValue 10 run < 2 ^ 63 then .token .Natural (.Integer (specValue 10 run))
  else .fault .Natural .OutOfRange 7

/-- The index of the terminator: the first index at which the buffer holds a zero byte. -/
def terminator (src : List Nat) : Nat := src.indexOf 0

/-- The cursor and lookahead invariant over the buffer `src`: the cursor lies between
the start of the buffer and its terminator, the lookahead is the buffer byte at the
cursor, and every read logged so far was at an index within those bounds. -/
structure Lexer.Good (src : List Nat) (s : Lexer) : Prop where
  source : s.source = src
  lower : 0 ≤ s.cursor
  upper : s.cursor ≤ terminator src
  peek : s.peek = src.getD s.cursor.toNat 0
  reads : ∀ i ∈ s.reads, 0 ≤ i ∧ i ≤ terminator src

/-- The lexer states reachable over the buffer `src`: the one the constructor builds and
every one that a `Lex` call on a reachable state leaves, by a return or an exception. -/
inductive Lexer.Reachable (src : List Nat) : Lexer → Prop
  | construct : Lexer.Reachable src (Lexer.new src)
  | call (fuel : Nat) (s : Lexer) (o : Outcome) :
      Lexer.Reachable src s → Lexer.Lex fuel s = some o → Lexer.Reachable src o.state

/-- What holds of the way `o` in which a scanner or loop entered at `s` leaves: the
invariant, a cursor that did not move back, and on a return a cursor that moved on. -/
structure Lexer.Moved (src : List Nat) (s : Lexer) (o : Outcome) : Prop where
  good : o.state.Good src
  le : s.cursor ≤ o.state.cursor
  lt : ∀ t, o = .returned t → s.cursor < t.cursor

/-- The sub-scanner that `Lex` runs on the lookahead byte, after the whitespace and the
test for the terminator. -/
def Lexer.dispatch (fuel : Nat) (s : Lexer) : Option Outcome :=
  if U.Text.IsAlphabetic s.peek then Lexer.LexAlphabetic fuel s
  else if U.Text.IsNumeric s.peek then Lexer.LexNumeric fuel s
  else (Lexer.LexSymbolic fuel s).map Outcome.returned

/-- The lexer after `n` successive `Lex` calls that each returned a token other than
`End`; `none` when one of the calls returned `End`, raised a fault or ran out of fuel. -/
def Lexer.tokens (fuel : Nat) : Nat → Lexer → Option Lexer
  | 0, s => some s
  | n + 1, s =>
    match Lexer.Lex fuel s with
    | some (.returned t) => if t.token.Symbol = .End then none else Lexer.tokens fuel n t
    | _ => none

/-! ## The cursor under `Advance` -/

theorem At_new (src : List Nat) : (Lexer.new src).At [] src := by
  constructor
  · simp [Lexer.new]
  · simp [Lexer.new]
  · cases src <;> simp [Lexer.new]

theorem Advance_source (s : Lexer) : s.Advance.source = s.source := by
  simp only [Lexer.Advance, Lexer.logPeek]; split <;> rfl

theorem Advance_index (s : Lexer) : s.Advance.index = s.index + 1 := by
  simp only [Lexer.Advance, Lexer.logPeek]; split <;> rfl

theorem Advance_token (s : Lexer) : s.Advance.token = s.token := by
  simp only [Lexer.Advance, Lexer.logPeek]; split <;> rfl

theorem Advance_peek (s : Lexer) :
    s.Advance.peek = s.source.getD (s.index + 1 + 1).toNat 0 := by
  simp only [Lexer.Advance, Lexer.logPeek, Lexer.Peek]; split <;> simp

theorem getD_append_cons_succ (pre post : List Nat) (c : Nat) :
    (pre ++ c :: post).getD (pre.length + 1) 0 = post.headD 0 := by
  induction pre with
  | nil => cases post <;> rfl
  | cons a pre ih => simpa using ih

theorem Lexer.At.advance {s : Lexer} {pre post : List Nat} {c : Nat}
    (h : s.At pre (c :: post)) : s.Advance.At (pre ++ [c]) post := by
  obtain ⟨h1, h2, _⟩ := h
  refine ⟨?_, ?_, ?_⟩
  · rw [Advance_source, h1]; simp
  · rw [Advance_index, h2]; simp
  · rw [Advance_peek, h1, h2]
    have : ((pre.length : Int) + 1).toNat = pre.length + 1 := by omega
    rw [this, getD_append_cons_succ]

theorem Lexer.At.peek_cons {s : Lexer} {pre post : List Nat} {c : Nat}
    (h : s.At pre (c :: post)) : s.peek = c := by
  simpa using h.peek

theorem Lexer.At.cursor_eq {s : Lexer} {pre post : List Nat} (h : s.At pre post) :
    s.cursor = pre.length := h.index

theorem Lexer.At.setSymbol {s : Lexer} {pre post : List Nat} (h : s.At pre post)
    (t : TokenSymbol) : (s.setSymbol t).At pre post := ⟨h.source, h.index, h.peek⟩

theorem Lexer.At.setValue {s : Lexer} {pre post : List Nat} (h : s.At pre post)
    (v : TokenValue) : (s.setValue v).At pre post := ⟨h.source, h.index, h.peek⟩

theorem Lexer.At.setStart {s : Lexer} {pre post : List Nat} (h : s.At pre post) :
    s.setStart.At pre post := ⟨h.source, h.index, h.peek⟩

theorem Lexer.At.logPeek {s : Lexer} {pre post : List Nat} (h : s.At pre post)
    (k : Nat) : (s.logPeek k).At pre post := ⟨h.source, h.index, h.peek⟩

theorem Lexer.At.Peek_two {s : Lexer} {pre post : List Nat} {c : Nat}
    (h : s.At pre (c :: post)) : s.Peek 2 = post.headD 0 := by
  have hi : (s.index + ((2 : Nat) : Int)).toNat = pre.length + 1 := by
    have := h.index; omega
  rw [Lexer.Peek, hi, h.source, getD_append_cons_succ]

/-! ## The driver on whitespace -/

theorem skipWhitespace_run (ws : List Nat) (hws : ∀ c ∈ ws, U.Text.IsWhitespace c = true)
    (post : List Nat) (hpost : U.Text.IsWhitespace (post.headD 0) = false) :
    ∀ (fuel : Nat) (s : Lexer) (pre : List Nat), ws.length < fuel → s.At pre (ws ++ post) →
      ∃ t, Lexer.skipWhitespace fuel s = some t ∧ t.At (pre ++ ws) post ∧
        t.token = s.token := by
  induction ws with
  | nil =>
    intro fuel s pre hf h
    obtain ⟨n, rfl⟩ : ∃ n, fuel = n + 1 := ⟨fuel - 1, by simp at hf; omega⟩
    refine ⟨s, ?_, by simpa using h, rfl⟩
    have hp : s.peek = post.headD 0 := by simpa using h.peek
    simp only [Lexer.skipWhitespace, hp, hpost]; rfl
  | cons c ws ih =>
    intro fuel s pre hf h
    obtain ⟨n, rfl⟩ : ∃ n, fuel = n + 1 := ⟨fuel - 1, by simp at hf; omega⟩
    have hp : s.peek = c := by simpa using h.peek
    have hc : U.Text.IsWhitespace c = true := hws c (by simp)
    obtain ⟨t, ht, hat, htok⟩ := ih (fun d hd => hws d (by simp [hd])) n s.Advance (pre ++ [c])
      (by simp at hf; omega) (by simpa using h.advance)
    refine ⟨t, ?_, by simpa using hat, by rw [htok, Advance_token]⟩
    simp only [Lexer.skipWhitespace, hp, hc, ht]; rfl

/-- With nothing to skip the whitespace loop hands the lexer back unchanged. -/
theorem skipWhitespace_none (fuel : Nat) (s : Lexer)
    (h : U.Text.IsWhitespace s.peek = false) :
    Lexer.skipWhitespace (fuel + 1) s = some s := by
  simp [Lexer.skipWhitespace, h]

/-- C9: on an input made only of whitespace bytes (the empty input included) the first
`Lex` call, given fuel beyond the length of the input, returns without a fault a token
whose `Symbol` is `End`, the cursor then standing on the terminator. -/
theorem Lex_whitespace_End (ws : List Nat)
    (hws : ∀ c ∈ ws, U.Text.IsWhitespace c = true) (fuel : Nat) (hfuel : ws.length < fuel) :
    ∃ s, Lexer.Lex fuel (Lexer.new (buffer ws)) = some (.returned s) ∧
      s.token.Symbol = .End ∧ s.cursor = ws.length := by
  obtain ⟨t, ht, hat, _⟩ := skipWhitespace_run ws hws [0] (by decide) fuel
    (Lexer.new (buffer ws)) [] hfuel (by simpa [buffer] using At_new (ws ++ [0]))
  have hp : t.peek = 0 := by simpa using hat.peek
  refine ⟨Lexer.EPILOGUE (t.setSymbol .End), ?_, rfl, ?_⟩
  · simp [Lexer.Lex, ht, hp]
  · have := hat.index
    simpa [Lexer.cursor, Lexer.EPILOGUE, Lexer.setSymbol] using this

theorem Lex_whitespace_End_witness :
    ∃ s, Lexer.Lex 4 (Lexer.new (buffer [32, 10, 9])) = some (.returned s) ∧
      s.token.Symbol = .End ∧ s.cursor = ([32, 10, 9] : List Nat).length :=
  Lex_whitespace_End [32, 10, 9] (by decide) 4 (by decide)

/-! ## The symbolic scanner -/

theorem specSingle_cases {c : Nat} {one : TokenSymbol} (h : specSingle c = some one) :
    c = 60 ∨ c = 62 ∨ c = 58 ∨ c = 43 ∨ c = 45 ∨ c = 38 ∨ c = 124 ∨ c = 61 := by
  unfold specSingle at h
  by_contra hne
  simp only [not_or] at hne
  simp [hne] at h

@[simp] theorem EPILOGUE_Symbol (s : Lexer) : s.EPILOGUE.token.Symbol = s.token.Symbol := rfl
@[simp] theorem EPILOGUE_index (s : Lexer) : s.EPILOGUE.index = s.index := rfl
@[simp] theorem setSymbol_index (s : Lexer) (t : TokenSymbol) :
    (s.setSymbol t).index = s.index := rfl
@[simp] theorem setSymbol_Symbol (s : Lexer) (t : TokenSymbol) :
    (s.setSymbol t).token.Symbol = t := rfl
@[simp] theorem logPeek_index (s : Lexer) (k : Nat) : (s.logPeek k).index = s.index := rfl
@[simp] theorem logPeek_token (s : Lexer) (k : Nat) : (s.logPeek k).token = s.token := rfl
@[simp] theorem SINGLE_index (s : Lexer) : (Lexer.SINGLE s).index = s.index + 1 :=
  Advance_index s
@[simp] theorem SINGLE_token (s : Lexer) : (Lexer.SINGLE s).token = s.token :=
  Advance_token s
@[simp] theorem DOUBLE_index (s : Lexer) : (Lexer.DOUBLE s).index = s.index + 2 := by
  simp only [Lexer.DOUBLE, Lexer.SINGLE, Advance_index]; omega
@[simp] theorem DOUBLE_token (s : Lexer) : (Lexer.DOUBLE s).token = s.token := by
  simp [Lexer.DOUBLE, Advance_token]

theorem LexSymbolic_munch (s : Lexer) (c d : Nat) (one : TokenSymbol)
    (hc : specSingle c = some one) (hp : s.peek = c) (hd : s.Peek 2 = d) (fuel : Nat) :
    Lexer.LexSymbolic fuel s = some (
      match specDouble c d with
      | some two => Lexer.DOUBLE ((s.logPeek 2).setSymbol two)
      | none => Lexer.SINGLE ((s.logPeek 2).setSymbol one)) := by
  rcases specSingle_cases hc with rfl | rfl | rfl | rfl | rfl | rfl | rfl | rfl <;>
    simp [specSingle] at hc <;> subst hc
  · by_cases h1 : d = 61
    · subst h1; simp [Lexer.LexSymbolic, hp, hd, specDouble]
    · by_cases h2 : d = 60
      · subst h2; simp [Lexer.LexSymbolic, hp, hd, specDouble]
      · simp [Lexer.LexSymbolic, hp, hd, specDouble, h1, h2]
  · by_cases h1 : d = 61
    · subst h1; simp [Lexer.LexSymbolic, hp, hd, specDouble]
    · by_cases h2 : d = 60
      · subst h2; simp [Lexer.LexSymbolic, hp, hd, specDouble]
      · simp [Lexer.LexSymbolic, hp, hd, specDouble, h1, h2]
  · by_cases h1 : d = 58
    · subst h1; simp [Lexer.LexSymbolic, hp, hd, specDouble]
    · simp [Lexer.LexSymbolic, hp, hd, specDouble, h1]
  · by_cases h1 : d = 43
    · subst h1; simp [Lexer.LexSymbolic, hp, hd, specDouble]
    · simp [Lexer.LexSymbolic, hp, hd, specDouble, h1]
  · by_cases h1 : d = 45
    · subst h1; simp [Lexer.LexSymbolic, hp, hd, specDouble]
    · by_cases h2 : d = 62
      · subst h2; simp [Lexer.LexSymbolic, hp, hd, specDouble]
      · simp [Lexer.LexSymbolic, hp, hd, specDouble, h1, h2]
  · by_cases h1 : d = 38
    · subst h1; simp [Lexer.LexSymbolic, hp, hd, specDouble]
    · simp [Lexer.LexSymbolic, hp, hd, specDouble, h1]
  · by_cases h1 : d = 43
    · subst h1; simp [Lexer.LexSymbolic, hp, hd, specDouble]
    · simp [Lexer.LexSymbolic, hp, hd, specDouble, h1]
  · by_cases h1 : d = 61
    · subst h1; simp [Lexer.LexSymbolic, hp, hd, specDouble]
    · simp [Lexer.LexSymbolic, hp, hd, specDouble, h1]

/-- On a lookahead byte that is neither whitespace, terminator, letter nor digit, `Lex`
records `Start`, runs `LexSymbolic` and goes to `EPILOGUE`. -/
theorem Lex_of_symbolic (fuel : Nat) (s : Lexer) (hw : U.Text.IsWhitespace s.peek = false)
    (h0 : s.peek ≠ 0) (ha : U.Text.IsAlphabetic s.peek = false)
    (hn : U.Text.IsNumeric s.peek = false) :
    Lexer.Lex (fuel + 1) s =
      (Lexer.LexSymbolic (fuel + 1) s.setStart).map
        (fun t => Outcome.returned t.EPILOGUE) := by
  have hp : s.setStart.peek = s.peek := rfl
  simp only [Lexer.Lex, skipWhitespace_none fuel s hw, if_neg h0, hp, ha, hn]
  cases Lexer.LexSymbolic (fuel + 1) s.setStart <;> simp

/-- C4: maximal munch with one byte of lookahead.  When the first byte `c` of the input
is one of `< > : + - & | =` and `d` is the byte after it (the terminator when the input
ends there), `Lex` returns the two-byte tag of the table and moves the cursor from 0 to
2 when `c d` is a two-byte form, and otherwise returns the one-byte tag of `c` and moves
the cursor from 0 to 1, where the lookahead is then `d`, for the next call to scan. -/
theorem Lex_symbolic_maximal_munch (c : Nat) (rest : List Nat) (one : TokenSymbol)
    (hc : specSingle c = some one) (fuel : Nat) (hfuel : 0 < fuel) :
    ∃ s, Lexer.Lex fuel (Lexer.new (buffer (c :: rest))) = some (.returned s) ∧
      (Lexer.new (buffer (c :: rest))).cursor = 0 ∧
      match specDouble c ((buffer rest).headD 0) with
      | some two => s.token.Symbol = two ∧ s.cursor = 2
      | none => s.token.Symbol = one ∧ s.cursor = 1 ∧ s.peek = (buffer rest).headD 0 := by
  obtain ⟨n, rfl⟩ : ∃ n, fuel = n + 1 := ⟨fuel - 1, by omega⟩
  have hat : (Lexer.new (buffer (c :: rest))).At [] (c :: buffer rest) := by
    simpa [buffer] using At_new (buffer (c :: rest))
  have hp := hat.peek_cons
  have hcs := specSingle_cases hc
  rw [Lex_of_symbolic n _ (by rw [hp]; rcases hcs with h | h | h | h | h | h | h | h <;> subst h <;> rfl)
    (by rw [hp]; omega)
    (by rw [hp]; rcases hcs with h | h | h | h | h | h | h | h <;> subst h <;> rfl)
    (by rw [hp]; rcases hcs with h | h | h | h | h | h | h | h <;> subst h <;> rfl)]
  rw [LexSymbolic_munch (Lexer.new (buffer (c :: rest))).setStart
    c ((buffer rest).headD 0) one hc hp hat.setStart.Peek_two (n + 1)]
  have hu : ∀ k, (((Lexer.new (buffer (c :: rest))).setStart.logPeek 2).setSymbol k).At []
      (c :: buffer rest) := fun k => (hat.setStart.logPeek 2).setSymbol k
  cases hsd : specDouble c ((buffer rest).headD 0) with
  | none =>
    have h1 := (hu one).advance
    refine ⟨_, rfl, rfl, ?_, ?_, ?_⟩
    · show (Lexer.SINGLE _).token.Symbol = one
      rw [SINGLE_token]
      rfl
    · exact h1.cursor_eq
    · exact h1.peek
  | some two =>
    refine ⟨_, rfl, rfl, by simp, ?_⟩
    show (Lexer.DOUBLE _).index + 1 = 2
    rw [DOUBLE_index]
    rfl

theorem Lex_symbolic_maximal_munch_witness :
    (∃ s, Lexer.Lex 1 (Lexer.new (buffer (bytes "<="))) = some (.returned s) ∧
      (Lexer.new (buffer (bytes "<="))).cursor = 0 ∧
      s.token.Symbol = .LesserEquivalent ∧ s.cursor = 2) ∧
    (∃ s, Lexer.Lex 1 (Lexer.new (buffer (bytes "<x"))) = some (.returned s) ∧
      (Lexer.new (buffer (bytes "<x"))).cursor = 0 ∧
      s.token.Symbol = .Lesser ∧ s.cursor = 1 ∧ s.peek = 120) :=
  ⟨Lex_symbolic_maximal_munch 60 [61] .Lesser rfl 1 (by decide),
    Lex_symbolic_maximal_munch 60 [120] .Lesser rfl 1 (by decide)⟩

/-- On `"<x"` the first call returns `Lesser` and the call after it the identifier `x`. -/
theorem Lex_lesser_then_identity :
    ∃ s t, Lexer.Lex 3 (Lexer.new (buffer (bytes "<x"))) = some (.returned s) ∧
      s.token.Symbol = .Lesser ∧ s.cursor = 1 ∧
      Lexer.Lex 3 s = some (.returned t) ∧
      t.token.Symbol = .Identity ∧ t.token.Value = .Identity (buffer (bytes "x")) :=
  ⟨_, _, rfl, rfl, rfl, rfl, rfl, rfl⟩

/-! ## Positions around a newline -/

/-- C6 at `"ab\ncd"`: the second call returns the token for `cd`, the first byte of which
directly follows the newline, with `Start = {Line: 2, Column: 2}`, not column 1. -/
theorem Lex_after_newline_Start :
    ∃ s t, Lexer.Lex 4 (Lexer.new (buffer (bytes "ab\ncd"))) = some (.returned s) ∧
      Lexer.Lex 4 s = some (.returned t) ∧
      t.token.Symbol = .Identity ∧ t.token.Value = .Identity (buffer (bytes "cd")) ∧
      t.token.Start = ⟨2, 2⟩ :=
  ⟨_, _, rfl, rfl, rfl, rfl, rfl⟩

/-- C10 at `"ab\ncd"`: the first call returns the token for `ab`, whose last byte is at
line 1, column 2, with `End = {Line: 2, Column: 0}`. -/
theorem Lex_before_newline_End :
    ∃ s, Lexer.Lex 4 (Lexer.new (buffer (bytes "ab\ncd"))) = some (.returned s) ∧
      s.token.Symbol = .Identity ∧ s.token.Value = .Identity (buffer (bytes "ab")) ∧
      s.token.Start = ⟨1, 1⟩ ∧ s.token.End = ⟨2, 0⟩ :=
  ⟨_, rfl, rfl, rfl, rfl, rfl⟩

/-- The position that `Advance` gives the lookahead: a newline coming under the lookahead
is put at column 1 of the next line, and any other byte one column further on the line
of the byte before it, also when that byte is a newline. -/
theorem Advance_point (s : Lexer) :
    s.Advance.point =
      if s.Advance.peek = 10 then ⟨s.point.Line + 1, 1⟩
      else ⟨s.point.Line, s.point.Column + 1⟩ := by
  simp only [Lexer.Advance, Lexer.logPeek]
  split <;> simp_all

/-! ## The block comment -/

/-- The block-comment loop leaves after its first `Advance` when that puts an asterisk
under the lookahead. -/
theorem blockCommentLoop_asterisk (fuel : Nat) (s : Lexer) (h : s.Advance.peek = 42) :
    Lexer.blockCommentLoop (fuel + 1) s = some s.Advance := by
  simp [Lexer.blockCommentLoop, h]

/-- On every input that begins with backslash, asterisk the call returns a `Comment`
token having consumed the backslash only: the cursor is left on the opening asterisk. -/
theorem Lex_block_comment_stops (rest : List Nat) (fuel : Nat) :
    ∃ s, Lexer.Lex (fuel + 1) (Lexer.new (buffer (92 :: 42 :: rest))) = some (.returned s) ∧
      s.token.Symbol = .Comment ∧ s.cursor = 1 ∧ s.peek = 42 := by
  have hat : (Lexer.new (buffer (92 :: 42 :: rest))).At [] (92 :: 42 :: buffer rest) := by
    simpa [buffer] using At_new (buffer (92 :: 42 :: rest))
  have hp := hat.peek_cons
  rw [Lex_of_symbolic fuel _ (by rw [hp]; rfl) (by rw [hp]; decide) (by rw [hp]; rfl)
    (by rw [hp]; rfl)]
  have hat2 := ((hat.setStart.logPeek 2).setSymbol .Comment).advance
  refine ⟨((((Lexer.new (buffer (92 :: 42 :: rest))).setStart.logPeek 2).setSymbol
    .Comment).Advance).EPILOGUE, ?_, ?_, ?_, hat2.peek_cons⟩
  · have hP : (Lexer.new (buffer (92 :: 42 :: rest))).setStart.Peek 2 = 42 := by
      simpa using hat.setStart.Peek_two
    have hq : (Lexer.new (buffer (92 :: 42 :: rest))).setStart.peek = 92 := hp
    simp only [Lexer.LexSymbolic, hq, hP]
    simp only [Nat.reduceEqDiff, if_false, if_true]
    rw [blockCommentLoop_asterisk _ _ hat2.peek_cons]
    rfl
  · simp [Advance_token]
  · simp [Lexer.cursor, Advance_index, Lexer.new, Lexer.setStart]

/-- C8 at the unterminated `"\* abc"`: the first call returns `Comment` with the cursor
on the asterisk at index 1, five bytes before the terminator, and the next call returns
the unrecognized-character token for that asterisk, not `End`. -/
theorem Lex_unterminated_block_comment :
    ∃ s t, Lexer.Lex 8 (Lexer.new (buffer (bytes "\\* abc"))) = some (.returned s) ∧
      s.token.Symbol = .Comment ∧ s.cursor = 1 ∧
      Lexer.Lex 8 s = some (.returned t) ∧
      t.token.Symbol = .None ∧ t.token.Value = .None 42 ∧ t.cursor = 2 :=
  ⟨_, _, rfl, rfl, rfl, rfl, rfl, rfl, rfl⟩

/-! ## The digit loops -/

theorem putLoop_run (valid : Nat → Bool) (run : List Nat)
    (hrun : ∀ c ∈ run, valid c = true) (post : List Nat)
    (hpost : valid (post.headD 0) = false) :
    ∀ (fuel : Nat) (s : Lexer) (pre : List Nat) (buf : U.Dynar) (c : Nat),
      run.length < fuel → s.At pre (c :: run ++ post) →
      ∃ t, Lexer.putLoop valid fuel s buf = some (t, buf ++ specStrip (c :: run)) ∧
        t.At (pre ++ c :: run) post ∧ t.token = s.token := by
  induction run with
  | nil =>
    intro fuel s pre buf c hf h
    obtain ⟨n, rfl⟩ : ∃ n, fuel = n + 1 := ⟨fuel - 1, by simp at hf; omega⟩
    have hp : s.peek = c := h.peek_cons
    have ha := h.advance
    have hq : s.Advance.peek = post.headD 0 := by simpa using ha.peek
    refine ⟨s.Advance, ?_, by simpa using ha, Advance_token s⟩
    simp only [Lexer.putLoop, Lexer.PutNumericBuf, hq, hpost, hp]
    by_cases hc : c = 95 <;> simp [specStrip, hc, U.Dynar.Put]
  | cons d run ih =>
    intro fuel s pre buf c hf h
    obtain ⟨n, rfl⟩ : ∃ n, fuel = n + 1 := ⟨fuel - 1, by simp at hf; omega⟩
    have hp : s.peek = c := h.peek_cons
    have ha : s.Advance.At (pre ++ [c]) (d :: run ++ post) := by simpa using h.advance
    have hq : s.Advance.peek = d := ha.peek_cons
    have hd : valid d = true := hrun d (by simp)
    obtain ⟨t, ht, hat, htok⟩ := ih (fun e he => hrun e (by simp [he])) n s.Advance
      (pre ++ [c]) (if c ≠ 95 then buf.Put c else buf) d (by simp at hf; omega) ha
    refine ⟨t, ?_, by simpa using hat, by rw [htok, Advance_token]⟩
    simp only [Lexer.putLoop, Lexer.PutNumericBuf, hq, hd, hp, if_true, ht]
    by_cases hc : c = 95 <;> simp [specStrip, hc, U.Dynar.Put, List.filter_cons]

theorem binaryLoop_eq_putLoop (fuel : Nat) (s : Lexer) (buf : U.Dynar) :
    Lexer.binaryLoop fuel s buf =
      Lexer.putLoop (fun c => c == 48 || c == 49 || c == 95) fuel s buf := by
  induction fuel generalizing s buf with
  | zero => rfl
  | succ n ih => simp only [Lexer.binaryLoop, Lexer.putLoop, Lexer.PeekIsValidBinary, ih]

theorem hexadecimalLoop_eq_putLoop (fuel : Nat) (s : Lexer) (buf : U.Dynar) :
    Lexer.hexadecimalLoop fuel s buf =
      Lexer.putLoop (fun c => (97 ≤ c && c ≤ 102) || (65 ≤ c && c ≤ 70) ||
        (U.Text.IsNumeric c || c == 95)) fuel s buf := by
  induction fuel generalizing s buf with
  | zero => rfl
  | succ n ih =>
    simp only [Lexer.hexadecimalLoop, Lexer.putLoop, Lexer.PeekIsValidHexadecimal,
      Lexer.PeekIsValidNatural, ih]

/-! ## The conversions on digit texts -/

theorem digitValue_of_specDigit {c d : Nat} (h : specDigit c = some d) :
    U.Text.digitValue c = some d := by
  unfold specDigit at h
  unfold U.Text.digitValue
  split_ifs at h with h1 h2 h3 <;> split_ifs <;> simp_all <;> omega

theorem specIsDigit_elim {base c : Nat} (h : specIsDigit base c = true) :
    ∃ d, specDigit c = some d ∧ d < base := by
  unfold specIsDigit at h
  cases hd : specDigit c with
  | none => simp [hd] at h
  | some d => exact ⟨d, rfl, by simpa [hd] using h⟩

theorem scanDigits_digits (base : Nat) (ds : List Nat)
    (hds : ∀ c ∈ ds, specIsDigit base c) :
    ∀ a : Nat, U.Text.scanDigits base (ds ++ [0]) (some a) =
      some (a * base ^ ds.length +
        Nat.ofDigits base ((ds.map (fun c => (specDigit c).getD 0)).reverse)) := by
  induction ds with
  | nil => intro a; simp [U.Text.scanDigits, U.Text.digitValue]
  | cons c cs ih =>
    intro a
    obtain ⟨d, hd, hlt⟩ := specIsDigit_elim (hds c (by simp))
    have hv := digitValue_of_specDigit hd
    simp only [List.cons_append, U.Text.scanDigits, hv, hlt, if_true, Option.getD_some]
    change U.Text.scanDigits base (cs ++ [0]) (some (a * base + d)) = _
    rw [ih (fun e he => hds e (by simp [he]))]
    simp only [List.map_cons, List.reverse_cons, Nat.ofDigits_append, Nat.ofDigits_singleton,
      List.length_reverse, List.length_map, List.length_cons, hd, Option.getD_some]
    congr 1
    ring

theorem scanDigits_text (base : Nat) (ds : List Nat)
    (hds : ∀ c ∈ ds, specIsDigit base c) (hne : ds ≠ []) :
    U.Text.scanDigits base (ds ++ [0]) none =
      some (Nat.ofDigits base ((ds.map (fun c => (specDigit c).getD 0)).reverse)) := by
  cases ds with
  | nil => exact absurd rfl hne
  | cons c cs =>
    obtain ⟨d, hd, hlt⟩ := specIsDigit_elim (hds c (by simp))
    have hv := digitValue_of_specDigit hd
    simp only [List.cons_append, U.Text.scanDigits, hv, hlt, if_true]
    change U.Text.scanDigits base (cs ++ [0]) (some (none.getD 0 * base + d)) = _
    rw [scanDigits_digits base cs (fun e he => hds e (by simp [he]))]
    simp only [List.map_cons, List.reverse_cons, Nat.ofDigits_append, Nat.ofDigits_singleton,
      List.length_reverse, List.length_map, hd, Option.getD_some, Option.getD_none]
    congr 1
    ring

theorem specStrip_isDigit {base : Nat} {run : List Nat}
    (hrun : ∀ c ∈ run, c = 95 ∨ specIsDigit base c) :
    ∀ c ∈ specStrip run, specIsDigit base c := by
  intro c hc
  simp only [specStrip, List.mem_filter, decide_eq_true_eq] at hc
  rcases hrun c hc.1 with h | h
  · exact absurd h hc.2
  · exact h

theorem specStrip_ne_nil {run : List Nat} (hdig : ∃ c ∈ run, c ≠ 95) : specStrip run ≠ [] := by
  obtain ⟨c, hc, hne⟩ := hdig
  intro h
  have : c ∈ specStrip run := by simp [specStrip, hc, hne]
  rw [h] at this
  simp at this

theorem ConvertToNatural_run (base : Nat) (run : List Nat)
    (hrun : ∀ c ∈ run, c = 95 ∨ specIsDigit base c) (hdig : ∃ c ∈ run, c ≠ 95)
    (hval : specValue base run < 2 ^ 64) :
    U.Text.ConvertToNatural (specStrip run ++ [0]) base = .ok (specValue base run) := by
  unfold U.Text.ConvertToNatural
  rw [scanDigits_text base _ (specStrip_isDigit hrun) (specStrip_ne_nil hdig)]
  simp only [specValue] at hval ⊢
  rw [if_pos hval]

/-! ## The binary and hexadecimal scanners -/

theorem LexBinary_run (run : List Nat) (hrun : ∀ c ∈ run, c = 95 ∨ specIsDigit 2 c)
    (hne : run ≠ []) (fuel : Nat) (s : Lexer) (pre : List Nat) (hf : run.length ≤ fuel)
    (h : s.At pre (run ++ [0])) :
    ∃ t : Lexer, t.At (pre ++ run) [0] ∧
      t.token.Symbol = .Machine ∧
      (specStrip run = [] → Lexer.LexBinary fuel s [] = some (t.Yeet .Binary .Valueless)) ∧
      (∀ v, specStrip run ≠ [] →
        U.Text.ConvertToNatural (specStrip run ++ [0]) 2 = .ok v →
        Lexer.LexBinary fuel s [] = some (.returned (t.setValue (.Machine v)))) := by
  have hvalid : ∀ c ∈ run, (fun c => c == 48 || c == 49 || c == 95) c = true := by
    intro c hc
    rcases (hrun c hc).imp_right specIsDigit_elim with h95 | ⟨d, hd, hlt⟩
    · simp [h95]
    · unfold specDigit at hd
      split_ifs at hd with h1 h2 h3 <;> simp at hd <;>
        simp only [Bool.or_eq_true, beq_iff_eq] <;> omega
  cases run with
  | nil => exact absurd rfl hne
  | cons c run =>
    have hs : (s.setSymbol .Machine).At pre (c :: run ++ [0]) := by
      simpa using h.setSymbol .Machine
    obtain ⟨t, ht, hat, htok⟩ := putLoop_run _ run (fun e he => hvalid e (by simp [he])) [0]
      (by decide) fuel (s.setSymbol .Machine) pre [] c (by simpa using hf) hs
    have hpv : (s.setSymbol .Machine).PeekIsValidBinary = true := by
      have := hvalid c (by simp)
      simpa [Lexer.PeekIsValidBinary, hs.peek_cons] using this
    refine ⟨t, hat, by rw [htok]; rfl, ?_, ?_⟩
    · intro h0
      simp only [Lexer.LexBinary, hpv, if_true, binaryLoop_eq_putLoop, ht, List.nil_append,
        U.Dynar.Size, List.length_eq_zero, h0]
    · intro v h0 hv
      simp only [Lexer.LexBinary, hpv, if_true, binaryLoop_eq_putLoop, ht, List.nil_append,
        U.Dynar.Size, U.Dynar.Put, U.Dynar.Flush, List.length_eq_zero, h0, if_false, hv]

theorem LexHexadecimal_run (run : List Nat) (hrun : ∀ c ∈ run, c = 95 ∨ specIsDigit 16 c)
    (hne : run ≠ []) (fuel : Nat) (s : Lexer) (pre : List Nat) (hf : run.length ≤ fuel)
    (h : s.At pre (run ++ [0])) :
    ∃ t : Lexer, t.At (pre ++ run) [0] ∧
      t.token.Symbol = .Machine ∧
      (specStrip run = [] → Lexer.LexHexadecimal fuel s [] = some (t.Yeet .Hexadecimal .Valueless)) ∧
      (∀ v, specStrip run ≠ [] →
        U.Text.ConvertToNatural (specStrip run ++ [0]) 16 = .ok v →
        Lexer.LexHexadecimal fuel s [] = some (.returned (t.setValue (.Machine v)))) := by
  have hvalid : ∀ c ∈ run, (fun c => (97 ≤ c && c ≤ 102) || (65 ≤ c && c ≤ 70) ||
        (U.Text.IsNumeric c || c == 95)) c = true := by
    intro c hc
    rcases (hrun c hc).imp_right specIsDigit_elim with h95 | ⟨d, hd, hlt⟩
    · simp [h95]
    · unfold specDigit at hd
      split_ifs at hd with h1 h2 h3 <;> simp at hd <;>
        simp only [Bool.or_eq_true, Bool.and_eq_true, decide_eq_true_eq, beq_iff_eq,
          U.Text.IsNumeric] <;> omega
  cases run with
  | nil => exact absurd rfl hne
  | cons c run =>
    have hs : (s.setSymbol .Machine).At pre (c :: run ++ [0]) := by
      simpa using h.setSymbol .Machine
    obtain ⟨t, ht, hat, htok⟩ := putLoop_run _ run (fun e he => hvalid e (by simp [he])) [0]
      (by decide) fuel (s.setSymbol .Machine) pre [] c (by simpa using hf) hs
    have hpv : (s.setSymbol .Machine).PeekIsValidHexadecimal = true := by
      have := hvalid c (by simp)
      simpa [Lexer.PeekIsValidHexadecimal, Lexer.PeekIsValidNatural, hs.peek_cons] using this
    refine ⟨t, hat, by rw [htok]; rfl, ?_, ?_⟩
    · intro h0
      simp only [Lexer.LexHexadecimal, hpv, if_true, hexadecimalLoop_eq_putLoop, ht,
        List.nil_append, U.Dynar.Size, List.length_eq_zero, h0]
    · intro v h0 hv
      simp only [Lexer.LexHexadecimal, hpv, if_true, hexadecimalLoop_eq_putLoop, ht,
        List.nil_append, U.Dynar.Size, U.Dynar.Put, U.Dynar.Flush, List.length_eq_zero, h0,
        if_false, hv]

/-! ## The driver on a digit -/

/-- On a lookahead byte that is a decimal digit `Lex` records `Start` and runs
`LexNumeric`. -/
theorem Lex_of_numeric (fuel : Nat) (s : Lexer) (hn : U.Text.IsNumeric s.peek = true) :
    Lexer.Lex (fuel + 1) s = (Lexer.LexNumeric (fuel + 1) s.setStart).map Outcome.epilogue := by
  have hb : 48 ≤ s.peek ∧ s.peek ≤ 57 := by
    simpa [U.Text.IsNumeric] using hn
  have hw : U.Text.IsWhitespace s.peek = false := by
    simp [U.Text.IsWhitespace]; omega
  have h0 : s.peek ≠ 0 := by omega
  have ha : U.Text.IsAlphabetic s.peek = false := by
    simp [U.Text.IsAlphabetic]; omega
  have hp : s.setStart.peek = s.peek := rfl
  simp only [Lexer.Lex, skipWhitespace_none fuel s hw, if_neg h0, hp, ha, hn]
  cases Lexer.LexNumeric (fuel + 1) s.setStart with
  | none => rfl
  | some o => cases o <;> rfl

theorem specRadix_cases {p base : Nat} (h : specRadix p = some base) :
    ((p = 98 ∨ p = 66) ∧ base = 2) ∨ ((p = 120 ∨ p = 88) ∧ base = 16) := by
  unfold specRadix at h
  split_ifs at h with h1 h2
  · left; exact ⟨h1, by simpa using h.symm⟩
  · right; exact ⟨h2, by simpa using h.symm⟩

/-- After `0` and the letter of the base `LexNumeric` hands the bytes that follow to the
scanner of that base. -/
theorem LexNumeric_radix (p base : Nat) (hp : specRadix p = some base) (fuel : Nat)
    (s : Lexer) (post : List Nat) (h : s.At [] (48 :: p :: post)) :
    s.Advance.Advance.At [48, p] post ∧
    Lexer.LexNumeric fuel s =
      if base = 2 then Lexer.LexBinary fuel s.Advance.Advance []
      else Lexer.LexHexadecimal fuel s.Advance.Advance [] := by
  have h1 : s.Advance.At [48] (p :: post) := by simpa using h.advance
  have h2 : s.Advance.Advance.At [48, p] post := by simpa using h1.advance
  refine ⟨h2, ?_⟩
  have hs : s.peek = 48 := h.peek_cons
  have hq : s.Advance.peek = p := h1.peek_cons
  rcases specRadix_cases hp with ⟨hp2, hb⟩ | ⟨hp2, hb⟩
  · subst hb
    rcases hp2 with hp2 | hp2 <;> simp [Lexer.LexNumeric, hs, hq, hp2]
  · subst hb
    rcases hp2 with hp2 | hp2 <;> simp [Lexer.LexNumeric, hs, hq, hp2]

theorem Lex_radix_literal (p base : Nat) (run : List Nat) (hp : specRadix p = some base)
    (hrun : ∀ c ∈ run, c = 95 ∨ specIsDigit base c) (hne : run ≠ [])
    (fuel : Nat) (hfuel : run.length ≤ fuel) :
    ∃ t : Lexer, t.At (48 :: p :: run) [0] ∧ t.token.Symbol = .Machine ∧
      (specStrip run = [] →
        Lexer.Lex fuel (Lexer.new (buffer (48 :: p :: run))) =
          some (Outcome.epilogue (t.Yeet (specScanner base) .Valueless))) ∧
      (∀ v, specStrip run ≠ [] →
        U.Text.ConvertToNatural (specStrip run ++ [0]) base = .ok v →
        Lexer.Lex fuel (Lexer.new (buffer (48 :: p :: run))) =
          some (Outcome.epilogue (.returned (t.setValue (.Machine v))))) := by
  obtain ⟨n, rfl⟩ : ∃ n, fuel = n + 1 :=
    ⟨fuel - 1, by have := List.length_pos.mpr hne; omega⟩
  have hat : (Lexer.new (buffer (48 :: p :: run))).setStart.At [] (48 :: p :: (run ++ [0])) := by
    simpa [buffer] using (At_new (buffer (48 :: p :: run))).setStart
  have hnum : U.Text.IsNumeric (Lexer.new (buffer (48 :: p :: run))).peek = true := by
    rw [(At_new (buffer (48 :: p :: run))).peek]; rfl
  obtain ⟨h2, hL⟩ := LexNumeric_radix p base hp (n + 1) _ _ hat
  rw [Lex_of_numeric n _ hnum, hL]
  rcases specRadix_cases hp with ⟨_, hb⟩ | ⟨_, hb⟩ <;> subst hb
  · obtain ⟨t, hat, hsym, hA, hB⟩ := LexBinary_run run hrun hne (n + 1) _ _ hfuel h2
    refine ⟨t, by simpa using hat, hsym, fun h0 => ?_, fun v h0 hv => ?_⟩
    · simp [hA h0, specScanner]
    · simp [hB v h0 hv]
  · obtain ⟨t, hat, hsym, hA, hB⟩ := LexHexadecimal_run run hrun hne (n + 1) _ _ hfuel h2
    refine ⟨t, by simpa using hat, hsym, fun h0 => ?_, fun v h0 hv => ?_⟩
    · simp [hA h0, specScanner]
    · simp [hB v h0 hv]

/-- C1: on an input that is exactly `0`, the letter of a base (`b`, `B` for two, `x`, `X`
for sixteen) and a run of digits of that base and underscores with at least one digit
and a value below `2 ^ 64`, the first `Lex` call returns a `Machine` token whose value
is the value in that base of the run with its underscores removed. -/
theorem Lex_machine_literal (p base : Nat) (run : List Nat) (hp : specRadix p = some base)
    (hrun : ∀ c ∈ run, c = 95 ∨ specIsDigit base c) (hdig : ∃ c ∈ run, c ≠ 95)
    (hval : specValue base run < 2 ^ 64) (fuel : Nat) (hfuel : run.length ≤ fuel) :
    ∃ s, Lexer.Lex fuel (Lexer.new (buffer (48 :: p :: run))) = some (.returned s) ∧
      s.token.Symbol = .Machine ∧ s.token.Value = .Machine (specValue base run) := by
  have hne : run ≠ [] := by
    obtain ⟨c, hc, _⟩ := hdig
    exact List.ne_nil_of_mem hc
  obtain ⟨t, _, hsym, _, hB⟩ := Lex_radix_literal p base run hp hrun hne fuel hfuel
  exact ⟨_, hB _ (specStrip_ne_nil hdig) (ConvertToNatural_run base run hrun hdig hval),
    hsym, rfl⟩

theorem Lex_machine_literal_witness :
    (∃ s, Lexer.Lex 4 (Lexer.new (buffer (bytes "0b1010"))) = some (.returned s) ∧
      s.token.Symbol = .Machine ∧ s.token.Value = .Machine 10) ∧
    (∃ s, Lexer.Lex 2 (Lexer.new (buffer (bytes "0x1F"))) = some (.returned s) ∧
      s.token.Symbol = .Machine ∧ s.token.Value = .Machine 31) :=
  ⟨Lex_machine_literal 98 2 (bytes "1010") rfl (by decide) (by decide) (by decide) 4
      (by decide),
    Lex_machine_literal 120 16 (bytes "1F") rfl (by decide) (by decide) (by decide) 2
      (by decide)⟩

/-- C7: on an input that is exactly `0`, the letter of a base and one or more underscores
`Lex` returns no token: it leaves by the exception `Valueless` of the scanner of that
base, `Binary` for `0b`, `0B` and `Hexadecimal` for `0x`, `0X`. -/
theorem Lex_machine_valueless (p base : Nat) (run : List Nat) (hp : specRadix p = some base)
    (hrun : ∀ c ∈ run, c = 95) (hne : run ≠ []) (fuel : Nat) (hfuel : run.length ≤ fuel) :
    ∃ o e s, Lexer.Lex fuel (Lexer.new (buffer (48 :: p :: run))) = some o ∧
      o = .thrown (specScanner base) .Valueless e s ∧ o.token? = none := by
  obtain ⟨t, _, _, hA, _⟩ := Lex_radix_literal p base run hp
    (fun c hc => Or.inl (hrun c hc)) hne fuel hfuel
  have h0 : specStrip run = [] := by
    simp only [specStrip, List.filter_eq_nil_iff]
    intro c hc
    simp [hrun c hc]
  exact ⟨_, _, _, hA h0, rfl, rfl⟩

theorem Lex_machine_valueless_witness :
    ∃ o e s, Lexer.Lex 3 (Lexer.new (buffer (bytes "0b___"))) = some o ∧
      o = .thrown .Binary .Valueless e s ∧ o.token? = none :=
  Lex_machine_valueless 98 2 (bytes "___") rfl (by decide) (by decide) 3 (by decide)

/-! ## The natural scanner -/

theorem isNumeric_of_specIsDigit {c : Nat} (h : specIsDigit 10 c = true) :
    U.Text.IsNumeric c = true := by
  obtain ⟨d, hd, hlt⟩ := specIsDigit_elim h
  unfold specDigit at hd
  split_ifs at hd with h1 h2 h3 <;> simp at hd <;> simp [U.Text.IsNumeric] <;> omega

theorem LexNatural_run (run : List Nat) (hrun : ∀ c ∈ run, c = 95 ∨ specIsDigit 10 c) :
    ∀ (fuel : Nat) (s : Lexer) (pre : List Nat) (buf : U.Dynar) (c : Nat),
      run.length < fuel → s.At pre (c :: run ++ [0]) →
      ∃ t : Lexer, t.At (pre ++ c :: run) [0] ∧ t.token.Symbol = .Natural ∧
        t.token.Value = s.token.Value ∧
        (buf ++ specStrip (c :: run) = [] →
          Lexer.LexNatural fuel s buf = some (t.Yeet .Natural .Valueless)) ∧
        (∀ v, buf ++ specStrip (c :: run) ≠ [] →
          U.Text.ConvertToInteger (buf ++ specStrip (c :: run) ++ [0]) = .ok v →
          Lexer.LexNatural fuel s buf = some (.returned (t.setValue (.Integer v)))) := by
  induction run with
  | nil =>
    intro fuel s pre buf c hf h
    obtain ⟨n, rfl⟩ : ∃ n, fuel = n + 1 := ⟨fuel - 1, by simp at hf; omega⟩
    have hp : s.peek = c := h.peek_cons
    have ha : s.Advance.At (pre ++ [c]) [0] := by simpa using h.advance
    have hq : s.Advance.peek = 0 := ha.peek_cons
    have hb : (if c ≠ 95 then buf.Put c else buf) = buf ++ specStrip [c] := by
      by_cases hc : c = 95 <;> simp [specStrip, hc, U.Dynar.Put]
    refine ⟨s.Advance.setSymbol .Natural, ha.setSymbol _, rfl, ?_, ?_, ?_⟩
    · show s.Advance.token.Value = _
      rw [Advance_token]
    · intro h0
      simp only [Lexer.LexNatural, Lexer.PutNumericBuf, hq, hp, hb, Lexer.PeekIsValidNatural,
        U.Dynar.Size, List.length_eq_zero, h0]
      simp [U.Text.IsNumeric]
    · intro v h0 hv
      simp only [Lexer.LexNatural, Lexer.PutNumericBuf, hq, hp, hb, Lexer.PeekIsValidNatural,
        U.Dynar.Size, List.length_eq_zero, h0]
      simp only [U.Dynar.Put, U.Dynar.Flush, hv]
      simp [U.Text.IsNumeric]
  | cons d run ih =>
    intro fuel s pre buf c hf h
    obtain ⟨n, rfl⟩ : ∃ n, fuel = n + 1 := ⟨fuel - 1, by simp at hf; omega⟩
    have hp : s.peek = c := h.peek_cons
    have ha : s.Advance.At (pre ++ [c]) (d :: run ++ [0]) := by simpa using h.advance
    have hq : s.Advance.peek = d := ha.peek_cons
    have hb : (if c ≠ 95 then buf.Put c else buf) = buf ++ specStrip [c] := by
      by_cases hc : c = 95 <;> simp [specStrip, hc, U.Dynar.Put]
    have hd46 : d ≠ 46 ∧ (U.Text.IsNumeric d || d == 95) = true := by
      rcases hrun d (by simp) with h95 | hdig
      · subst h95; decide
      · have := isNumeric_of_specIsDigit hdig
        have hb : 48 ≤ d ∧ d ≤ 57 := by simpa [U.Text.IsNumeric] using this
        exact ⟨by omega, by simp [this]⟩
    obtain ⟨t, hat, hsym, hval, hA, hB⟩ := ih (fun e he => hrun e (by simp [he])) n s.Advance
      (pre ++ [c]) (buf ++ specStrip [c]) d (by simp at hf; omega) ha
    have hstrip : buf ++ specStrip [c] ++ specStrip (d :: run) = buf ++ specStrip (c :: d :: run) := by
      simp [specStrip, List.filter_cons]
      split_ifs <;> simp
    rw [hstrip] at hA hB
    refine ⟨t, by simpa using hat, hsym, by rw [hval, Advance_token], ?_, ?_⟩
    · intro h0
      simp only [Lexer.LexNatural, Lexer.PutNumericBuf, hq, hp, hb, Lexer.PeekIsValidNatural,
        hd46.1, hd46.2, if_false, if_true, hA h0]
    · intro v h0 hv
      simp only [Lexer.LexNatural, Lexer.PutNumericBuf, hq, hp, hb, Lexer.PeekIsValidNatural,
        hd46.1, hd46.2, if_false, if_true, hB v h0 hv]

theorem specStrip_digits {base : Nat} {run : List Nat}
    (hrun : ∀ c ∈ run, specIsDigit base c = true) : specStrip run = run := by
  simp only [specStrip, List.filter_eq_self, decide_eq_true_eq]
  intro c hc h95
  subst h95
  have := hrun 95 hc
  simp [specIsDigit, specDigit] at this

theorem ConvertToInteger_run (run : List Nat) (hrun : ∀ c ∈ run, specIsDigit 10 c = true)
    (hne : run ≠ []) (hval : specValue 10 run < 2 ^ 63) :
    U.Text.ConvertToInteger (run ++ [0]) = .ok ((specValue 10 run : Nat) : Int) := by
  unfold U.Text.ConvertToInteger
  rw [scanDigits_text 10 run hrun hne]
  simp only [specValue, specStrip_digits hrun] at hval ⊢
  rw [if_pos hval]

theorem numericRest_digits (tail : List Nat) (htail : ∀ c ∈ tail, specIsDigit 10 c = true)
    (hval : specValue 10 tail < 2 ^ 63) (fuel : Nat) (s : Lexer) (pre : List Nat)
    (hf : tail.length ≤ fuel) (h : s.At pre (tail ++ [0])) :
    ∃ t : Lexer, Lexer.numericRest fuel s [] = some (.returned t) ∧
      t.At (pre ++ tail) [0] ∧ t.token.Symbol = .Natural ∧
      t.token.Value = .Integer ((specValue 10 tail : Nat) : Int) := by
  cases tail with
  | nil =>
    have hp : s.peek = 0 := h.peek_cons
    refine ⟨(s.setSymbol .Natural).setValue (.Integer 0), ?_,
      by simpa using (h.setSymbol _).setValue _, rfl, ?_⟩
    · simp [Lexer.numericRest, Lexer.PeekIsValidNatural, hp, U.Text.IsNumeric]
    · simp [Lexer.setValue, specValue, specStrip]
  | cons c run =>
    have hp : s.peek = c := h.peek_cons
    have hc := isNumeric_of_specIsDigit (htail c (by simp))
    obtain ⟨t, hat, hsym, _, _, hB⟩ := LexNatural_run run
      (fun e he => Or.inr (htail e (by simp [he]))) fuel s pre [] c (by simpa using hf) h
    have hs : specStrip (c :: run) = c :: run := specStrip_digits htail
    refine ⟨t.setValue (.Integer ((specValue 10 (c :: run) : Nat) : Int)), ?_,
      hat.setValue _, hsym, rfl⟩
    simp only [Lexer.numericRest, Lexer.PeekIsValidNatural, hp, hc, Bool.true_or, if_true]
    have hconv := ConvertToInteger_run (c :: run) htail (List.cons_ne_nil c run) hval
    exact hB _ (by simp [hs]) (by simpa [hs] using hconv)

theorem zeroLoop_run (zs : List Nat) (hzs : ∀ c ∈ zs, c = 48) (post : List Nat)
    (hpost : post.headD 0 ≠ 48) :
    ∀ (fuel : Nat) (s : Lexer) (pre : List Nat) (c : Nat),
      zs.length < fuel → s.At pre (c :: zs ++ post) →
      ∃ t, Lexer.zeroLoop fuel s = some t ∧ t.At (pre ++ c :: zs) post ∧
        t.token = s.token := by
  induction zs with
  | nil =>
    intro fuel s pre c hf h
    obtain ⟨n, rfl⟩ : ∃ n, fuel = n + 1 := ⟨fuel - 1, by simp at hf; omega⟩
    have ha := h.advance
    have hq : s.Advance.peek = post.headD 0 := by simpa using ha.peek
    refine ⟨s.Advance, ?_, by simpa using ha, Advance_token s⟩
    simp only [Lexer.zeroLoop, hq, if_neg hpost]
  | cons d zs ih =>
    intro fuel s pre c hf h
    obtain ⟨n, rfl⟩ : ∃ n, fuel = n + 1 := ⟨fuel - 1, by simp at hf; omega⟩
    have ha : s.Advance.At (pre ++ [c]) (d :: zs ++ post) := by simpa using h.advance
    have hq : s.Advance.peek = 48 := by rw [ha.peek_cons]; exact hzs d (by simp)
    obtain ⟨t, ht, hat, htok⟩ := ih (fun e he => hzs e (by simp [he])) n s.Advance
      (pre ++ [c]) d (by simp at hf; omega) ha
    refine ⟨t, ?_, by simpa using hat, by rw [htok, Advance_token]⟩
    simp only [Lexer.zeroLoop, hq, if_true, ht]

theorem ofDigits_append_zeros (b : Nat) (L zs : List Nat) (hzs : ∀ d ∈ zs, d = 0) :
    Nat.ofDigits b (L ++ zs) = Nat.ofDigits b L := by
  have hz : Nat.ofDigits b zs = 0 := by
    induction zs with
    | nil => rfl
    | cons d zs ih =>
      rw [Nat.ofDigits_cons, ih (fun e he => hzs e (by simp [he])), hzs d (by simp)]
      simp
  rw [Nat.ofDigits_append, hz]
  simp

theorem specValue_leading_zeros (zs tail : List Nat) (hzs : ∀ c ∈ zs, c = 48) :
    specValue 10 (zs ++ tail) = specValue 10 tail := by
  have h1 : specStrip (zs ++ tail) = zs ++ specStrip tail := by
    simp only [specStrip, List.filter_append]
    congr 1
    simp only [List.filter_eq_self, decide_eq_true_eq]
    intro c hc
    rw [hzs c hc]
    decide
  simp only [specValue, h1, List.map_append, List.reverse_append]
  apply ofDigits_append_zeros
  intro d hd
  simp only [List.mem_reverse, List.mem_map] at hd
  obtain ⟨c, hc, rfl⟩ := hd
  rw [hzs c hc]
  rfl

theorem exists_zeros_split (rest : List Nat) :
    ∃ zs tail, rest = zs ++ tail ∧ (∀ c ∈ zs, c = 48) ∧ (tail ++ [0]).headD 0 ≠ 48 := by
  induction rest with
  | nil => exact ⟨[], [], rfl, by simp, by decide⟩
  | cons c rest ih =>
    by_cases hc : c = 48
    · obtain ⟨zs, tail, h1, h2, h3⟩ := ih
      refine ⟨c :: zs, tail, by simp [h1], ?_, h3⟩
      intro d hd
      rcases List.mem_cons.mp hd with h | h
      · rw [h, hc]
      · exact h2 d h
    · exact ⟨[], c :: rest, rfl, by simp, by simpa using hc⟩

theorem LexNumeric_digits (run : List Nat) (hrun : ∀ c ∈ run, specIsDigit 10 c = true)
    (hne : run ≠ []) (hval : specValue 10 run < 2 ^ 63) (fuel : Nat) (s : Lexer)
    (hf : run.length ≤ fuel) (h : s.At [] (run ++ [0])) :
    ∃ t : Lexer, Lexer.LexNumeric fuel s = some (.returned t) ∧
      t.At run [0] ∧ t.token.Symbol = .Natural ∧
      t.token.Value = .Integer ((specValue 10 run : Nat) : Int) := by
  cases run with
  | nil => exact absurd rfl hne
  | cons c rest =>
    have hp : s.peek = c := h.peek_cons
    by_cases hc : c = 48
    · subst hc
      obtain ⟨zs, tail, hsplit, hzs, htl⟩ := exists_zeros_split rest
      subst hsplit
      have hv : specValue 10 (48 :: (zs ++ tail)) = specValue 10 tail :=
        specValue_leading_zeros (48 :: zs) tail (by
          intro d hd
          rcases List.mem_cons.mp hd with h | h
          · exact h
          · exact hzs d h)
      have htail : ∀ e ∈ tail, specIsDigit 10 e = true := fun e he => hrun e (by simp [he])
      have hlen : zs.length + tail.length + 1 ≤ fuel := by
        simp only [List.length_cons, List.length_append] at hf
        omega
      rw [hv] at hval ⊢
      have h1 : s.Advance.At [48] (zs ++ tail ++ [0]) := by simpa using h.advance
      cases zs with
      | nil =>
        have h1a : s.Advance.At [48] (tail ++ [0]) := by simpa using h1
        have hq : s.Advance.peek = (tail ++ [0]).headD 0 := h1a.peek
        have hq2 : s.Advance.peek ≠ 98 ∧ s.Advance.peek ≠ 66 ∧ s.Advance.peek ≠ 120 ∧
            s.Advance.peek ≠ 88 := by
          rw [hq]
          cases tail with
          | nil => simp
          | cons e tail =>
            have := isNumeric_of_specIsDigit (htail e (by simp))
            have hb : 48 ≤ e ∧ e ≤ 57 := by simpa [U.Text.IsNumeric] using this
            simp only [List.cons_append, List.headD_cons]
            omega
        obtain ⟨t, ht, hat, hsym, hvl⟩ := numericRest_digits tail htail hval fuel s.Advance
          [48] (by omega) h1a
        refine ⟨t, ?_, by simpa using hat, hsym, hvl⟩
        simp only [Lexer.LexNumeric, hp, if_true, hq ▸ htl, if_false, hq2.1, hq2.2.1,
          hq2.2.2.1, hq2.2.2.2, or_self, ht]
      | cons z zs =>
        have hz : z = 48 := hzs z (by simp)
        subst hz
        have h1a : s.Advance.At [48] (48 :: zs ++ (tail ++ [0])) := by simpa using h1
        have hq : s.Advance.peek = 48 := h1a.peek_cons
        obtain ⟨u, hu, hatu, _⟩ := zeroLoop_run zs (fun e he => hzs e (by simp [he]))
          (tail ++ [0]) htl fuel s.Advance [48] 48
          (by simp only [List.length_cons] at hlen; omega) h1a
        obtain ⟨t, ht, hat, hsym, hvl⟩ := numericRest_digits tail htail hval fuel u
          ([48] ++ 48 :: zs) (by simp only [List.length_cons] at hlen; omega) hatu
        refine ⟨t, ?_, by simpa using hat, hsym, hvl⟩
        simp only [Lexer.LexNumeric, hp, if_true, hq, hu, ht]
    · obtain ⟨t, ht, hat, hsym, hvl⟩ := numericRest_digits (c :: rest) hrun hval fuel s []
        hf h
      refine ⟨t, ?_, by simpa using hat, hsym, hvl⟩
      simp only [Lexer.LexNumeric, hp, if_neg hc, ht]

/-- C2: on an input that is exactly a non-empty run of decimal digits whose value is at
most `2 ^ 63 - 1`, the first `Lex` call returns a `Natural` token whose signed value is
the decimal value of the run; leading zeros, which `specValue` reads as digits of value
zero, do not change it. -/
theorem Lex_natural_literal (run : List Nat) (hrun : ∀ c ∈ run, specIsDigit 10 c = true)
    (hne : run ≠ []) (hval : specValue 10 run ≤ 2 ^ 63 - 1) (fuel : Nat)
    (hfuel : run.length ≤ fuel) :
    ∃ s, Lexer.Lex fuel (Lexer.new (buffer run)) = some (.returned s) ∧
      s.token.Symbol = .Natural ∧
      s.token.Value = .Integer ((specValue 10 run : Nat) : Int) := by
  obtain ⟨n, rfl⟩ : ∃ n, fuel = n + 1 :=
    ⟨fuel - 1, by have := List.length_pos.mpr hne; omega⟩
  have hat : (Lexer.new (buffer run)).setStart.At [] (run ++ [0]) := by
    simpa [buffer] using (At_new (buffer run)).setStart
  have hnum : U.Text.IsNumeric (Lexer.new (buffer run)).peek = true := by
    rw [(At_new (buffer run)).peek]
    cases run with
    | nil => exact absurd rfl hne
    | cons c rest => exact isNumeric_of_specIsDigit (hrun c (by simp))
  obtain ⟨t, ht, _, hsym, hvl⟩ := LexNumeric_digits run hrun hne (by omega) (n + 1) _
    hfuel hat
  exact ⟨t.EPILOGUE, by rw [Lex_of_numeric n _ hnum, ht]; rfl, hsym, hvl⟩

theorem Lex_natural_literal_witness :
    (∃ s, Lexer.Lex 3 (Lexer.new (buffer (bytes "123"))) = some (.returned s) ∧
      s.token.Symbol = .Natural ∧ s.token.Value = .Integer 123) ∧
    (∃ s, Lexer.Lex 5 (Lexer.new (buffer (bytes "00123"))) = some (.returned s) ∧
      s.token.Symbol = .Natural ∧ s.token.Value = .Integer 123) ∧
    (∃ s, Lexer.Lex 1 (Lexer.new (buffer (bytes "0"))) = some (.returned s) ∧
      s.token.Symbol = .Natural ∧ s.token.Value = .Integer 0) ∧
    (∃ s, Lexer.Lex 2 (Lexer.new (buffer (bytes "00"))) = some (.returned s) ∧
      s.token.Symbol = .Natural ∧ s.token.Value = .Integer 0) :=
  ⟨Lex_natural_literal (bytes "123") (by decide) (by decide) (by decide) 3 (by decide),
    Lex_natural_literal (bytes "00123") (by decide) (by decide) (by decide) 5 (by decide),
    Lex_natural_literal (bytes "0") (by decide) (by decide) (by decide) 1 (by decide),
    Lex_natural_literal (bytes "00") (by decide) (by decide) (by decide) 2 (by decide)⟩

/-! ## The identifier scanner -/

theorem Compare_eq_zero_iff (a : List Nat) (ha : ∀ x ∈ a, x ≠ 0) :
    ∀ b : List Nat, (∀ y ∈ b, y ≠ 0) →
      (U.Text.Compare (a ++ [0]) (b ++ [0]) = 0 ↔ b = a) := by
  induction a with
  | nil =>
    intro b hb
    cases b with
    | nil => simp [U.Text.Compare]
    | cons y ys =>
      have hy : y ≠ 0 := hb y (by simp)
      have hy2 : ¬ (0 = y) := fun h => hy h.symm
      simp only [List.nil_append, List.cons_append, U.Text.Compare, if_neg hy2]
      simp
      omega
  | cons x xs ih =>
    intro b hb
    have hx : x ≠ 0 := ha x (by simp)
    cases b with
    | nil =>
      simp only [List.nil_append, List.cons_append, U.Text.Compare, if_neg hx]
      simp
      omega
    | cons y ys =>
      simp only [List.cons_append, U.Text.Compare]
      by_cases hxy : x = y
      · subst hxy
        simp only [if_true, if_neg hx]
        have := ih (fun z hz => ha z (by simp [hz])) ys (fun z hz => hb z (by simp [hz]))
        simpa using this
      · simp only [if_neg hxy]
        have : ((x : Int) - (y : Int) = 0) ↔ False := by
          constructor
          · intro h; exact hxy (by omega)
          · exact False.elim
        rw [this]
        simp
        intro h
        exact absurd h.symm hxy

theorem Compare_literal (kw : String) (hkw : ∀ x ∈ bytes kw, x ≠ 0) (run : List Nat)
    (hrun : ∀ y ∈ run, y ≠ 0) :
    (U.Text.Compare (literal kw) (run ++ [0]) = 0) = (run = bytes kw) :=
  propext (Compare_eq_zero_iff (bytes kw) hkw run hrun)

theorem MatchWord_run (s : Lexer) (run : List Nat) (hrun : ∀ y ∈ run, y ≠ 0) :
    s.MatchWord (run ++ [0]) =
      match specKeyword run with
      | some k => s.setSymbol k
      | none => (s.setSymbol .Identity).setValue (.Identity (run ++ [0])) := by
  unfold Lexer.MatchWord specKeyword
  have h1 := Compare_literal "procedure" (by decide) run hrun
  by_cases c1 : run = bytes "procedure"
  · rw [if_pos (h1 ▸ c1), if_pos c1]
  rw [if_neg (h1 ▸ c1), if_neg c1]
  have h2 := Compare_literal "datum" (by decide) run hrun
  by_cases c2 : run = bytes "datum"
  · rw [if_pos (h2 ▸ c2), if_pos c2]
  rw [if_neg (h2 ▸ c2), if_neg c2]
  have h3 := Compare_literal "give" (by decide) run hrun
  by_cases c3 : run = bytes "give"
  · rw [if_pos (h3 ▸ c3), if_pos c3]
  rw [if_neg (h3 ▸ c3), if_neg c3]
  have h4 := Compare_literal "Nat8" (by decide) run hrun
  by_cases c4 : run = bytes "Nat8"
  · rw [if_pos (h4 ▸ c4), if_pos c4]
  rw [if_neg (h4 ▸ c4), if_neg c4]
  have h5 := Compare_literal "Nat16" (by decide) run hrun
  by_cases c5 : run = bytes "Nat16"
  · rw [if_pos (h5 ▸ c5), if_pos c5]
  rw [if_neg (h5 ▸ c5), if_neg c5]
  have h6 := Compare_literal "Nat32" (by decide) run hrun
  by_cases c6 : run = bytes "Nat32"
  · rw [if_pos (h6 ▸ c6), if_pos c6]
  rw [if_neg (h6 ▸ c6), if_neg c6]
  have h7 := Compare_literal "Nat64" (by decide) run hrun
  by_cases c7 : run = bytes "Nat64"
  · rw [if_pos (h7 ▸ c7), if_pos c7]
  rw [if_neg (h7 ▸ c7), if_neg c7]
  have h8 := Compare_literal "Int8" (by decide) run hrun
  by_cases c8 : run = bytes "Int8"
  · rw [if_pos (h8 ▸ c8), if_pos c8]
  rw [if_neg (h8 ▸ c8), if_neg c8]
  have h9 := Compare_literal "Int16" (by decide) run hrun
  by_cases c9 : run = bytes "Int16"
  · rw [if_pos (h9 ▸ c9), if_pos c9]
  rw [if_neg (h9 ▸ c9), if_neg c9]
  have h10 := Compare_literal "Int32" (by decide) run hrun
  by_cases c10 : run = bytes "Int32"
  · rw [if_pos (h10 ▸ c10), if_pos c10]
  rw [if_neg (h10 ▸ c10), if_neg c10]
  have h11 := Compare_literal "Int64" (by decide) run hrun
  by_cases c11 : run = bytes "Int64"
  · rw [if_pos (h11 ▸ c11), if_pos c11]
  rw [if_neg (h11 ▸ c11), if_neg c11]

theorem wordByte_continues (s : Lexer) (d : Nat) (hq : s.peek = d) :
    (U.Text.IsNumeric s.peek || s.PeekIsValidIdentity) = specIsWordByte d := by
  simp only [Lexer.PeekIsValidIdentity, specIsWordByte, hq]
  cases U.Text.IsNumeric d <;> cases U.Text.IsAlphabetic d <;> rfl

theorem alphabeticLoop_run (run : List Nat) (hrun : ∀ c ∈ run, specIsWordByte c = true)
    (post : List Nat) (hpost : specIsWordByte (post.headD 0) = false) :
    ∀ (fuel : Nat) (s : Lexer) (pre : List Nat) (buf : U.Dynar) (c : Nat),
      run.length < fuel → buf.length + run.length ≤ 1024 → s.At pre (c :: run ++ post) →
      ∃ t, Lexer.alphabeticLoop fuel s buf = some (.returned t, buf ++ c :: run) ∧
        t.At (pre ++ c :: run) post ∧ t.token = s.token := by
  induction run with
  | nil =>
    intro fuel s pre buf c hf hb h
    obtain ⟨n, rfl⟩ : ∃ n, fuel = n + 1 := ⟨fuel - 1, by simp at hf; omega⟩
    have hp : s.peek = c := h.peek_cons
    have ha := h.advance
    have hq : s.Advance.peek = post.headD 0 := by simpa using ha.peek
    have hsz : ¬ (U.Dynar.Size buf > 1024) := by
      simp only [U.Dynar.Size, List.length_nil] at hb ⊢
      omega
    refine ⟨s.Advance, ?_, by simpa using ha, Advance_token s⟩
    simp only [Lexer.alphabeticLoop, if_neg hsz, wordByte_continues _ _ hq, hpost, hp,
      U.Dynar.Put]
    rfl
  | cons d run ih =>
    intro fuel s pre buf c hf hb h
    obtain ⟨n, rfl⟩ : ∃ n, fuel = n + 1 := ⟨fuel - 1, by simp at hf; omega⟩
    have hp : s.peek = c := h.peek_cons
    have ha : s.Advance.At (pre ++ [c]) (d :: run ++ post) := by simpa using h.advance
    have hq : s.Advance.peek = d := ha.peek_cons
    have hsz : ¬ (U.Dynar.Size buf > 1024) := by
      simp only [U.Dynar.Size, List.length_cons] at hb ⊢
      omega
    obtain ⟨t, ht, hat, htok⟩ := ih (fun e he => hrun e (by simp [he])) n s.Advance
      (pre ++ [c]) (buf ++ [c]) d (by simp at hf; omega)
      (by simp only [List.length_append, List.length_cons, List.length_nil] at hb ⊢; omega) ha
    refine ⟨t, ?_, by simpa using hat, by rw [htok, Advance_token]⟩
    simp only [Lexer.alphabeticLoop, if_neg hsz, wordByte_continues _ _ hq,
      hrun d (by simp), hp, U.Dynar.Put, if_true, ht]
    simp

theorem alphabeticLoop_overflow (run : List Nat) (hrun : ∀ c ∈ run, specIsWordByte c = true) :
    ∀ (fuel : Nat) (s : Lexer) (pre post : List Nat) (buf : U.Dynar) (c : Nat),
      run.length < fuel → 1024 < buf.length + run.length → s.At pre (c :: run ++ post) →
      ∃ e t b, Lexer.alphabeticLoop fuel s buf =
        some (.thrown .Alphabetic .OutOfRange e t, b) := by
  induction run with
  | nil =>
    intro fuel s pre post buf c hf hb h
    obtain ⟨n, rfl⟩ : ∃ n, fuel = n + 1 := ⟨fuel - 1, by simp at hf; omega⟩
    have hsz : U.Dynar.Size buf > 1024 := by
      simp only [U.Dynar.Size, List.length_nil] at hb ⊢
      omega
    exact ⟨_, _, _, by simp only [Lexer.alphabeticLoop, if_pos hsz, Lexer.Yeet]; rfl⟩
  | cons d run ih =>
    intro fuel s pre post buf c hf hb h
    obtain ⟨n, rfl⟩ : ∃ n, fuel = n + 1 := ⟨fuel - 1, by simp at hf; omega⟩
    by_cases hsz : U.Dynar.Size buf > 1024
    · exact ⟨_, _, _, by simp only [Lexer.alphabeticLoop, if_pos hsz, Lexer.Yeet]; rfl⟩
    · have hp : s.peek = c := h.peek_cons
      have ha : s.Advance.At (pre ++ [c]) (d :: run ++ post) := by simpa using h.advance
      have hq : s.Advance.peek = d := ha.peek_cons
      obtain ⟨e, t, b, ht⟩ := ih (fun e he => hrun e (by simp [he])) n s.Advance
        (pre ++ [c]) post (buf ++ [c]) d (by simp at hf; omega)
        (by simp only [List.length_append, List.length_cons, List.length_nil] at hb ⊢; omega) ha
      refine ⟨e, t, b, ?_⟩
      simp only [Lexer.alphabeticLoop, if_neg hsz, wordByte_continues _ _ hq,
        hrun d (by simp), hp, U.Dynar.Put, if_true, ht]

/-- On a lookahead byte that is a letter `Lex` records `Start` and runs `LexAlphabetic`. -/
theorem Lex_of_alphabetic (fuel : Nat) (s : Lexer) (ha : U.Text.IsAlphabetic s.peek = true) :
    Lexer.Lex (fuel + 1) s =
      (Lexer.LexAlphabetic (fuel + 1) s.setStart).map Outcome.epilogue := by
  have hb : (65 ≤ s.peek ∧ s.peek ≤ 90) ∨ (97 ≤ s.peek ∧ s.peek ≤ 122) := by
    simpa [U.Text.IsAlphabetic] using ha
  have hw : U.Text.IsWhitespace s.peek = false := by
    simp [U.Text.IsWhitespace]; omega
  have h0 : s.peek ≠ 0 := by omega
  have hp : s.setStart.peek = s.peek := rfl
  simp only [Lexer.Lex, skipWhitespace_none fuel s hw, if_neg h0, hp, ha, if_true]
  cases Lexer.LexAlphabetic (fuel + 1) s.setStart with
  | none => rfl
  | some o => cases o <;> rfl

theorem wordByte_ne_zero {c : Nat} (h : specIsWordByte c = true) : c ≠ 0 := by
  intro h0
  subst h0
  simp [specIsWordByte, U.Text.IsAlphabetic, U.Text.IsNumeric] at h

/-- The identifier scanner on a run of at most 1025 bytes: the check
`buf.Size() > 1024` comes before each `Put`, so it passes while 1024 bytes or fewer are
held and the buffer may grow to 1025 bytes. -/
theorem Lex_word_run (c : Nat) (rest : List Nat) (hc : U.Text.IsAlphabetic c = true)
    (hrest : ∀ d ∈ rest, specIsWordByte d = true) (hlen : (c :: rest).length ≤ 1025)
    (fuel : Nat) (hfuel : rest.length < fuel) :
    ∃ s, Lexer.Lex fuel (Lexer.new (buffer (c :: rest))) = some (.returned s) ∧
      match specKeyword (c :: rest) with
      | some k => s.token.Symbol = k
      | none => s.token.Symbol = .Identity ∧
          s.token.Value = .Identity (buffer (c :: rest)) := by
  obtain ⟨n, rfl⟩ : ∃ n, fuel = n + 1 := ⟨fuel - 1, by omega⟩
  have hat : (Lexer.new (buffer (c :: rest))).setStart.At [] (c :: rest ++ [0]) := by
    simpa [buffer] using (At_new (buffer (c :: rest))).setStart
  have hpk : U.Text.IsAlphabetic (Lexer.new (buffer (c :: rest))).peek = true := by
    rw [(At_new (buffer (c :: rest))).peek]; exact hc
  obtain ⟨t, ht, _, _⟩ := alphabeticLoop_run rest hrest [0] (by decide) (n + 1) _ [] [] c
    hfuel (by simp only [List.length_cons, List.length_nil] at hlen ⊢; omega) hat
  have hnz : ∀ y ∈ c :: rest, y ≠ 0 := by
    intro y hy
    rcases List.mem_cons.mp hy with h | h
    · subst h
      exact wordByte_ne_zero (by simp [specIsWordByte, hc])
    · exact wordByte_ne_zero (hrest y h)
  refine ⟨(t.MatchWord (c :: rest ++ [0])).EPILOGUE, ?_, ?_⟩
  · rw [Lex_of_alphabetic n _ hpk]
    simp only [Lexer.LexAlphabetic, ht, List.nil_append, U.Dynar.Put, U.Dynar.Flush]
    rfl
  · rw [MatchWord_run t (c :: rest) hnz]
    cases specKeyword (c :: rest) with
    | none => exact ⟨rfl, rfl⟩
    | some k => rfl

/-- C3: on an input that is exactly a run of letters, decimal digits and underscores
that begins with a letter and is at most 1024 bytes long, the first `Lex` call returns
the tag of the keyword when the run is exactly one of the eleven keywords, and otherwise
an `Identity` token whose text is the run, zero-terminated. -/
theorem Lex_keyword_or_identity (c : Nat) (rest : List Nat)
    (hc : U.Text.IsAlphabetic c = true) (hrest : ∀ d ∈ rest, specIsWordByte d = true)
    (hlen : (c :: rest).length ≤ 1024) (fuel : Nat) (hfuel : rest.length < fuel) :
    ∃ s, Lexer.Lex fuel (Lexer.new (buffer (c :: rest))) = some (.returned s) ∧
      match specKeyword (c :: rest) with
      | some k => s.token.Symbol = k
      | none => s.token.Symbol = .Identity ∧
          s.token.Value = .Identity (buffer (c :: rest)) :=
  Lex_word_run c rest hc hrest (by omega) fuel hfuel

theorem Lex_keyword_or_identity_witness :
    (∃ s, Lexer.Lex 9 (Lexer.new (buffer (bytes "procedure"))) = some (.returned s) ∧
      s.token.Symbol = .Procedure) ∧
    (∃ s, Lexer.Lex 4 (Lexer.new (buffer (bytes "proc"))) = some (.returned s) ∧
      s.token.Symbol = .Identity ∧ s.token.Value = .Identity (buffer (bytes "proc"))) :=
  ⟨Lex_keyword_or_identity 112 (bytes "rocedure") (by decide) (by decide) (by decide) 9
      (by decide),
    Lex_keyword_or_identity 112 (bytes "roc") (by decide) (by decide) (by decide) 4
      (by decide)⟩

/-- The identifier scanner on a run of 1026 bytes or more: `Lex` leaves by the exception
`OutOfRange` of the `Alphabetic` scanner. -/
theorem Lex_word_overflow (c : Nat) (rest : List Nat) (hc : U.Text.IsAlphabetic c = true)
    (hrest : ∀ d ∈ rest, specIsWordByte d = true) (hlen : 1025 < (c :: rest).length)
    (fuel : Nat) (hfuel : rest.length < fuel) :
    ∃ e s, Lexer.Lex fuel (Lexer.new (buffer (c :: rest))) =
      some (.thrown .Alphabetic .OutOfRange e s) := by
  obtain ⟨n, rfl⟩ : ∃ n, fuel = n + 1 := ⟨fuel - 1, by omega⟩
  have hat : (Lexer.new (buffer (c :: rest))).setStart.At [] (c :: rest ++ [0]) := by
    simpa [buffer] using (At_new (buffer (c :: rest))).setStart
  have hpk : U.Text.IsAlphabetic (Lexer.new (buffer (c :: rest))).peek = true := by
    rw [(At_new (buffer (c :: rest))).peek]; exact hc
  obtain ⟨e, t, b, ht⟩ := alphabeticLoop_overflow rest hrest (n + 1) _ [] [0] [] c
    hfuel (by simp only [List.length_cons, List.length_nil] at hlen ⊢; omega) hat
  refine ⟨e, t, ?_⟩
  rw [Lex_of_alphabetic n _ hpk]
  simp only [Lexer.LexAlphabetic, ht]
  rfl

/-- C5 at an identifier of exactly 1025 letters `a`: `Lex` raises no fault and returns an
`Identity` token whose text is the 1025 letters. -/
theorem Lex_identifier_1025 :
    ∃ s, Lexer.Lex 1025 (Lexer.new (buffer (List.replicate 1025 97))) = some (.returned s) ∧
      s.token.Symbol = .Identity ∧
      s.token.Value = .Identity (buffer (List.replicate 1025 97)) := by
  have hk : specKeyword (97 :: List.replicate 1024 97) = none := by decide
  have h := Lex_word_run 97 (List.replicate 1024 97) (by decide)
    (fun d hd => by rw [List.eq_of_mem_replicate hd]; decide)
    (by rw [List.length_cons, List.length_replicate])
    1025 (by rw [List.length_replicate]; omega)
  rw [hk] at h
  exact h

/-- The first identifier length at which the scanner does raise `OutOfRange`: 1026
letters `a`. -/
theorem Lex_identifier_1026 :
    ∃ e s, Lexer.Lex 1026 (Lexer.new (buffer (List.replicate 1026 97))) =
      some (.thrown .Alphabetic .OutOfRange e s) :=
  Lex_word_overflow 97 (List.replicate 1025 97) (by decide)
    (fun d hd => by rw [List.eq_of_mem_replicate hd]; decide)
    (by rw [List.length_cons, List.length_replicate]; omega)
    1026 (by rw [List.length_replicate]; omega)

/-! ## The dispatch of the driver on an underscore -/

/-- C12 at `"_x"`: the driver tests `IsAlphabetic` only, where the identifier loop tests
`PeekIsValidIdentity`; the first call returns the unrecognized-character token for the
underscore, having consumed that one byte, and the second call the identifier `x`. -/
theorem Lex_underscore_start :
    ∃ s t, Lexer.Lex 2 (Lexer.new (buffer (bytes "_x"))) = some (.returned s) ∧
      s.token.Symbol = .None ∧ s.token.Value = .None 95 ∧ s.cursor = 1 ∧
      Lexer.Lex 2 s = some (.returned t) ∧
      t.token.Symbol = .Identity ∧ t.token.Value = .Identity (buffer (bytes "x")) :=
  ⟨_, _, rfl, rfl, rfl, rfl, rfl, rfl, rfl⟩

/-- On every input that begins with an underscore the first call goes to the symbolic
scanner and returns the unrecognized-character token for it. -/
theorem Lex_underscore_None (rest : List Nat) (fuel : Nat) :
    ∃ s, Lexer.Lex (fuel + 1) (Lexer.new (buffer (95 :: rest))) = some (.returned s) ∧
      s.token.Symbol = .None ∧ s.token.Value = .None 95 ∧ s.cursor = 1 := by
  have hat : (Lexer.new (buffer (95 :: rest))).At [] (95 :: buffer rest) := by
    simpa [buffer] using At_new (buffer (95 :: rest))
  have hp := hat.peek_cons
  rw [Lex_of_symbolic fuel _ (by rw [hp]; rfl) (by rw [hp]; decide) (by rw [hp]; rfl)
    (by rw [hp]; rfl)]
  have hq : (Lexer.new (buffer (95 :: rest))).setStart.peek = 95 := hp
  simp only [Lexer.LexSymbolic, hq]
  simp only [Nat.reduceEqDiff, if_false, or_self, Option.map_some']
  refine ⟨_, rfl, ?_, ?_, ?_⟩
  · show (Lexer.SINGLE _).token.Symbol = _
    rw [SINGLE_token]
    rfl
  · show (Lexer.SINGLE _).token.Value = _
    rw [SINGLE_token]
    rfl
  · show (Lexer.SINGLE _).index + 1 = 1
    rw [SINGLE_index]
    rfl

/-! ## The fault code -/

theorem alphabeticLoop_overflow_code (run : List Nat)
    (hrun : ∀ c ∈ run, specIsWordByte c = true) :
    ∀ (fuel : Nat) (s : Lexer) (pre post : List Nat) (buf : U.Dynar) (c : Nat),
      run.length < fuel → 1024 < buf.length + run.length → s.At pre (c :: run ++ post) →
      ∃ t b, Lexer.alphabeticLoop fuel s buf =
        some (.thrown .Alphabetic .OutOfRange ⟨5, []⟩ t, b) := by
  induction run with
  | nil =>
    intro fuel s pre post buf c hf hb h
    obtain ⟨n, rfl⟩ : ∃ n, fuel = n + 1 := ⟨fuel - 1, by simp at hf; omega⟩
    have hsz : U.Dynar.Size buf > 1024 := by
      simp only [U.Dynar.Size, List.length_nil] at hb ⊢
      omega
    exact ⟨_, _, by simp only [Lexer.alphabeticLoop, if_pos hsz, Lexer.Yeet]; rfl⟩
  | cons d run ih =>
    intro fuel s pre post buf c hf hb h
    obtain ⟨n, rfl⟩ : ∃ n, fuel = n + 1 := ⟨fuel - 1, by simp at hf; omega⟩
    by_cases hsz : U.Dynar.Size buf > 1024
    · exact ⟨_, _, by simp only [Lexer.alphabeticLoop, if_pos hsz, Lexer.Yeet]; rfl⟩
    · have hp : s.peek = c := h.peek_cons
      have ha : s.Advance.At (pre ++ [c]) (d :: run ++ post) := by simpa using h.advance
      have hq : s.Advance.peek = d := ha.peek_cons
      obtain ⟨t, b, ht⟩ := ih (fun e he => hrun e (by simp [he])) n s.Advance
        (pre ++ [c]) post (buf ++ [c]) d (by simp at hf; omega)
        (by simp only [List.length_append, List.length_cons, List.length_nil] at hb ⊢; omega) ha
      refine ⟨t, b, ?_⟩
      simp only [Lexer.alphabeticLoop, if_neg hsz, wordByte_continues _ _ hq,
        hrun d (by simp), hp, U.Dynar.Put, if_true, ht]

theorem Lex_word_overflow_code (c : Nat) (rest : List Nat)
    (hc : U.Text.IsAlphabetic c = true) (hrest : ∀ d ∈ rest, specIsWordByte d = true)
    (hlen : 1025 < (c :: rest).length) (fuel : Nat) (hfuel : rest.length < fuel) :
    ∃ s, Lexer.Lex fuel (Lexer.new (buffer (c :: rest))) =
      some (.thrown .Alphabetic .OutOfRange ⟨5, []⟩ s) := by
  obtain ⟨n, rfl⟩ : ∃ n, fuel = n + 1 := ⟨fuel - 1, by omega⟩
  have hat : (Lexer.new (buffer (c :: rest))).setStart.At [] (c :: rest ++ [0]) := by
    simpa [buffer] using (At_new (buffer (c :: rest))).setStart
  have hpk : U.Text.IsAlphabetic (Lexer.new (buffer (c :: rest))).peek = true := by
    rw [(At_new (buffer (c :: rest))).peek]; exact hc
  obtain ⟨t, b, ht⟩ := alphabeticLoop_overflow_code rest hrest (n + 1) _ [] [0] [] c
    hfuel (by simp only [List.length_cons, List.length_nil] at hlen ⊢; omega) hat
  refine ⟨t, ?_⟩
  rw [Lex_of_alphabetic n _ hpk]
  simp only [Lexer.LexAlphabetic, ht]
  rfl

/-- C20: the exception that `Yeet` throws carries the code `error + way`, and three of
the (scanner, kind) pairs that `Lex` does raise share the code 5: `OutOfRange` of the
identifier scanner (on 1026 letters), `Valueless` of the binary scanner (on `"0b_"`) and
`WrongFormat` of the hexadecimal scanner (on `"0xg"`). -/
theorem Yeet_code_not_injective :
    (∀ (s : Lexer) (way : LexerModule) (error : LexerError),
      s.Yeet way error = .thrown way error ⟨(error.toNat + way.toNat) % 2 ^ 64, []⟩ s) ∧
    (LexerError.OutOfRange.toNat + LexerModule.Alphabetic.toNat = 5 ∧
      LexerError.Valueless.toNat + LexerModule.Binary.toNat = 5 ∧
      LexerError.WrongFormat.toNat + LexerModule.Hexadecimal.toNat = 5) ∧
    (∃ s, Lexer.Lex 1026 (Lexer.new (buffer (List.replicate 1026 97))) =
      some (.thrown .Alphabetic .OutOfRange ⟨5, []⟩ s)) ∧
    (∃ s, Lexer.Lex 2 (Lexer.new (buffer (bytes "0b_"))) =
      some (.thrown .Binary .Valueless ⟨5, []⟩ s)) ∧
    (∃ s, Lexer.Lex 2 (Lexer.new (buffer (bytes "0xg"))) =
      some (.thrown .Hexadecimal .WrongFormat ⟨5, []⟩ s)) :=
  ⟨fun _ _ _ => rfl, ⟨rfl, rfl, rfl⟩,
    Lex_word_overflow_code 97 (List.replicate 1025 97) (by decide)
      (fun d hd => by rw [List.eq_of_mem_replicate hd]; decide)
      (by rw [List.length_cons, List.length_replicate]; omega)
      1026 (by rw [List.length_replicate]; omega),
    ⟨_, rfl⟩, ⟨_, rfl⟩⟩

/-! ## From the natural scanner to the real scanner -/

theorem natural_byte {c : Nat} (h : c = 95 ∨ specIsDigit 10 c = true) :
    c ≠ 46 ∧ c ≠ 0 ∧ (U.Text.IsNumeric c || c == 95) = true := by
  rcases h with h95 | hdig
  · subst h95; decide
  · have := isNumeric_of_specIsDigit hdig
    have hb : 48 ≤ c ∧ c ≤ 57 := by simpa [U.Text.IsNumeric] using this
    exact ⟨by omega, by omega, by simp [this]⟩

theorem specStrip_cons_append (buf : List Nat) (c : Nat) (run : List Nat) :
    buf ++ specStrip [c] ++ specStrip run = buf ++ specStrip (c :: run) := by
  simp only [specStrip, List.filter_cons, List.filter_nil]
  split_ifs <;> simp

theorem put_eq_strip (buf : U.Dynar) (c : Nat) :
    (if c ≠ 95 then buf.Put c else buf) = buf ++ specStrip [c] := by
  by_cases hc : c = 95 <;> simp [specStrip, hc, U.Dynar.Put]

theorem LexNatural_to_point (run : List Nat) (hrun : ∀ c ∈ run, c = 95 ∨ specIsDigit 10 c = true)
    (post : List Nat) :
    ∀ (fuel : Nat) (s : Lexer) (pre : List Nat) (buf : U.Dynar) (c : Nat),
      run.length < fuel → s.At pre (c :: run ++ 46 :: post) →
      ∃ t : Lexer, t.At (pre ++ c :: run) (46 :: post) ∧ t.token = s.token ∧
        Lexer.LexNatural fuel s buf =
          Lexer.LexReal (fuel - (run.length + 1)) t (buf ++ specStrip (c :: run)) := by
  induction run with
  | nil =>
    intro fuel s pre buf c hf h
    obtain ⟨n, rfl⟩ : ∃ n, fuel = n + 1 := ⟨fuel - 1, by simp at hf; omega⟩
    have hp : s.peek = c := h.peek_cons
    have ha : s.Advance.At (pre ++ [c]) (46 :: post) := by simpa using h.advance
    have hq : s.Advance.peek = 46 := ha.peek_cons
    refine ⟨s.Advance, ha, Advance_token s, ?_⟩
    simp only [Lexer.LexNatural, Lexer.PutNumericBuf, hq, hp, put_eq_strip, if_true,
      List.length_nil, Nat.zero_add, Nat.add_sub_cancel]
  | cons d run ih =>
    intro fuel s pre buf c hf h
    obtain ⟨n, rfl⟩ : ∃ n, fuel = n + 1 := ⟨fuel - 1, by simp at hf; omega⟩
    have hp : s.peek = c := h.peek_cons
    have ha : s.Advance.At (pre ++ [c]) (d :: run ++ 46 :: post) := by simpa using h.advance
    have hq : s.Advance.peek = d := ha.peek_cons
    obtain ⟨hd46, _, hdv⟩ := natural_byte (hrun d (by simp))
    obtain ⟨t, hat, htok, ht⟩ := ih (fun e he => hrun e (by simp [he])) n s.Advance
      (pre ++ [c]) (buf ++ specStrip [c]) d (by simp at hf; omega) ha
    rw [specStrip_cons_append] at ht
    refine ⟨t, by simpa using hat, by rw [htok, Advance_token], ?_⟩
    have hn : n + 1 - ((d :: run).length + 1) = n - (run.length + 1) := by
      simp only [List.length_cons]; omega
    simp only [Lexer.LexNatural, Lexer.PutNumericBuf, hq, hp, put_eq_strip,
      Lexer.PeekIsValidNatural, hd46, hdv, if_false, if_true, ht, hn]

theorem realLoop_run (frac : List Nat) (hfrac : ∀ c ∈ frac, c = 95 ∨ specIsDigit 10 c = true)
    (post : List Nat)
    (hpost : (U.Text.IsNumeric (post.headD 0) || post.headD 0 == 95) = false) :
    ∀ (fuel : Nat) (s : Lexer) (pre : List Nat) (buf : U.Dynar) (c : Nat),
      frac.length < fuel → s.At pre (c :: frac ++ post) →
      ∃ t : Lexer, t.At (pre ++ c :: frac) post ∧ t.token = s.token ∧
        Lexer.realLoop fuel s buf =
          some (if post.headD 0 = 46 then t.Yeet .Real .WrongFormat else .returned t,
            buf ++ specStrip (c :: frac)) := by
  induction frac with
  | nil =>
    intro fuel s pre buf c hf h
    obtain ⟨n, rfl⟩ : ∃ n, fuel = n + 1 := ⟨fuel - 1, by simp at hf; omega⟩
    have hp : s.peek = c := h.peek_cons
    have ha : s.Advance.At (pre ++ [c]) post := by simpa using h.advance
    have hq : s.Advance.peek = post.headD 0 := ha.peek
    refine ⟨s.Advance, ha, Advance_token s, ?_⟩
    simp only [Lexer.realLoop, Lexer.PutNumericBuf, hq, hp, put_eq_strip,
      Lexer.PeekIsValidNatural, hpost]
    split_ifs <;> first | rfl | contradiction
  | cons d frac ih =>
    intro fuel s pre buf c hf h
    obtain ⟨n, rfl⟩ : ∃ n, fuel = n + 1 := ⟨fuel - 1, by simp at hf; omega⟩
    have hp : s.peek = c := h.peek_cons
    have ha : s.Advance.At (pre ++ [c]) (d :: frac ++ post) := by simpa using h.advance
    have hq : s.Advance.peek = d := ha.peek_cons
    obtain ⟨hd46, _, hdv⟩ := natural_byte (hfrac d (by simp))
    obtain ⟨t, hat, htok, ht⟩ := ih (fun e he => hfrac e (by simp [he])) n s.Advance
      (pre ++ [c]) (buf ++ specStrip [c]) d (by simp at hf; omega) ha
    rw [specStrip_cons_append] at ht
    refine ⟨t, by simpa using hat, by rw [htok, Advance_token], ?_⟩
    simp only [Lexer.realLoop, Lexer.PutNumericBuf, hq, hp, put_eq_strip,
      Lexer.PeekIsValidNatural, hd46, hdv, if_false, if_true, ht]

theorem LexReal_point (frac : List Nat) (hfrac : ∀ c ∈ frac, c = 95 ∨ specIsDigit 10 c = true)
    (post : List Nat)
    (hpost : (U.Text.IsNumeric (post.headD 0) || post.headD 0 == 95) = false)
    (fuel : Nat) (s : Lexer) (pre : List Nat) (buf : U.Dynar)
    (hf : frac.length < fuel) (h : s.At pre (46 :: frac ++ post)) :
    ∃ t : Lexer, t.At (pre ++ 46 :: frac) post ∧ t.token.Symbol = .Real ∧
      t.token.Value = s.token.Value ∧
      Lexer.LexReal fuel s buf =
        some (if post.headD 0 = 46 then t.Yeet .Real .WrongFormat
          else t.realFinish (buf ++ 46 :: specStrip frac)) := by
  obtain ⟨t, hat, htok, ht⟩ := realLoop_run frac hfrac post hpost fuel (s.setSymbol .Real)
    pre buf 46 hf (h.setSymbol _)
  have hs : specStrip (46 :: frac) = 46 :: specStrip frac := by
    simp [specStrip, List.filter_cons]
  rw [hs] at ht
  refine ⟨t, hat, by rw [htok]; rfl, by rw [htok]; rfl, ?_⟩
  simp only [Lexer.LexReal, ht]
  by_cases h46 : post.headD 0 = 46
  · simp only [h46, if_true, Lexer.Yeet]
  · simp only [h46, if_false, Lexer.realFinish]
    cases U.Text.ConvertToReal (U.Dynar.Put (buf ++ 46 :: specStrip frac) 0).Flush with
    | ok v => rfl
    | error e => cases e <;> rfl

theorem zeros_split (rest : List Nat) :
    ∃ zs, rest = zs ++ specSignificant rest ∧ (∀ c ∈ zs, c = 48) ∧
      ∀ post, (specSignificant rest ++ post).headD 0 = 48 → post.headD 0 = 48 ∧
        specSignificant rest = [] := by
  induction rest with
  | nil => exact ⟨[], rfl, by simp, fun post h => ⟨by simpa [specSignificant] using h, rfl⟩⟩
  | cons c rest ih =>
    by_cases hc : c = 48
    · obtain ⟨zs, h1, h2, h3⟩ := ih
      have hs : specSignificant (c :: rest) = specSignificant rest := by
        simp [specSignificant, List.dropWhile_cons, hc]
      refine ⟨c :: zs, ?_, ?_, ?_⟩
      · rw [hs]; simpa using h1
      · intro d hd
        rcases List.mem_cons.mp hd with h | h
        · rw [h, hc]
        · exact h2 d h
      · rw [hs]; exact h3
    · have hs : specSignificant (c :: rest) = c :: rest := by
        simp [specSignificant, List.dropWhile_cons, hc]
      refine ⟨[], by rw [hs]; rfl, by simp, ?_⟩
      intro post h
      rw [hs] at h
      exact absurd (by simpa using h) hc

theorem numericRest_to_point (tail : List Nat)
    (htail : ∀ c ∈ tail, c = 95 ∨ specIsDigit 10 c = true) (post : List Nat) (fuel : Nat)
    (s : Lexer) (pre : List Nat) (hf : tail.length ≤ fuel)
    (h : s.At pre (tail ++ 46 :: post)) :
    ∃ (m : Nat) (t : Lexer), t.At (pre ++ tail) (46 :: post) ∧ t.token = s.token ∧
      fuel ≤ m + tail.length ∧
      Lexer.numericRest fuel s [] = Lexer.LexReal m t (specStrip tail) := by
  cases tail with
  | nil =>
    have hp : s.peek = 46 := h.peek_cons
    refine ⟨fuel, s, by simpa using h, rfl, by simp, ?_⟩
    simp [Lexer.numericRest, Lexer.PeekIsValidNatural, hp, U.Text.IsNumeric, specStrip]
  | cons c run =>
    have hp : s.peek = c := h.peek_cons
    obtain ⟨_, _, hcv⟩ := natural_byte (htail c (by simp))
    obtain ⟨t, hat, htok, ht⟩ := LexNatural_to_point run
      (fun e he => htail e (by simp [he])) post fuel s pre [] c (by simpa using hf)
      (by simpa using h)
    refine ⟨fuel - (run.length + 1), t, hat, htok, ?_, ?_⟩
    · simp only [List.length_cons] at hf ⊢; omega
    · simp only [Lexer.numericRest, Lexer.PeekIsValidNatural, hp, hcv, if_true, ht,
        List.nil_append]

theorem LexNumeric_to_point (c : Nat) (ipart : List Nat) (hc : specIsDigit 10 c = true)
    (hipart : ∀ d ∈ ipart, d = 95 ∨ specIsDigit 10 d = true) (post : List Nat) (fuel : Nat)
    (s : Lexer) (hf : (c :: ipart).length ≤ fuel)
    (h : s.At [] (c :: ipart ++ 46 :: post)) :
    ∃ (m : Nat) (t : Lexer), t.At (c :: ipart) (46 :: post) ∧ t.token = s.token ∧
      fuel ≤ m + (c :: ipart).length ∧
      Lexer.LexNumeric fuel s =
        Lexer.LexReal m t (specStrip (specSignificant (c :: ipart))) := by
  have hp : s.peek = c := h.peek_cons
  by_cases hc48 : c = 48
  · subst hc48
    obtain ⟨zs, hsplit, hzs, htl⟩ := zeros_split ipart
    have hsig : specSignificant (48 :: ipart) = specSignificant ipart := by
      simp [specSignificant, List.dropWhile_cons]
    rw [hsig]
    generalize specSignificant ipart = tail at hsplit htl
    subst hsplit
    have htail : ∀ e ∈ tail, e = 95 ∨ specIsDigit 10 e = true :=
      fun e he => hipart e (by simp [he])
    have hlen : zs.length + tail.length + 1 ≤ fuel := by
      simp only [List.length_cons, List.length_append] at hf
      omega
    have h1 : s.Advance.At [48] (zs ++ tail ++ 46 :: post) := by simpa using h.advance
    have hne : (tail ++ 46 :: post).headD 0 ≠ 48 := by
      intro h48
      have := (htl (46 :: post) h48).1
      simp at this
    cases zs with
    | nil =>
      have h1a : s.Advance.At [48] (tail ++ 46 :: post) := by simpa using h1
      have hq : s.Advance.peek = (tail ++ 46 :: post).headD 0 := h1a.peek
      have hq2 : s.Advance.peek ≠ 98 ∧ s.Advance.peek ≠ 66 ∧ s.Advance.peek ≠ 120 ∧
          s.Advance.peek ≠ 88 := by
        rw [hq]
        cases tail with
        | nil => simp
        | cons e tail =>
          simp only [List.cons_append, List.headD_cons]
          rcases htail e (by simp) with h95 | hdig
          · subst h95; decide
          · have := isNumeric_of_specIsDigit hdig
            have hb : 48 ≤ e ∧ e ≤ 57 := by simpa [U.Text.IsNumeric] using this
            omega
      obtain ⟨m, t, hat, htok, hm, ht⟩ := numericRest_to_point tail htail post fuel
        s.Advance [48] (by omega) h1a
      refine ⟨m, t, by simpa using hat, by rw [htok, Advance_token], ?_, ?_⟩
      · simp only [List.length_cons, List.nil_append] at hm ⊢; omega
      · simp only [Lexer.LexNumeric, hp, if_true, hq ▸ hne, if_false, hq2.1, hq2.2.1,
          hq2.2.2.1, hq2.2.2.2, or_self, ht]
    | cons z zs =>
      have hz : z = 48 := hzs z (by simp)
      subst hz
      have h1a : s.Advance.At [48] (48 :: zs ++ (tail ++ 46 :: post)) := by simpa using h1
      have hq : s.Advance.peek = 48 := h1a.peek_cons
      obtain ⟨u, hu, hatu, htoku⟩ := zeroLoop_run zs (fun e he => hzs e (by simp [he]))
        (tail ++ 46 :: post) hne fuel s.Advance [48] 48
        (by simp only [List.length_cons] at hlen; omega) h1a
      obtain ⟨m, t, hat, htok, hm, ht⟩ := numericRest_to_point tail htail post fuel u
        ([48] ++ 48 :: zs) (by omega) hatu
      refine ⟨m, t, by simpa using hat, by rw [htok, htoku, Advance_token], ?_, ?_⟩
      · simp only [List.length_cons, List.length_append] at hm ⊢; omega
      · simp only [Lexer.LexNumeric, hp, if_true, hq, hu, ht]
  · have hsig : specSignificant (c :: ipart) = c :: ipart := by
      simp [specSignificant, List.dropWhile_cons, hc48]
    rw [hsig]
    obtain ⟨m, t, hat, htok, hm, ht⟩ := numericRest_to_point (c :: ipart)
      (fun e he => by
        rcases List.mem_cons.mp he with h | h
        · exact Or.inr (h ▸ hc)
        · exact hipart e h) post fuel s [] hf h
    refine ⟨m, t, by simpa using hat, htok, hm, ?_⟩
    simp only [Lexer.LexNumeric, hp, if_neg hc48, ht]

/-- The driver on a decimal literal with a point: digits and underscores, a point, digits
and underscores again, then a byte that is neither. -/
theorem Lex_point (c : Nat) (ipart frac post : List Nat) (hc : specIsDigit 10 c = true)
    (hipart : ∀ d ∈ ipart, d = 95 ∨ specIsDigit 10 d = true)
    (hfrac : ∀ d ∈ frac, d = 95 ∨ specIsDigit 10 d = true)
    (hpost : (U.Text.IsNumeric ((buffer post).headD 0) || (buffer post).headD 0 == 95) = false)
    (fuel : Nat) (hfuel : (c :: ipart).length + frac.length < fuel) :
    ∃ t : Lexer, t.At (c :: ipart ++ 46 :: frac) (buffer post) ∧ t.token.Symbol = .Real ∧
      Lexer.Lex fuel (Lexer.new (buffer (c :: ipart ++ 46 :: frac ++ post))) =
        some (Outcome.epilogue (if (buffer post).headD 0 = 46 then t.Yeet .Real .WrongFormat
          else t.realFinish
            (specStrip (specSignificant (c :: ipart)) ++ 46 :: specStrip frac))) := by
  obtain ⟨n, rfl⟩ : ∃ n, fuel = n + 1 := ⟨fuel - 1, by omega⟩
  have hat : (Lexer.new (buffer (c :: ipart ++ 46 :: frac ++ post))).setStart.At []
      (c :: ipart ++ 46 :: (frac ++ buffer post)) := by
    simpa [buffer] using (At_new (buffer (c :: ipart ++ 46 :: frac ++ post))).setStart
  have hnum : U.Text.IsNumeric
      (Lexer.new (buffer (c :: ipart ++ 46 :: frac ++ post))).peek = true := by
    rw [(At_new (buffer (c :: ipart ++ 46 :: frac ++ post))).peek]
    exact isNumeric_of_specIsDigit hc
  obtain ⟨m, u, hatu, _, hm, hu⟩ := LexNumeric_to_point c ipart hc hipart
    (frac ++ buffer post) (n + 1) _ (by simp only [List.length_cons] at hfuel ⊢; omega) hat
  obtain ⟨t, hatt, hsym, _, ht⟩ := LexReal_point frac hfrac (buffer post) hpost m u
    (c :: ipart) (specStrip (specSignificant (c :: ipart)))
    (by simp only [List.length_cons] at hfuel hm ⊢; omega) hatu
  refine ⟨t, by simpa using hatt, hsym, ?_⟩
  rw [Lex_of_numeric n _ hnum, hu, ht]
  rfl

/-! ## The real conversion on digit texts -/

/-- The rounding of `Real64.nearest` is off by at most a half. -/
theorem nearest_within_half (n d : Nat) (hd : 0 < d) :
    2 * n ≤ (2 * Real64.nearest n d + 1) * d ∧ 2 * Real64.nearest n d * d ≤ 2 * n + d := by
  have hdiv : d * (n / d) + n % d = n := Nat.div_add_mod n d
  have hmod : n % d < d := Nat.mod_lt n hd
  unfold Real64.nearest
  generalize n / d = q at hdiv ⊢
  generalize n % d = r at hdiv hmod ⊢
  subst hdiv
  split_ifs with h1 h2 h3 <;> constructor <;> nlinarith

/-- The conversion at some decimals whose floats are well known: 0, 1, 0.1, 3.14, the
two ties `2 ^ 53 + 1` and `2 ^ 53 + 3` (each goes to the even significand), the largest
finite float `1.7976931348623157e308` and a decimal beyond the range, the smallest
normal float `2.2250738585072014e-308` and the smallest subnormal `5e-324`. -/
theorem ofRatio_known :
    Real64.ofRatio 0 1 = .ok ⟨0⟩ ∧
    Real64.ofRatio 1 1 = .ok ⟨0x3FF0000000000000⟩ ∧
    Real64.ofRatio 1 10 = .ok ⟨0x3FB999999999999A⟩ ∧
    Real64.ofRatio 314 100 = .ok ⟨0x40091EB851EB851F⟩ ∧
    Real64.ofRatio 9007199254740993 1 = .ok ⟨0x4340000000000000⟩ ∧
    Real64.ofRatio 9007199254740995 1 = .ok ⟨0x4340000000000002⟩ ∧
    Real64.ofRatio (17976931348623157 * 10 ^ 146 * 10 ^ 146) 1 = .ok ⟨0x7FEFFFFFFFFFFFFF⟩ ∧
    Real64.ofRatio (17976931348623159 * 10 ^ 146 * 10 ^ 146) 1 = .error .OutOfRange ∧
    Real64.ofRatio 22250738585072014 (10 ^ 162 * 10 ^ 162) = .ok ⟨0x0010000000000000⟩ ∧
    Real64.ofRatio 5 (10 ^ 162 * 10 ^ 162) = .ok ⟨1⟩ :=
  ⟨rfl, rfl, rfl, rfl, rfl, rfl, rfl, rfl, rfl, rfl⟩

theorem shift_step (fuel q k : Nat)
    (h : q / 2 ^ k / 2 ^ Real64.shift fuel (q / 2 ^ k) < 2 ^ 53 ∧
      (Real64.shift fuel (q / 2 ^ k) = 0 ∨
        2 ^ 52 ≤ q / 2 ^ k / 2 ^ Real64.shift fuel (q / 2 ^ k)))
    (hq : 2 ^ 52 ≤ q / 2 ^ k) :
    q / 2 ^ (Real64.shift fuel (q / 2 ^ k) + k) < 2 ^ 53 ∧
      (Real64.shift fuel (q / 2 ^ k) + k = 0 ∨
        2 ^ 52 ≤ q / 2 ^ (Real64.shift fuel (q / 2 ^ k) + k)) := by
  have e : q / 2 ^ (Real64.shift fuel (q / 2 ^ k) + k) =
      q / 2 ^ k / 2 ^ Real64.shift fuel (q / 2 ^ k) := by
    rw [Nat.add_comm, pow_add, Nat.div_div_eq_div_mul]
  rw [e]
  refine ⟨h.1, ?_⟩
  rcases h.2 with h0 | h1
  · right
    rw [h0, pow_zero, Nat.div_one]
    exact hq
  · exact Or.inr h1

theorem shift_fine : ∀ (fuel q j : Nat), q < 2 ^ (53 + j) → q < 2 ^ 69 → j < fuel →
    q / 2 ^ Real64.shift fuel q < 2 ^ 53 ∧
      (Real64.shift fuel q = 0 ∨ 2 ^ 52 ≤ q / 2 ^ Real64.shift fuel q) := by
  intro fuel
  induction fuel with
  | zero => intro q j _ _ hj; omega
  | succ n ih =>
    intro q j hq h69 hj
    unfold Real64.shift
    by_cases h53 : q < 2 ^ 53
    · rw [if_pos h53]
      simpa using h53
    · rw [if_neg h53, if_pos h69]
      have hj0 : j ≠ 0 := by
        rintro rfl
        exact h53 (by simpa using hq)
      obtain ⟨i, rfl⟩ : ∃ i, j = i + 1 := ⟨j - 1, by omega⟩
      have hq2 : q / 2 < 2 ^ (53 + i) := by
        rw [Nat.div_lt_iff_lt_mul (by norm_num)]
        calc q < 2 ^ (53 + (i + 1)) := hq
          _ = 2 ^ (53 + i) * 2 := by rw [← Nat.add_assoc, pow_succ]
      have h := ih (q / 2) i hq2 (by omega) (by omega)
      have := shift_step n q 1 (by simpa using h) (by
        rw [pow_one]
        have : 2 ^ 53 ≤ q := Nat.le_of_not_lt h53
        omega)
      simpa using this

theorem shift_mid : ∀ (fuel q m : Nat), q < 2 ^ (69 + 16 * m) → q < 2 ^ 181 →
    m + 17 ≤ fuel →
    q / 2 ^ Real64.shift fuel q < 2 ^ 53 ∧
      (Real64.shift fuel q = 0 ∨ 2 ^ 52 ≤ q / 2 ^ Real64.shift fuel q) := by
  intro fuel
  induction fuel with
  | zero => intro q m _ _ hm; omega
  | succ n ih =>
    intro q m hq h181 hm
    by_cases h69 : q < 2 ^ 69
    · exact shift_fine (n + 1) q 16 (by simpa using h69) h69 (by omega)
    · have h53 : ¬ q < 2 ^ 53 := fun h => h69 (lt_trans h (by norm_num))
      unfold Real64.shift
      rw [if_neg h53, if_neg h69, if_pos h181]
      have hm0 : m ≠ 0 := by
        rintro rfl
        exact h69 (by simpa using hq)
      obtain ⟨i, rfl⟩ : ∃ i, m = i + 1 := ⟨m - 1, by omega⟩
      have hq2 : q / 2 ^ 16 < 2 ^ (69 + 16 * i) := by
        rw [Nat.div_lt_iff_lt_mul (by norm_num)]
        calc q < 2 ^ (69 + 16 * (i + 1)) := hq
          _ = 2 ^ (69 + 16 * i) * 2 ^ 16 := by rw [← pow_add]; congr 1
      have h := ih (q / 2 ^ 16) i hq2
        (lt_of_le_of_lt (Nat.div_le_self _ _) h181) (by omega)
      exact shift_step n q 16 h (by
        have : 2 ^ 69 ≤ q := Nat.le_of_not_lt h69
        rw [Nat.le_div_iff_mul_le (by norm_num)]
        calc 2 ^ 52 * 2 ^ 16 ≤ 2 ^ 69 := by norm_num
          _ ≤ q := this)

theorem shift_coarse : ∀ (fuel q k : Nat), q < 2 ^ (181 + 128 * k) → k + 24 ≤ fuel →
    q / 2 ^ Real64.shift fuel q < 2 ^ 53 ∧
      (Real64.shift fuel q = 0 ∨ 2 ^ 52 ≤ q / 2 ^ Real64.shift fuel q) := by
  intro fuel
  induction fuel with
  | zero => intro q k _ hk; omega
  | succ n ih =>
    intro q k hq hk
    by_cases h181 : q < 2 ^ 181
    · exact shift_mid (n + 1) q 7 (by simpa using h181) h181 (by omega)
    · have h69 : ¬ q < 2 ^ 69 := fun h => h181 (lt_trans h (by norm_num))
      have h53 : ¬ q < 2 ^ 53 := fun h => h181 (lt_trans h (by norm_num))
      unfold Real64.shift
      rw [if_neg h53, if_neg h69, if_neg h181]
      have hk0 : k ≠ 0 := by
        rintro rfl
        exact h181 (by simpa using hq)
      obtain ⟨i, rfl⟩ : ∃ i, k = i + 1 := ⟨k - 1, by omega⟩
      have hq2 : q / 2 ^ 128 < 2 ^ (181 + 128 * i) := by
        rw [Nat.div_lt_iff_lt_mul (by norm_num)]
        calc q < 2 ^ (181 + 128 * (i + 1)) := hq
          _ = 2 ^ (181 + 128 * i) * 2 ^ 128 := by rw [← pow_add]; congr 1
      have h := ih (q / 2 ^ 128) i hq2 (by omega)
      exact shift_step n q 128 h (by
        have : 2 ^ 181 ≤ q := Nat.le_of_not_lt h181
        rw [Nat.le_div_iff_mul_le (by norm_num)]
        calc 2 ^ 52 * 2 ^ 128 ≤ 2 ^ 181 := by norm_num
          _ ≤ q := this)

/-- The exponent that `Real64.ofRatio` finds is the right one: for `q` below `2 ^ 8885`
(a decimal of up to 2350 digits before its point), `q / 2 ^ b` lies below `2 ^ 53`, and
at or above `2 ^ 52` unless `b = 0`. -/
theorem shift_spec (q : Nat) (hq : q < 2 ^ (181 + 128 * 68)) :
    q / 2 ^ Real64.shift 100 q < 2 ^ 53 ∧
      (Real64.shift 100 q = 0 ∨ 2 ^ 52 ≤ q / 2 ^ Real64.shift 100 q) :=
  shift_coarse 100 q 68 hq (by norm_num)

theorem nearest_floor (n d : Nat) :
    n / d ≤ Real64.nearest n d ∧ Real64.nearest n d ≤ n / d + 1 := by
  unfold Real64.nearest
  split_ifs <;> omega

/-- What `Real64.ofRatio` computes, for a positive denominator and a number below
`2 ^ 7811`.  With `n` the numerator times `2 ^ 1074` (written `num <<< 1074`), `b` the
exponent and `m` the significand it finds, the bit pattern is `b * 2 ^ 52 + m` (or
`OutOfRange` when that is no finite float), `m` lies between `2 ^ 52` and `2 ^ 53`
unless `b = 0`, and `m * 2 ^ b` is within half of `2 ^ b` of `n / den`: the float
`m * 2 ^ (b - 1074)` is within half a unit in the last place of `num / den`. -/
theorem ofRatio_spec (num den : Nat) (hden : 0 < den)
    (hq : num <<< 1074 / den < 2 ^ (181 + 128 * 68)) :
    ∃ b m, Real64.ofRatio num den =
        (if b * 2 ^ 52 + m < 2047 * 2 ^ 52 then .ok ⟨b * 2 ^ 52 + m⟩
          else .error .OutOfRange) ∧
      (b = 0 ∨ 2 ^ 52 ≤ m) ∧ m ≤ 2 ^ 53 ∧
      2 * (num <<< 1074) ≤ (2 * m + 1) * (den * 2 ^ b) ∧
      2 * m * (den * 2 ^ b) ≤ 2 * (num <<< 1074) + den * 2 ^ b := by
  refine ⟨Real64.shift 100 (num <<< 1074 / den),
    Real64.nearest (num <<< 1074) (den * 2 ^ Real64.shift 100 (num <<< 1074 / den)),
    ?_, ?_, ?_, ?_⟩
  · unfold Real64.ofRatio
    show (if _ * 2 ^ 52 + Real64.nearest _ (den <<< _) < _ then _ else _) = _
    rw [Nat.shiftLeft_eq den]
  · obtain ⟨_, h⟩ := shift_spec _ hq
    rcases h with h | h
    · exact Or.inl h
    · right
      rw [Nat.div_div_eq_div_mul] at h
      exact le_trans h (nearest_floor _ _).1
  · obtain ⟨h, _⟩ := shift_spec _ hq
    rw [Nat.div_div_eq_div_mul] at h
    exact le_trans (nearest_floor (num <<< 1074)
      (den * 2 ^ Real64.shift 100 (num <<< 1074 / den))).2 (Nat.succ_le_of_lt h)
  · exact nearest_within_half _ _ (Nat.mul_pos hden (by positivity))

/-! ## Real literals -/

theorem realFinish_not_Valueless (t : Lexer) (buf : U.Dynar) (way : LexerModule)
    (e : Exception) (s : Lexer) : t.realFinish buf ≠ .thrown way .Valueless e s := by
  unfold Lexer.realFinish
  cases U.Text.ConvertToReal (U.Dynar.Put buf 0).Flush with
  | ok v => simp
  | error x => cases x <;> simp [Lexer.Yeet]

theorem mem_specSignificant {run : List Nat} {c : Nat} (h : c ∈ specSignificant run) :
    c ∈ run := by
  obtain ⟨zs, hsplit, _, _⟩ := zeros_split run
  rw [hsplit]
  exact List.mem_append_right zs h

theorem specValue_significant (run rest : List Nat) :
    specValue 10 (specSignificant run ++ rest) = specValue 10 (run ++ rest) := by
  obtain ⟨zs, hsplit, hzs, _⟩ := zeros_split run
  conv_rhs => rw [hsplit, List.append_assoc]
  exact (specValue_leading_zeros zs _ hzs).symm

/-- C14: on an input that starts with a decimal literal (a digit, then digits and
underscores), a point, a run of digits and underscores and directly after it a second
point, `Lex` returns no token: it leaves by the exception `WrongFormat` of the `Real`
scanner. -/
theorem Lex_second_point (c : Nat) (ipart frac rest : List Nat)
    (hc : specIsDigit 10 c = true) (hipart : ∀ d ∈ ipart, d = 95 ∨ specIsDigit 10 d = true)
    (hfrac : ∀ d ∈ frac, d = 95 ∨ specIsDigit 10 d = true) (fuel : Nat)
    (hfuel : (c :: ipart).length + frac.length < fuel) :
    ∃ o e s, Lexer.Lex fuel (Lexer.new (buffer (c :: ipart ++ 46 :: frac ++ 46 :: rest))) =
        some o ∧ o = .thrown .Real .WrongFormat e s ∧ o.token? = none := by
  obtain ⟨t, _, _, ht⟩ := Lex_point c ipart frac (46 :: rest) hc hipart hfrac (by
    simp [buffer, U.Text.IsNumeric]) fuel hfuel
  have h46 : (buffer (46 :: rest)).headD 0 = 46 := by simp [buffer]
  rw [if_pos h46] at ht
  exact ⟨_, _, _, ht, rfl, rfl⟩

theorem Lex_second_point_witness :
    (∃ o e s, Lexer.Lex 4 (Lexer.new (buffer (bytes "1.2.3"))) = some o ∧
      o = .thrown .Real .WrongFormat e s ∧ o.token? = none) ∧
    (∃ o e s, Lexer.Lex 2 (Lexer.new (buffer (bytes "1.."))) = some o ∧
      o = .thrown .Real .WrongFormat e s ∧ o.token? = none) :=
  ⟨Lex_second_point 49 [] [50] [51] (by decide) (by decide) (by decide) 4 (by decide),
    Lex_second_point 49 [] [] [] (by decide) (by decide) (by decide) 2 (by decide)⟩

/-- C13 at `"1."`: `Lex` raises no fault; it returns a `Real` token, of value 1 (the
float of bit pattern `0x3FF0000000000000`). -/
theorem Lex_point_without_digit :
    (∃ s, Lexer.Lex 2 (Lexer.new (buffer (bytes "1."))) = some (.returned s) ∧
      s.token.Symbol = .Real ∧ s.token.Value = .Real ⟨0x3FF0000000000000⟩) ∧
    ¬ ∃ e s, Lexer.Lex 2 (Lexer.new (buffer (bytes "1."))) =
      some (.thrown .Real .Valueless e s) := by
  refine ⟨⟨_, rfl, rfl, rfl⟩, ?_⟩
  rintro ⟨e, s, h⟩
  have h2 : (Lexer.Lex 2 (Lexer.new (buffer (bytes "1.")))).map Outcome.token? ≠
      some none := by decide
  rw [h] at h2
  exact h2 rfl

/-- C13, amended: the real scanner asks for no digit after the point.  On an input that
is a non-empty run of decimal digits, a point, and then a byte that is not a decimal
digit (so what follows the point is a run `frac` of underscores and digits that is empty
or begins with an underscore, and then a byte that is neither), `Lex` never leaves by
`Valueless`: it leaves by `WrongFormat` of the `Real` scanner when the byte after `frac`
is a second point, and otherwise hands the digits without their leading zeros, the point
and the digits of `frac` to the real conversion, returns a `Real` token of the value
converted, and leaves by `Inconvertible` of the `Real` scanner when the conversion
rejects the text. -/
theorem Lex_point_then_no_digit (c : Nat) (ipart frac post : List Nat)
    (hc : specIsDigit 10 c = true) (hipart : ∀ d ∈ ipart, specIsDigit 10 d = true)
    (hfrac : ∀ d ∈ frac, d = 95 ∨ specIsDigit 10 d = true)
    (_hnext : specIsDigit 10 ((frac ++ buffer post).headD 0) = false)
    (hpost : (U.Text.IsNumeric ((buffer post).headD 0) || (buffer post).headD 0 == 95) = false)
    (fuel : Nat) (hfuel : (c :: ipart).length + frac.length < fuel) :
    ∃ o, Lexer.Lex fuel (Lexer.new (buffer (c :: ipart ++ 46 :: frac ++ post))) = some o ∧
      (∀ way e s, o ≠ .thrown way .Valueless e s) ∧
      if (buffer post).headD 0 = 46 then ∃ e s, o = .thrown .Real .WrongFormat e s
      else
        match U.Text.ConvertToReal
          (buffer (specSignificant (c :: ipart) ++ 46 :: specStrip frac)) with
        | .ok r => ∃ s, o = .returned s ∧ s.token.Symbol = .Real ∧ s.token.Value = .Real r
        | .error .InvalidArgument => ∃ e s, o = .thrown .Real .Inconvertible e s
        | .error .OutOfRange => ∃ e s, o = .thrown .Real .OutOfRange e s := by
  have hrun : ∀ d ∈ c :: ipart, specIsDigit 10 d = true := by
    intro d hd
    rcases List.mem_cons.mp hd with h | h
    · exact h ▸ hc
    · exact hipart d h
  have hsig : ∀ d ∈ specSignificant (c :: ipart), specIsDigit 10 d = true :=
    fun d hd => hrun d (mem_specSignificant hd)
  obtain ⟨t, _, hsym, ht⟩ := Lex_point c ipart frac post hc
    (fun d hd => Or.inr (hipart d hd)) hfrac hpost fuel hfuel
  rw [specStrip_digits hsig] at ht
  refine ⟨_, ht, ?_, ?_⟩
  · intro way e s
    split_ifs
    · simp [Outcome.epilogue, Lexer.Yeet]
    · intro h
      have hf := realFinish_not_Valueless t
        (specSignificant (c :: ipart) ++ 46 :: specStrip frac) way e s
      revert h hf
      cases t.realFinish (specSignificant (c :: ipart) ++ 46 :: specStrip frac) with
      | returned u => intro h _; simp [Outcome.epilogue] at h
      | thrown w x y u =>
        intro h hf
        simp only [Outcome.epilogue] at h
        exact hf h
  · split_ifs with h46
    · exact ⟨_, _, rfl⟩
    · simp only [Lexer.realFinish, U.Dynar.Put, U.Dynar.Flush, buffer, List.append_assoc,
        List.cons_append]
      cases U.Text.ConvertToReal
          (specSignificant (c :: ipart) ++ 46 :: (specStrip frac ++ [0])) with
      | ok r => exact ⟨_, rfl, hsym, rfl⟩
      | error x => cases x <;> exact ⟨_, _, rfl⟩

theorem Lex_point_then_no_digit_witness :
    (∃ o, Lexer.Lex 2 (Lexer.new (buffer (bytes "1."))) = some o ∧
      (∀ way e s, o ≠ .thrown way .Valueless e s) ∧
      ∃ s, o = .returned s ∧ s.token.Symbol = .Real ∧ s.token.Value = .Real ⟨0x3FF0000000000000⟩) ∧
    (∃ o, Lexer.Lex 2 (Lexer.new (buffer (bytes "1.x"))) = some o ∧
      (∀ way e s, o ≠ .thrown way .Valueless e s) ∧
      ∃ s, o = .returned s ∧ s.token.Symbol = .Real ∧ s.token.Value = .Real ⟨0x3FF0000000000000⟩) ∧
    (∃ o, Lexer.Lex 2 (Lexer.new (buffer (bytes "0."))) = some o ∧
      (∀ way e s, o ≠ .thrown way .Valueless e s) ∧
      ∃ e s, o = .thrown .Real .Inconvertible e s) :=
  ⟨Lex_point_then_no_digit 49 [] [] [] (by decide) (by decide) (by decide) (by decide)
      (by decide) 2 (by decide),
    Lex_point_then_no_digit 49 [] [] [120] (by decide) (by decide) (by decide) (by decide)
      (by decide) 2 (by decide),
    Lex_point_then_no_digit 48 [] [] [] (by decide) (by decide) (by decide) (by decide)
      (by decide) 2 (by decide)⟩

/-! ## Underscores in decimal literals -/

theorem LexNatural_finish (run : List Nat) (hrun : ∀ c ∈ run, c = 95 ∨ specIsDigit 10 c = true) :
    ∀ (fuel : Nat) (s : Lexer) (pre : List Nat) (buf : U.Dynar) (c : Nat),
      run.length < fuel → s.At pre (c :: run ++ [0]) →
      ∃ t : Lexer, t.At (pre ++ c :: run) [0] ∧ t.token = s.token ∧
        Lexer.LexNatural fuel s buf =
          some (t.naturalFinish (buf ++ specStrip (c :: run))) := by
  induction run with
  | nil =>
    intro fuel s pre buf c hf h
    obtain ⟨n, rfl⟩ : ∃ n, fuel = n + 1 := ⟨fuel - 1, by simp at hf; omega⟩
    have hp : s.peek = c := h.peek_cons
    have ha : s.Advance.At (pre ++ [c]) [0] := by simpa using h.advance
    have hq : s.Advance.peek = 0 := ha.peek_cons
    refine ⟨s.Advance, ha, Advance_token s, ?_⟩
    have hv0 : (U.Text.IsNumeric 0 || (0 : Nat) == 95) = false := by decide
    have h046 : ¬ ((0 : Nat) = 46) := by decide
    simp only [Lexer.LexNatural, Lexer.PutNumericBuf, hq, hp, put_eq_strip,
      Lexer.PeekIsValidNatural, Lexer.naturalFinish, hv0, h046, Bool.false_eq_true, if_false]
    split_ifs
    · rfl
    · cases U.Text.ConvertToInteger (U.Dynar.Put (buf ++ specStrip [c]) 0).Flush with
      | ok v => rfl
      | error x => cases x <;> rfl
  | cons d run ih =>
    intro fuel s pre buf c hf h
    obtain ⟨n, rfl⟩ : ∃ n, fuel = n + 1 := ⟨fuel - 1, by simp at hf; omega⟩
    have hp : s.peek = c := h.peek_cons
    have ha : s.Advance.At (pre ++ [c]) (d :: run ++ [0]) := by simpa using h.advance
    have hq : s.Advance.peek = d := ha.peek_cons
    obtain ⟨hd46, _, hdv⟩ := natural_byte (hrun d (by simp))
    obtain ⟨t, hat, htok, ht⟩ := ih (fun e he => hrun e (by simp [he])) n s.Advance
      (pre ++ [c]) (buf ++ specStrip [c]) d (by simp at hf; omega) ha
    rw [specStrip_cons_append] at ht
    refine ⟨t, by simpa using hat, by rw [htok, Advance_token], ?_⟩
    simp only [Lexer.LexNatural, Lexer.PutNumericBuf, hq, hp, put_eq_strip,
      Lexer.PeekIsValidNatural, hd46, hdv, if_false, if_true, ht]

theorem naturalFinish_verdict (t : Lexer) (ds : List Nat)
    (hds : ∀ c ∈ ds, specIsDigit 10 c = true) :
    (t.naturalFinish ds).verdict =
      if ds = [] then .fault .Natural .Valueless 4 else specDecimalVerdict ds := by
  cases ds with
  | nil => rfl
  | cons c cs =>
    have hne : c :: cs ≠ [] := List.cons_ne_nil c cs
    have hscan := scanDigits_text 10 (c :: cs) hds hne
    have hv : specValue 10 (c :: cs) =
        Nat.ofDigits 10 (((c :: cs).map (fun c => (specDigit c).getD 0)).reverse) := by
      simp only [specValue, specStrip_digits hds]
    rw [← hv] at hscan
    have hsz : ¬ (U.Dynar.Size (c :: cs) = 0) := by simp [U.Dynar.Size]
    simp only [Lexer.naturalFinish, if_neg hsz, if_neg hne, U.Dynar.Put, U.Dynar.Flush,
      U.Text.ConvertToInteger, hscan, specDecimalVerdict]
    split_ifs <;> rfl

theorem specStrip_idem (run : List Nat) : specStrip (specStrip run) = specStrip run := by
  simp [specStrip, List.filter_filter]

theorem specValue_strip (base : Nat) (run : List Nat) :
    specValue base (specStrip run) = specValue base run := by
  simp only [specValue, specStrip_idem]

theorem specDecimalVerdict_congr {a b : List Nat} (h : specValue 10 a = specValue 10 b) :
    specDecimalVerdict a = specDecimalVerdict b := by
  simp only [specDecimalVerdict, h]

theorem numericRest_verdict (tail : List Nat)
    (htail : ∀ c ∈ tail, c = 95 ∨ specIsDigit 10 c = true) (fuel : Nat) (s : Lexer)
    (pre : List Nat) (hf : tail.length ≤ fuel) (h : s.At pre (tail ++ [0])) :
    ∃ o, Lexer.numericRest fuel s [] = some o ∧
      o.verdict = if tail ≠ [] ∧ specStrip tail = [] then .fault .Natural .Valueless 4
        else specDecimalVerdict tail := by
  cases tail with
  | nil =>
    have hp : s.peek = 0 := h.peek_cons
    refine ⟨.returned ((s.setSymbol .Natural).setValue (.Integer 0)), ?_, ?_⟩
    · simp [Lexer.numericRest, Lexer.PeekIsValidNatural, hp, U.Text.IsNumeric]
    · rfl
  | cons c run =>
    have hp : s.peek = c := h.peek_cons
    obtain ⟨_, _, hcv⟩ := natural_byte (htail c (by simp))
    obtain ⟨t, _, _, ht⟩ := LexNatural_finish run (fun e he => htail e (by simp [he]))
      fuel s pre [] c (by simpa using hf) h
    rw [List.nil_append] at ht
    refine ⟨t.naturalFinish (specStrip (c :: run)), ?_, ?_⟩
    · simp only [Lexer.numericRest, Lexer.PeekIsValidNatural, hp, hcv, if_true, ht]
    · rw [naturalFinish_verdict t _ (specStrip_isDigit htail)]
      by_cases h0 : specStrip (c :: run) = []
      · simp [h0]
      · simp only [h0, and_false, if_false]
        exact specDecimalVerdict_congr (specValue_strip 10 _)

theorem LexNumeric_verdict (c : Nat) (rest : List Nat) (hc : specIsDigit 10 c = true)
    (hrest : ∀ d ∈ rest, d = 95 ∨ specIsDigit 10 d = true) (fuel : Nat) (s : Lexer)
    (hf : (c :: rest).length ≤ fuel) (h : s.At [] (c :: rest ++ [0])) :
    ∃ o, Lexer.LexNumeric fuel s = some o ∧
      o.verdict =
        if specSignificant (c :: rest) ≠ [] ∧ specStrip (specSignificant (c :: rest)) = []
        then .fault .Natural .Valueless 4
        else specDecimalVerdict (c :: rest) := by
  have hp : s.peek = c := h.peek_cons
  have hval : specDecimalVerdict (specSignificant (c :: rest)) =
      specDecimalVerdict (c :: rest) := by
    apply specDecimalVerdict_congr
    have := specValue_significant (c :: rest) []
    simpa using this
  rw [← hval]
  by_cases hc48 : c = 48
  · subst hc48
    obtain ⟨zs, hsplit, hzs, htl⟩ := zeros_split rest
    have hsig : specSignificant (48 :: rest) = specSignificant rest := by
      simp [specSignificant, List.dropWhile_cons]
    rw [hsig]
    generalize specSignificant rest = tail at hsplit htl
    subst hsplit
    have htail : ∀ e ∈ tail, e = 95 ∨ specIsDigit 10 e = true :=
      fun e he => hrest e (by simp [he])
    have hlen : zs.length + tail.length + 1 ≤ fuel := by
      simp only [List.length_cons, List.length_append] at hf
      omega
    have h1 : s.Advance.At [48] (zs ++ tail ++ [0]) := by simpa using h.advance
    have hne : (tail ++ [0]).headD 0 ≠ 48 := by
      intro h48
      have := (htl [0] h48).1
      simp at this
    cases zs with
    | nil =>
      have h1a : s.Advance.At [48] (tail ++ [0]) := by simpa using h1
      have hq : s.Advance.peek = (tail ++ [0]).headD 0 := h1a.peek
      have hq2 : s.Advance.peek ≠ 98 ∧ s.Advance.peek ≠ 66 ∧ s.Advance.peek ≠ 120 ∧
          s.Advance.peek ≠ 88 := by
        rw [hq]
        cases tail with
        | nil => simp
        | cons e tail =>
          simp only [List.cons_append, List.headD_cons]
          rcases htail e (by simp) with h95 | hdig
          · subst h95; decide
          · have := isNumeric_of_specIsDigit hdig
            have hb : 48 ≤ e ∧ e ≤ 57 := by simpa [U.Text.IsNumeric] using this
            omega
      obtain ⟨o, ho, hv⟩ := numericRest_verdict tail htail fuel s.Advance [48] (by omega) h1a
      refine ⟨o, ?_, hv⟩
      simp only [Lexer.LexNumeric, hp, if_true, hq ▸ hne, if_false, hq2.1, hq2.2.1,
        hq2.2.2.1, hq2.2.2.2, or_self, ho]
    | cons z zs =>
      have hz : z = 48 := hzs z (by simp)
      subst hz
      have h1a : s.Advance.At [48] (48 :: zs ++ (tail ++ [0])) := by simpa using h1
      have hq : s.Advance.peek = 48 := h1a.peek_cons
      obtain ⟨u, hu, hatu, _⟩ := zeroLoop_run zs (fun e he => hzs e (by simp [he]))
        (tail ++ [0]) hne fuel s.Advance [48] 48
        (by simp only [List.length_cons] at hlen; omega) h1a
      obtain ⟨o, ho, hv⟩ := numericRest_verdict tail htail fuel u ([48] ++ 48 :: zs)
        (by omega) hatu
      refine ⟨o, ?_, hv⟩
      simp only [Lexer.LexNumeric, hp, if_true, hq, hu, ho]
  · have hsig : specSignificant (c :: rest) = c :: rest := by
      simp [specSignificant, List.dropWhile_cons, hc48]
    rw [hsig]
    obtain ⟨o, ho, hv⟩ := numericRest_verdict (c :: rest)
      (fun e he => by
        rcases List.mem_cons.mp he with h | h
        · exact Or.inr (h ▸ hc)
        · exact hrest e h) fuel s [] hf h
    refine ⟨o, ?_, hv⟩
    simp only [Lexer.LexNumeric, hp, if_neg hc48, ho]

theorem epilogue_verdict (o : Outcome) : o.epilogue.verdict = o.verdict := by
  cases o <;> rfl

/-- The verdict of `Lex` on a run of decimal digits and underscores that begins with a
digit. -/
theorem Lex_decimal_verdict (c : Nat) (rest : List Nat) (hc : specIsDigit 10 c = true)
    (hrest : ∀ d ∈ rest, d = 95 ∨ specIsDigit 10 d = true) (fuel : Nat)
    (hfuel : (c :: rest).length ≤ fuel) :
    ∃ o, Lexer.Lex fuel (Lexer.new (buffer (c :: rest))) = some o ∧
      o.verdict =
        if specSignificant (c :: rest) ≠ [] ∧ specStrip (specSignificant (c :: rest)) = []
        then .fault .Natural .Valueless 4
        else specDecimalVerdict (c :: rest) := by
  obtain ⟨n, rfl⟩ : ∃ n, fuel = n + 1 :=
    ⟨fuel - 1, by simp only [List.length_cons] at hfuel; omega⟩
  have hat : (Lexer.new (buffer (c :: rest))).setStart.At [] (c :: rest ++ [0]) := by
    simpa [buffer] using (At_new (buffer (c :: rest))).setStart
  have hnum : U.Text.IsNumeric (Lexer.new (buffer (c :: rest))).peek = true := by
    rw [(At_new (buffer (c :: rest))).peek]
    exact isNumeric_of_specIsDigit hc
  obtain ⟨o, ho, hv⟩ := LexNumeric_verdict c rest hc hrest (n + 1) _ hfuel hat
  exact ⟨o.epilogue, by rw [Lex_of_numeric n _ hnum, ho]; rfl, by rw [epilogue_verdict, hv]⟩

/-- C11 at `"0_"`: the call leaves by `Valueless` of the natural scanner, where on `"0"`,
the same input without its underscore, it returns the `Natural` token of value 0. -/
theorem Lex_zero_underscore :
    (Lexer.Lex 2 (Lexer.new (buffer (bytes "0_")))).map Outcome.verdict =
      some (.fault .Natural .Valueless 4) ∧
    (Lexer.Lex 2 (Lexer.new (buffer (specStrip (bytes "0_"))))).map Outcome.verdict =
      some (.token .Natural (.Integer 0)) :=
  ⟨rfl, rfl⟩

/-- C11, amended: underscores are separators without adjacency validation.  On an input
that is exactly a run of decimal digits and underscores beginning with a digit, in which
the leading zeros are followed by nothing or by a run holding a digit, `Lex` gives the
same verdict (the same `Natural` value or the same fault) as on the input with all its
underscores deleted, namely the value of the run or `OutOfRange`. -/
theorem Lex_underscores_ignored (c : Nat) (rest : List Nat) (hc : specIsDigit 10 c = true)
    (hrest : ∀ d ∈ rest, d = 95 ∨ specIsDigit 10 d = true)
    (hdigit : specSignificant (c :: rest) = [] ∨
      specStrip (specSignificant (c :: rest)) ≠ [])
    (fuel : Nat) (hfuel : (c :: rest).length ≤ fuel) :
    ∃ o o', Lexer.Lex fuel (Lexer.new (buffer (c :: rest))) = some o ∧
      Lexer.Lex fuel (Lexer.new (buffer (specStrip (c :: rest)))) = some o' ∧
      o.verdict = o'.verdict ∧ o.verdict = specDecimalVerdict (c :: rest) := by
  have hc95 : c ≠ 95 := by
    intro h
    subst h
    simp [specIsDigit, specDigit] at hc
  have hs : specStrip (c :: rest) = c :: specStrip rest := by
    simp [specStrip, List.filter_cons, hc95]
  have hsrest : ∀ d ∈ specStrip rest, specIsDigit 10 d = true := specStrip_isDigit hrest
  have hall : ∀ d ∈ c :: specStrip rest, specIsDigit 10 d = true := by
    intro d hd
    rcases List.mem_cons.mp hd with h | h
    · exact h ▸ hc
    · exact hsrest d h
  have hlen : (c :: specStrip rest).length ≤ fuel := by
    have : (specStrip rest).length ≤ rest.length := List.length_filter_le _ _
    simp only [List.length_cons] at hfuel ⊢
    omega
  obtain ⟨o, ho, hv⟩ := Lex_decimal_verdict c rest hc hrest fuel hfuel
  obtain ⟨o', ho', hv'⟩ := Lex_decimal_verdict c (specStrip rest) hc
    (fun d hd => Or.inr (hsrest d hd)) fuel hlen
  have h1 : ¬ (specSignificant (c :: rest) ≠ [] ∧
      specStrip (specSignificant (c :: rest)) = []) := by
    rintro ⟨ha, hb⟩
    rcases hdigit with h | h
    · exact ha h
    · exact h hb
  have h2 : ¬ (specSignificant (c :: specStrip rest) ≠ [] ∧
      specStrip (specSignificant (c :: specStrip rest)) = []) := by
    rintro ⟨ha, hb⟩
    rw [specStrip_digits (fun d hd => hall d (mem_specSignificant hd))] at hb
    exact ha hb
  rw [if_neg h1] at hv
  rw [if_neg h2] at hv'
  have hcongr : specDecimalVerdict (c :: specStrip rest) = specDecimalVerdict (c :: rest) := by
    apply specDecimalVerdict_congr
    rw [← hs, specValue_strip]
  refine ⟨o, o', ho, by rw [hs]; exact ho', ?_, hv⟩
  rw [hv, hv', hcongr]

theorem Lex_underscores_ignored_witness :
    ∃ o o', Lexer.Lex 5 (Lexer.new (buffer (bytes "1_000"))) = some o ∧
      Lexer.Lex 5 (Lexer.new (buffer (bytes "1000"))) = some o' ∧
      o.verdict = o'.verdict ∧ o.verdict = .token .Natural (.Integer 1000) :=
  Lex_underscores_ignored 49 (bytes "_000") (by decide) (by decide) (by decide) 5
    (by decide)

/-! ## The terminator and the invariant -/

theorem getD_terminator (src : List Nat) : src.getD (terminator src) 0 = 0 := by
  induction src with
  | nil => rfl
  | cons c cs ih =>
    by_cases hc : c = 0
    · simp [terminator, List.indexOf_cons, hc]
    · simpa [terminator, List.indexOf_cons, hc] using ih

theorem getD_before_terminator (src : List Nat) :
    ∀ i, i < terminator src → src.getD i 0 ≠ 0 := by
  induction src with
  | nil => intro i hi; simp [terminator] at hi
  | cons c cs ih =>
    intro i hi
    by_cases hc : c = 0
    · simp [terminator, List.indexOf_cons, hc] at hi
    · cases i with
      | zero => simpa using hc
      | succ j =>
        have hj : j < terminator cs := by
          simpa [terminator, List.indexOf_cons, hc] using hi
        simpa using ih j hj

theorem terminator_lt_length {src : List Nat} (h : 0 ∈ src) : terminator src < src.length :=
  List.indexOf_lt_length.mpr h

theorem Advance_reads (s : Lexer) :
    s.Advance.reads = (s.index + 1 + ((1 : Nat) : Int)) :: s.reads := by
  simp only [Lexer.Advance, Lexer.logPeek]; split <;> rfl

theorem Good_new (src : List Nat) : (Lexer.new src).Good src := by
  refine ⟨rfl, by simp [Lexer.cursor, Lexer.new], by simp [Lexer.cursor, Lexer.new],
    by simp [Lexer.cursor, Lexer.new], ?_⟩
  intro i hi
  simp only [Lexer.new, List.mem_singleton] at hi
  subst hi
  simp

theorem Lexer.Good.cursor_lt {src : List Nat} {s : Lexer} (h : s.Good src)
    (h0 : s.peek ≠ 0) : s.cursor < terminator src := by
  rcases lt_or_eq_of_le h.upper with hlt | heq
  · exact hlt
  · exfalso
    apply h0
    rw [h.peek, heq]
    simpa using getD_terminator src

theorem Lexer.Good.peek_zero {src : List Nat} {s : Lexer} (h : s.Good src)
    (hc : s.cursor = terminator src) : s.peek = 0 := by
  rw [h.peek, hc]
  simpa using getD_terminator src

theorem Lexer.Good.step {src : List Nat} {s : Lexer} (h : s.Good src)
    (h0 : s.peek ≠ 0) : s.Advance.Good src ∧ s.Advance.cursor = s.cursor + 1 := by
  have hlt := h.cursor_lt h0
  have hlo := h.lower
  have hc : s.Advance.cursor = s.cursor + 1 := by
    simp only [Lexer.cursor, Advance_index]
  refine ⟨⟨by rw [Advance_source, h.source], by rw [hc]; omega, by rw [hc]; omega, ?_, ?_⟩, hc⟩
  · rw [Advance_peek, h.source, hc]
    rfl
  · intro i hi
    rw [Advance_reads] at hi
    rcases List.mem_cons.mp hi with hi | hi
    · simp only [Lexer.cursor] at hlt hlo
      subst hi
      constructor <;> push_cast <;> omega
    · exact h.reads i hi

theorem Lexer.Good.tagged {src : List Nat} {s : Lexer} (h : s.Good src)
    (t : TokenSymbol) : (s.setSymbol t).Good src := ⟨h.source, h.lower, h.upper, h.peek, h.reads⟩

theorem Lexer.Good.valued {src : List Nat} {s : Lexer} (h : s.Good src)
    (v : TokenValue) : (s.setValue v).Good src := ⟨h.source, h.lower, h.upper, h.peek, h.reads⟩

theorem Lexer.Good.started {src : List Nat} {s : Lexer} (h : s.Good src) :
    s.setStart.Good src := ⟨h.source, h.lower, h.upper, h.peek, h.reads⟩

theorem Lexer.Good.EPILOGUE {src : List Nat} {s : Lexer} (h : s.Good src) :
    s.EPILOGUE.Good src := ⟨h.source, h.lower, h.upper, h.peek, h.reads⟩

theorem Lexer.Good.logPeek_two {src : List Nat} {s : Lexer} (h : s.Good src)
    (h0 : s.peek ≠ 0) : (s.logPeek 2).Good src := by
  have hlt := h.cursor_lt h0
  have hlo := h.lower
  refine ⟨h.source, h.lower, h.upper, h.peek, ?_⟩
  intro i hi
  simp only [Lexer.logPeek] at hi
  rcases List.mem_cons.mp hi with hi | hi
  · simp only [Lexer.cursor] at hlt hlo
    subst hi
    constructor <;> push_cast <;> omega
  · exact h.reads i hi

theorem Advance_peek_eq_Peek_two (s : Lexer) : s.Advance.peek = s.Peek 2 := by
  rw [Advance_peek, Lexer.Peek]
  congr 2
  push_cast
  omega

/-! ## The loops keep the invariant, move the cursor on, and end -/

theorem skipWhitespace_good (src : List Nat) :
    ∀ (fuel : Nat) (s : Lexer), s.Good src →
      (∀ t, Lexer.skipWhitespace fuel s = some t →
        t.Good src ∧ s.cursor ≤ t.cursor ∧ t.token = s.token ∧
          U.Text.IsWhitespace t.peek = false) ∧
      ((terminator src : Int) - s.cursor < fuel → ∃ t, Lexer.skipWhitespace fuel s = some t) := by
  intro fuel
  induction fuel with
  | zero =>
    intro s hg
    refine ⟨fun t h => by simp [Lexer.skipWhitespace] at h, fun h => ?_⟩
    have := hg.upper
    omega
  | succ n ih =>
    intro s hg
    by_cases hw : U.Text.IsWhitespace s.peek = true
    · have h0 : s.peek ≠ 0 := by
        intro h; rw [h] at hw; exact absurd hw (by decide)
      obtain ⟨hga, hca⟩ := hg.step h0
      obtain ⟨ih1, ih2⟩ := ih s.Advance hga
      simp only [Lexer.skipWhitespace, hw, if_true]
      refine ⟨fun t ht => ?_, fun hf => ih2 (by rw [hca]; omega)⟩
      obtain ⟨a, b, c, d⟩ := ih1 t ht
      exact ⟨a, by rw [hca] at b; omega, by rw [c, Advance_token], d⟩
    · have hw2 : U.Text.IsWhitespace s.peek = false := by simpa using hw
      simp only [Lexer.skipWhitespace, hw2, Bool.false_eq_true, if_false]
      refine ⟨fun t ht => ?_, fun _ => ⟨s, rfl⟩⟩
      obtain rfl : s = t := by simpa using ht
      exact ⟨hg, le_refl _, rfl, hw2⟩


theorem Lexer.Moved.of_returned {src : List Nat} {s t : Lexer} (hg : t.Good src)
    (hlt : s.cursor < t.cursor) : Lexer.Moved src s (.returned t) :=
  ⟨hg, le_of_lt hlt, fun u hu => by cases hu; exact hlt⟩

theorem Lexer.Moved.of_thrown {src : List Nat} {s t : Lexer} (hg : t.Good src)
    (hle : s.cursor ≤ t.cursor) (way : LexerModule) (error : LexerError) :
    Lexer.Moved src s (t.Yeet way error) :=
  ⟨hg, hle, fun u hu => by simp [Lexer.Yeet] at hu⟩

theorem Lexer.Moved.of_le {src : List Nat} {s u : Lexer} {o : Outcome}
    (hle : s.cursor ≤ u.cursor) (h : Lexer.Moved src u o) : Lexer.Moved src s o :=
  ⟨h.good, le_trans hle h.le, fun u hu => lt_of_le_of_lt hle (h.lt u hu)⟩

theorem Lexer.Moved.of_lt {src : List Nat} {s u : Lexer} {o : Outcome}
    (hlt : s.cursor < u.cursor) (hg : o.state.Good src) (hle : u.cursor ≤ o.state.cursor) :
    Lexer.Moved src s o :=
  ⟨hg, le_of_lt (lt_of_lt_of_le hlt hle), fun u hu => by
    subst hu
    exact lt_of_lt_of_le hlt hle⟩

theorem zeroLoop_good (src : List Nat) :
    ∀ (fuel : Nat) (s : Lexer), s.Good src → s.peek ≠ 0 →
      (∀ t, Lexer.zeroLoop fuel s = some t →
        Lexer.Moved src s (.returned t) ∧ t.token = s.token) ∧
      ((terminator src : Int) - s.cursor < fuel → ∃ t, Lexer.zeroLoop fuel s = some t) := by
  intro fuel
  induction fuel with
  | zero =>
    intro s hg _
    refine ⟨fun t h => by simp [Lexer.zeroLoop] at h, fun h => ?_⟩
    have := hg.upper
    omega
  | succ n ih =>
    intro s hg h0
    obtain ⟨hga, hca⟩ := hg.step h0
    have hle : s.cursor ≤ s.Advance.cursor := by omega
    by_cases hq : s.Advance.peek = 48
    · obtain ⟨ih1, ih2⟩ := ih s.Advance hga (by rw [hq]; decide)
      simp only [Lexer.zeroLoop, hq, if_true]
      refine ⟨fun t ht => ?_, fun hf => ih2 (by rw [hca]; omega)⟩
      obtain ⟨hm, d⟩ := ih1 t ht
      exact ⟨hm.of_le hle, by rw [d, Advance_token]⟩
    · simp only [Lexer.zeroLoop, hq, if_false]
      refine ⟨fun t ht => ?_, fun _ => ⟨_, rfl⟩⟩
      obtain rfl : s.Advance = t := by simpa using ht
      exact ⟨Lexer.Moved.of_returned hga (by omega), Advance_token s⟩

theorem lineCommentLoop_good (src : List Nat) :
    ∀ (fuel : Nat) (s : Lexer), s.Good src → s.peek ≠ 0 →
      (∀ t, Lexer.lineCommentLoop fuel s = some t →
        Lexer.Moved src s (.returned t) ∧ t.token = s.token) ∧
      ((terminator src : Int) - s.cursor < fuel →
        ∃ t, Lexer.lineCommentLoop fuel s = some t) := by
  intro fuel
  induction fuel with
  | zero =>
    intro s hg _
    refine ⟨fun t h => by simp [Lexer.lineCommentLoop] at h, fun h => ?_⟩
    have := hg.upper
    omega
  | succ n ih =>
    intro s hg h0
    obtain ⟨hga, hca⟩ := hg.step h0
    have hle : s.cursor ≤ s.Advance.cursor := by omega
    by_cases hq : s.Advance.peek ≠ 10 ∧ s.Advance.peek ≠ 0
    · obtain ⟨ih1, ih2⟩ := ih s.Advance hga hq.2
      simp only [Lexer.lineCommentLoop]
      rw [if_pos hq]
      refine ⟨fun t ht => ?_, fun hf => ih2 (by rw [hca]; omega)⟩
      obtain ⟨hm, d⟩ := ih1 t ht
      exact ⟨hm.of_le hle, by rw [d, Advance_token]⟩
    · simp only [Lexer.lineCommentLoop]
      rw [if_neg hq]
      refine ⟨fun t ht => ?_, fun _ => ⟨_, rfl⟩⟩
      obtain rfl : s.Advance = t := by simpa using ht
      exact ⟨Lexer.Moved.of_returned hga (by omega), Advance_token s⟩

theorem putLoop_good (src : List Nat) (valid : Nat → Bool)
    (hvalid : ∀ c, valid c = true → c ≠ 0) :
    ∀ (fuel : Nat) (s : Lexer) (buf : U.Dynar), s.Good src → s.peek ≠ 0 →
      (∀ t b, Lexer.putLoop valid fuel s buf = some (t, b) →
        Lexer.Moved src s (.returned t) ∧ t.token = s.token) ∧
      ((terminator src : Int) - s.cursor < fuel →
        ∃ r, Lexer.putLoop valid fuel s buf = some r) := by
  intro fuel
  induction fuel with
  | zero =>
    intro s buf hg _
    refine ⟨fun t b h => by simp [Lexer.putLoop] at h, fun h => ?_⟩
    have := hg.upper
    omega
  | succ n ih =>
    intro s buf hg h0
    obtain ⟨hga, hca⟩ := hg.step h0
    have hle : s.cursor ≤ s.Advance.cursor := by omega
    by_cases hq : valid s.Advance.peek = true
    · obtain ⟨ih1, ih2⟩ := ih s.Advance (if s.peek ≠ 95 then buf.Put s.peek else buf) hga
        (hvalid _ hq)
      simp only [Lexer.putLoop, Lexer.PutNumericBuf, hq, if_true]
      refine ⟨fun t b ht => ?_, fun hf => ih2 (by rw [hca]; omega)⟩
      obtain ⟨hm, d⟩ := ih1 t b ht
      exact ⟨hm.of_le hle, by rw [d, Advance_token]⟩
    · simp only [Lexer.putLoop, Lexer.PutNumericBuf, hq, Bool.false_eq_true, if_false]
      refine ⟨fun t b ht => ?_, fun _ => ⟨_, rfl⟩⟩
      obtain ⟨rfl, -⟩ : s.Advance = t ∧ _ = b := by simpa using ht
      exact ⟨Lexer.Moved.of_returned hga (by omega), Advance_token s⟩


theorem Yeet_state (s : Lexer) (way : LexerModule) (error : LexerError) :
    (s.Yeet way error).state = s := rfl

theorem alphabeticLoop_good (src : List Nat) :
    ∀ (fuel : Nat) (s : Lexer) (buf : U.Dynar), s.Good src → s.peek ≠ 0 →
      (∀ o b, Lexer.alphabeticLoop fuel s buf = some (o, b) →
        Lexer.Moved src s o ∧ o.state.token = s.token) ∧
      ((terminator src : Int) - s.cursor < fuel →
        ∃ r, Lexer.alphabeticLoop fuel s buf = some r) := by
  intro fuel
  induction fuel with
  | zero =>
    intro s buf hg _
    refine ⟨fun o b h => by simp [Lexer.alphabeticLoop] at h, fun h => ?_⟩
    have := hg.upper
    omega
  | succ n ih =>
    intro s buf hg h0
    by_cases hsz : U.Dynar.Size buf > 1024
    · simp only [Lexer.alphabeticLoop, if_pos hsz]
      refine ⟨fun o b ht => ?_, fun _ => ⟨_, rfl⟩⟩
      obtain ⟨rfl, -⟩ : s.Yeet .Alphabetic .OutOfRange = o ∧ _ = b := by simpa using ht
      exact ⟨Lexer.Moved.of_thrown hg (le_refl _) _ _, rfl⟩
    · obtain ⟨hga, hca⟩ := hg.step h0
      have hle : s.cursor ≤ s.Advance.cursor := by omega
      by_cases hq : (U.Text.IsNumeric s.Advance.peek || s.Advance.PeekIsValidIdentity) = true
      · have hq0 : s.Advance.peek ≠ 0 := by
          intro h
          rw [Lexer.PeekIsValidIdentity, h] at hq
          exact absurd hq (by decide)
        obtain ⟨ih1, ih2⟩ := ih s.Advance (buf.Put s.peek) hga hq0
        simp only [Lexer.alphabeticLoop, if_neg hsz, hq, if_true]
        refine ⟨fun o b ht => ?_, fun hf => ih2 (by rw [hca]; omega)⟩
        obtain ⟨hm, d⟩ := ih1 o b ht
        exact ⟨hm.of_le hle, by rw [d, Advance_token]⟩
      · simp only [Lexer.alphabeticLoop, if_neg hsz, hq, Bool.false_eq_true, if_false]
        refine ⟨fun o b ht => ?_, fun _ => ⟨_, rfl⟩⟩
        obtain ⟨rfl, -⟩ : Outcome.returned s.Advance = o ∧ _ = b := by simpa using ht
        exact ⟨Lexer.Moved.of_returned hga (by omega), Advance_token s⟩

theorem realLoop_good (src : List Nat) :
    ∀ (fuel : Nat) (s : Lexer) (buf : U.Dynar), s.Good src → s.peek ≠ 0 →
      (∀ o b, Lexer.realLoop fuel s buf = some (o, b) →
        Lexer.Moved src s o ∧ o.state.token = s.token) ∧
      ((terminator src : Int) - s.cursor < fuel →
        ∃ r, Lexer.realLoop fuel s buf = some r) := by
  intro fuel
  induction fuel with
  | zero =>
    intro s buf hg _
    refine ⟨fun o b h => by simp [Lexer.realLoop] at h, fun h => ?_⟩
    have := hg.upper
    omega
  | succ n ih =>
    intro s buf hg h0
    obtain ⟨hga, hca⟩ := hg.step h0
    have hle : s.cursor ≤ s.Advance.cursor := by omega
    by_cases h46 : s.Advance.peek = 46
    · simp only [Lexer.realLoop, Lexer.PutNumericBuf, h46, if_true]
      refine ⟨fun o b ht => ?_, fun _ => ⟨_, rfl⟩⟩
      obtain ⟨rfl, -⟩ : s.Advance.Yeet .Real .WrongFormat = o ∧ _ = b := by simpa using ht
      exact ⟨Lexer.Moved.of_thrown hga hle _ _, Advance_token s⟩
    · by_cases hq : s.Advance.PeekIsValidNatural = true
      · have hq0 : s.Advance.peek ≠ 0 := by
          intro h
          rw [Lexer.PeekIsValidNatural, h] at hq
          exact absurd hq (by decide)
        obtain ⟨ih1, ih2⟩ := ih s.Advance (if s.peek ≠ 95 then buf.Put s.peek else buf) hga hq0
        simp only [Lexer.realLoop, Lexer.PutNumericBuf, h46, if_false, hq, if_true]
        refine ⟨fun o b ht => ?_, fun hf => ih2 (by rw [hca]; omega)⟩
        obtain ⟨hm, d⟩ := ih1 o b ht
        exact ⟨hm.of_le hle, by rw [d, Advance_token]⟩
      · simp only [Lexer.realLoop, Lexer.PutNumericBuf, h46, if_false, hq, Bool.false_eq_true]
        refine ⟨fun o b ht => ?_, fun _ => ⟨_, rfl⟩⟩
        obtain ⟨rfl, -⟩ : Outcome.returned s.Advance = o ∧ _ = b := by simpa using ht
        exact ⟨Lexer.Moved.of_returned hga (by omega), Advance_token s⟩

theorem LexReal_good (src : List Nat) (fuel : Nat) (s : Lexer) (buf : U.Dynar)
    (hg : s.Good src) (h0 : s.peek ≠ 0) :
    (∀ o, Lexer.LexReal fuel s buf = some o →
      Lexer.Moved src s o ∧ ∀ t, o = .returned t → t.token.Symbol ≠ .End) ∧
    ((terminator src : Int) - s.cursor < fuel → ∃ o, Lexer.LexReal fuel s buf = some o) := by
  obtain ⟨l1, l2⟩ := realLoop_good src fuel (s.setSymbol .Real) buf (hg.tagged _) h0
  constructor
  · intro o ho
    unfold Lexer.LexReal at ho
    cases hr : Lexer.realLoop fuel (s.setSymbol .Real) buf with
    | none => simp [hr] at ho
    | some r =>
      obtain ⟨o1, b⟩ := r
      obtain ⟨hm, htok⟩ := l1 o1 b hr
      cases o1 with
      | thrown way error e t =>
        simp only [hr] at ho
        obtain rfl : Outcome.thrown way error e t = o := by simpa using ho
        exact ⟨Lexer.Moved.of_le (s := s) (u := s.setSymbol .Real) (le_refl _) hm,
          fun u hu => by cases hu⟩
      | returned t =>
        have hlt := hm.lt t rfl
        have hsym : t.token.Symbol = .Real := by
          have : t.token = (s.setSymbol .Real).token := htok
          rw [this]; rfl
        simp only [hr] at ho
        cases hc : U.Text.ConvertToReal (U.Dynar.Put b 0).Flush with
        | ok v =>
          simp only [hc] at ho
          obtain rfl : Outcome.returned (t.setValue (.Real v)) = o := by simpa using ho
          refine ⟨Lexer.Moved.of_returned (s := s) (hm.good.valued _) hlt, fun u hu => ?_⟩
          obtain rfl : t.setValue (.Real v) = u := by simpa using hu
          show t.token.Symbol ≠ _
          rw [hsym]; decide
        | error x =>
          cases x <;> simp only [hc] at ho
          · obtain rfl : t.Yeet .Real .Inconvertible = o := by simpa using ho
            exact ⟨Lexer.Moved.of_thrown (s := s) (t := t) hm.good (le_of_lt hlt) _ _,
              fun u hu => by cases hu⟩
          · obtain rfl : t.Yeet .Real .OutOfRange = o := by simpa using ho
            exact ⟨Lexer.Moved.of_thrown (s := s) (t := t) hm.good (le_of_lt hlt) _ _,
              fun u hu => by cases hu⟩
  · intro hf
    obtain ⟨r, hr⟩ := l2 hf
    obtain ⟨o1, b⟩ := r
    unfold Lexer.LexReal
    cases o1 with
    | thrown way error e t => exact ⟨_, by simp only [hr]; rfl⟩
    | returned t =>
      cases hc : U.Text.ConvertToReal (U.Dynar.Put b 0).Flush with
      | ok v => exact ⟨_, by simp only [hr, hc]; rfl⟩
      | error x => cases x <;> exact ⟨_, by simp only [hr, hc]; rfl⟩


theorem naturalFinish_good (src : List Nat) (s t : Lexer) (buf : U.Dynar)
    (hg : t.Good src) (hlt : s.cursor < t.cursor) :
    Lexer.Moved src s (t.naturalFinish buf) ∧
      ∀ u, t.naturalFinish buf = .returned u → u.token.Symbol ≠ .End := by
  have hthrown : ∀ error, Lexer.Moved src s ((t.setSymbol .Natural).Yeet .Natural error) ∧
      ∀ u, (t.setSymbol .Natural).Yeet .Natural error = .returned u →
        u.token.Symbol ≠ .End :=
    fun error => ⟨Lexer.Moved.of_thrown (hg.tagged .Natural) (le_of_lt hlt) _ _,
      fun u hu => by cases hu⟩
  unfold Lexer.naturalFinish
  by_cases hsz : U.Dynar.Size buf = 0
  · rw [if_pos hsz]
    exact hthrown _
  · rw [if_neg hsz]
    cases hc : U.Text.ConvertToInteger (U.Dynar.Put buf 0).Flush with
    | ok v =>
      refine ⟨Lexer.Moved.of_returned ((hg.tagged .Natural).valued _) hlt,
        fun u hu => ?_⟩
      obtain rfl : (t.setSymbol .Natural).setValue (.Integer v) = u := by simpa using hu
      show TokenSymbol.Natural ≠ _
      decide
    | error x => cases x <;> exact hthrown _

theorem LexNatural_exit (n : Nat) (s : Lexer) (buf : U.Dynar) (h46 : s.Advance.peek ≠ 46)
    (hq : s.Advance.PeekIsValidNatural = false) :
    Lexer.LexNatural (n + 1) s buf =
      some (s.Advance.naturalFinish (if s.peek ≠ 95 then buf.Put s.peek else buf)) := by
  simp only [Lexer.LexNatural, Lexer.PutNumericBuf, h46, if_false, hq, Bool.false_eq_true,
    Lexer.naturalFinish]
  generalize (if s.peek ≠ 95 then buf.Put s.peek else buf) = b
  by_cases hsz : U.Dynar.Size b = 0
  · rw [if_pos hsz, if_pos hsz]
  · rw [if_neg hsz, if_neg hsz]
    cases hc : U.Text.ConvertToInteger (U.Dynar.Put b 0).Flush with
    | ok v => rfl
    | error x => cases x <;> rfl

theorem LexNatural_good (src : List Nat) :
    ∀ (fuel : Nat) (s : Lexer) (buf : U.Dynar), s.Good src → s.peek ≠ 0 →
      (∀ o, Lexer.LexNatural fuel s buf = some o →
        Lexer.Moved src s o ∧ ∀ t, o = .returned t → t.token.Symbol ≠ .End) ∧
      ((terminator src : Int) - s.cursor < fuel →
        ∃ o, Lexer.LexNatural fuel s buf = some o) := by
  intro fuel
  induction fuel with
  | zero =>
    intro s buf hg _
    refine ⟨fun o h => by simp [Lexer.LexNatural] at h, fun h => ?_⟩
    have := hg.upper
    omega
  | succ n ih =>
    intro s buf hg h0
    obtain ⟨hga, hca⟩ := hg.step h0
    have hle : s.cursor ≤ s.Advance.cursor := by omega
    by_cases h46 : s.Advance.peek = 46
    · obtain ⟨l1, l2⟩ := LexReal_good src n s.Advance
        (if s.peek ≠ 95 then buf.Put s.peek else buf) hga (by rw [h46]; decide)
      simp only [Lexer.LexNatural, Lexer.PutNumericBuf, h46, if_true]
      refine ⟨fun o ho => ?_, fun hf => l2 (by rw [hca]; omega)⟩
      obtain ⟨hm, htag⟩ := l1 o ho
      exact ⟨hm.of_le hle, htag⟩
    · by_cases hq : s.Advance.PeekIsValidNatural = true
      · have hq0 : s.Advance.peek ≠ 0 := by
          intro h
          rw [Lexer.PeekIsValidNatural, h] at hq
          exact absurd hq (by decide)
        obtain ⟨ih1, ih2⟩ := ih s.Advance (if s.peek ≠ 95 then buf.Put s.peek else buf) hga hq0
        simp only [Lexer.LexNatural, Lexer.PutNumericBuf, h46, if_false, hq, if_true]
        refine ⟨fun o ho => ?_, fun hf => ih2 (by rw [hca]; omega)⟩
        obtain ⟨hm, htag⟩ := ih1 o ho
        exact ⟨hm.of_le hle, htag⟩
      · have hq2 : s.Advance.PeekIsValidNatural = false := by simpa using hq
        rw [LexNatural_exit n s buf h46 hq2]
        refine ⟨fun o ho => ?_, fun _ => ⟨_, rfl⟩⟩
        obtain rfl : s.Advance.naturalFinish _ = o := by simpa using ho
        exact naturalFinish_good src s s.Advance _ hga (by omega)

theorem numericRest_good (src : List Nat) (fuel : Nat) (s : Lexer) (hg : s.Good src) :
    (∀ o, Lexer.numericRest fuel s [] = some o →
      o.state.Good src ∧ s.cursor ≤ o.state.cursor ∧
        (∀ t, o = .returned t → t.token.Symbol ≠ .End) ∧
        (s.PeekIsValidNatural = true → ∀ t, o = .returned t → s.cursor < t.cursor)) ∧
    ((terminator src : Int) - s.cursor < fuel →
      ∃ o, Lexer.numericRest fuel s [] = some o) := by
  by_cases hv : s.PeekIsValidNatural = true
  · have h0 : s.peek ≠ 0 := by
      intro h
      rw [Lexer.PeekIsValidNatural, h] at hv
      exact absurd hv (by decide)
    obtain ⟨l1, l2⟩ := LexNatural_good src fuel s [] hg h0
    simp only [Lexer.numericRest, hv, if_true]
    refine ⟨fun o ho => ?_, l2⟩
    obtain ⟨hm, htag⟩ := l1 o ho
    exact ⟨hm.good, hm.le, htag, fun _ => hm.lt⟩
  · by_cases h46 : s.peek = 46
    · obtain ⟨l1, l2⟩ := LexReal_good src fuel s [] hg (by rw [h46]; decide)
      simp only [Lexer.numericRest, hv, Bool.false_eq_true, if_false, h46, if_true]
      refine ⟨fun o ho => ?_, l2⟩
      obtain ⟨hm, htag⟩ := l1 o ho
      exact ⟨hm.good, hm.le, htag, fun h => h.elim⟩
    · simp only [Lexer.numericRest, hv, Bool.false_eq_true, if_false, h46]
      refine ⟨fun o ho => ?_, fun _ => ⟨_, rfl⟩⟩
      obtain rfl : Outcome.returned ((s.setSymbol .Natural).setValue (.Integer 0)) = o := by
        simpa using ho
      refine ⟨(hg.tagged _).valued _, le_refl _, fun t ht => ?_, fun h => h.elim⟩
      obtain rfl : (s.setSymbol .Natural).setValue (.Integer 0) = t := by simpa using ht
      show TokenSymbol.Natural ≠ _
      decide


theorem machineFinish_good (src : List Nat) (s t : Lexer) (way : LexerModule) (base : Nat)
    (b : U.Dynar) (hg : t.Good src) (hsym : t.token.Symbol = .Machine)
    (hlt : s.cursor < t.cursor) :
    (∀ o,
      (if b.Size = 0 then some (t.Yeet way .Valueless)
        else
          match U.Text.ConvertToNatural (b.Put 0).Flush base with
          | .ok v => some (.returned (t.setValue (.Machine v)))
          | .error .InvalidArgument => some (t.Yeet way .Inconvertible)
          | .error .OutOfRange => some (t.Yeet way .OutOfRange)) = some o →
      Lexer.Moved src s o ∧ ∀ u, o = .returned u → u.token.Symbol ≠ .End) ∧
    ∃ o,
      (if b.Size = 0 then some (t.Yeet way .Valueless)
        else
          match U.Text.ConvertToNatural (b.Put 0).Flush base with
          | .ok v => some (.returned (t.setValue (.Machine v)))
          | .error .InvalidArgument => some (t.Yeet way .Inconvertible)
          | .error .OutOfRange => some (t.Yeet way .OutOfRange)) = some o := by
  have hthrown : ∀ error o, some (t.Yeet way error) = some o →
      Lexer.Moved src s o ∧ ∀ u, o = .returned u → u.token.Symbol ≠ .End := by
    intro error o ho
    obtain rfl : t.Yeet way error = o := by simpa using ho
    exact ⟨Lexer.Moved.of_thrown hg (le_of_lt hlt) _ _, fun u hu => by cases hu⟩
  by_cases hsz : U.Dynar.Size b = 0
  · rw [if_pos hsz]
    exact ⟨hthrown _, _, rfl⟩
  · rw [if_neg hsz]
    cases hc : U.Text.ConvertToNatural (U.Dynar.Put b 0).Flush base with
    | ok v =>
      refine ⟨fun o ho => ?_, _, rfl⟩
      obtain rfl : Outcome.returned (t.setValue (.Machine v)) = o := by simpa using ho
      refine ⟨Lexer.Moved.of_returned (hg.valued _) hlt, fun u hu => ?_⟩
      obtain rfl : t.setValue (.Machine v) = u := by simpa using hu
      show t.token.Symbol ≠ _
      rw [hsym]; decide
    | error x => cases x <;> exact ⟨hthrown _, _, rfl⟩

theorem LexBinary_good (src : List Nat) (fuel : Nat) (s : Lexer) (buf : U.Dynar)
    (hg : s.Good src) :
    (∀ o, Lexer.LexBinary fuel s buf = some o →
      Lexer.Moved src s o ∧ ∀ t, o = .returned t → t.token.Symbol ≠ .End) ∧
    ((terminator src : Int) - s.cursor < fuel → ∃ o, Lexer.LexBinary fuel s buf = some o) := by
  unfold Lexer.LexBinary
  by_cases hv : (s.setSymbol .Machine).PeekIsValidBinary = true
  · have h0 : (s.setSymbol .Machine).peek ≠ 0 := by
      intro h
      rw [Lexer.PeekIsValidBinary, h] at hv
      exact absurd hv (by decide)
    obtain ⟨l1, l2⟩ := putLoop_good src (fun c => c == 48 || c == 49 || c == 95)
      (fun c hc h => by subst h; exact absurd hc (by decide)) fuel (s.setSymbol .Machine) buf
      (hg.tagged _) h0
    simp only [hv, if_true, binaryLoop_eq_putLoop]
    constructor
    · intro o ho
      cases hr : Lexer.putLoop (fun c => c == 48 || c == 49 || c == 95) fuel
          (s.setSymbol .Machine) buf with
      | none => simp [hr] at ho
      | some r =>
        obtain ⟨t, b⟩ := r
        obtain ⟨hm, htok⟩ := l1 t b hr
        simp only [hr] at ho
        exact (machineFinish_good src s t .Binary 2 b hm.good (by rw [htok]; rfl)
          (hm.lt t rfl)).1 o ho
    · intro hf
      obtain ⟨⟨t, b⟩, hr⟩ := l2 hf
      obtain ⟨hm, htok⟩ := l1 t b hr
      simp only [hr]
      exact (machineFinish_good src s t .Binary 2 b hm.good (by rw [htok]; rfl)
        (hm.lt t rfl)).2
  · simp only [hv, Bool.false_eq_true, if_false]
    refine ⟨fun o ho => ?_, fun _ => ⟨_, rfl⟩⟩
    obtain rfl : (s.setSymbol .Machine).Yeet .Binary .WrongFormat = o := by simpa using ho
    exact ⟨Lexer.Moved.of_thrown (s := s) (t := s.setSymbol .Machine)
      (hg.tagged .Machine) (le_refl _) _ _, fun u hu => by cases hu⟩

theorem LexHexadecimal_good (src : List Nat) (fuel : Nat) (s : Lexer) (buf : U.Dynar)
    (hg : s.Good src) :
    (∀ o, Lexer.LexHexadecimal fuel s buf = some o →
      Lexer.Moved src s o ∧ ∀ t, o = .returned t → t.token.Symbol ≠ .End) ∧
    ((terminator src : Int) - s.cursor < fuel →
      ∃ o, Lexer.LexHexadecimal fuel s buf = some o) := by
  unfold Lexer.LexHexadecimal
  by_cases hv : (s.setSymbol .Machine).PeekIsValidHexadecimal = true
  · have h0 : (s.setSymbol .Machine).peek ≠ 0 := by
      intro h
      rw [Lexer.PeekIsValidHexadecimal, Lexer.PeekIsValidNatural, h] at hv
      exact absurd hv (by decide)
    obtain ⟨l1, l2⟩ := putLoop_good src (fun c => (97 ≤ c && c ≤ 102) ||
        (65 ≤ c && c ≤ 70) || (U.Text.IsNumeric c || c == 95))
      (fun c hc h => by subst h; exact absurd hc (by decide)) fuel (s.setSymbol .Machine) buf
      (hg.tagged _) h0
    simp only [hv, if_true, hexadecimalLoop_eq_putLoop]
    constructor
    · intro o ho
      cases hr : Lexer.putLoop (fun c => (97 ≤ c && c ≤ 102) ||
          (65 ≤ c && c ≤ 70) || (U.Text.IsNumeric c || c == 95)) fuel
          (s.setSymbol .Machine) buf with
      | none => simp [hr] at ho
      | some r =>
        obtain ⟨t, b⟩ := r
        obtain ⟨hm, htok⟩ := l1 t b hr
        simp only [hr] at ho
        exact (machineFinish_good src s t .Hexadecimal 16 b hm.good (by rw [htok]; rfl)
          (hm.lt t rfl)).1 o ho
    · intro hf
      obtain ⟨⟨t, b⟩, hr⟩ := l2 hf
      obtain ⟨hm, htok⟩ := l1 t b hr
      simp only [hr]
      exact (machineFinish_good src s t .Hexadecimal 16 b hm.good (by rw [htok]; rfl)
        (hm.lt t rfl)).2
  · simp only [hv, Bool.false_eq_true, if_false]
    refine ⟨fun o ho => ?_, fun _ => ⟨_, rfl⟩⟩
    obtain rfl : (s.setSymbol .Machine).Yeet .Hexadecimal .WrongFormat = o := by
      simpa using ho
    exact ⟨Lexer.Moved.of_thrown (s := s) (t := s.setSymbol .Machine)
      (hg.tagged .Machine) (le_refl _) _ _, fun u hu => by cases hu⟩


theorem LexNumeric_good (src : List Nat) (fuel : Nat) (s : Lexer) (hg : s.Good src)
    (hn : U.Text.IsNumeric s.peek = true) :
    (∀ o, Lexer.LexNumeric fuel s = some o →
      Lexer.Moved src s o ∧ ∀ t, o = .returned t → t.token.Symbol ≠ .End) ∧
    ((terminator src : Int) - s.cursor < fuel → ∃ o, Lexer.LexNumeric fuel s = some o) := by
  have h0 : s.peek ≠ 0 := by
    intro h; rw [h] at hn; exact absurd hn (by decide)
  unfold Lexer.LexNumeric
  by_cases h48 : s.peek = 48
  · obtain ⟨hga, hca⟩ := hg.step h0
    have hlt : s.cursor < s.Advance.cursor := by omega
    simp only [h48, if_true]
    by_cases ha48 : s.Advance.peek = 48
    · obtain ⟨z1, z2⟩ := zeroLoop_good src fuel s.Advance hga (by rw [ha48]; decide)
      simp only [ha48, if_true]
      constructor
      · intro o ho
        cases hz : Lexer.zeroLoop fuel s.Advance with
        | none => simp [hz] at ho
        | some u =>
          obtain ⟨hm, _⟩ := z1 u hz
          obtain ⟨r1, _⟩ := numericRest_good src fuel u hm.good
          simp only [hz] at ho
          obtain ⟨a, b, c, _⟩ := r1 o ho
          exact ⟨Lexer.Moved.of_lt (lt_of_lt_of_le hlt hm.le) a b, c⟩
      · intro hf
        obtain ⟨u, hz⟩ := z2 (by rw [hca]; omega)
        obtain ⟨hm, _⟩ := z1 u hz
        obtain ⟨_, r2⟩ := numericRest_good src fuel u hm.good
        have hle := hm.le
        simp only [Outcome.state] at hle
        simp only [hz]
        exact r2 (by omega)
    · simp only [ha48, if_false]
      by_cases hb : s.Advance.peek = 98 ∨ s.Advance.peek = 66
      · have hb0 : s.Advance.peek ≠ 0 := by omega
        obtain ⟨hgb, hcb⟩ := hga.step hb0
        obtain ⟨b1, b2⟩ := LexBinary_good src fuel s.Advance.Advance [] hgb
        rw [if_pos hb]
        refine ⟨fun o ho => ?_, fun hf => b2 (by rw [hcb, hca]; omega)⟩
        obtain ⟨hm, htag⟩ := b1 o ho
        exact ⟨hm.of_le (by rw [hcb, hca]; omega), htag⟩
      · rw [if_neg hb]
        by_cases hx : s.Advance.peek = 120 ∨ s.Advance.peek = 88
        · have hx0 : s.Advance.peek ≠ 0 := by omega
          obtain ⟨hgb, hcb⟩ := hga.step hx0
          obtain ⟨b1, b2⟩ := LexHexadecimal_good src fuel s.Advance.Advance [] hgb
          rw [if_pos hx]
          refine ⟨fun o ho => ?_, fun hf => b2 (by rw [hcb, hca]; omega)⟩
          obtain ⟨hm, htag⟩ := b1 o ho
          exact ⟨hm.of_le (by rw [hcb, hca]; omega), htag⟩
        · rw [if_neg hx]
          obtain ⟨r1, r2⟩ := numericRest_good src fuel s.Advance hga
          refine ⟨fun o ho => ?_, fun hf => r2 (by rw [hca]; omega)⟩
          obtain ⟨a, b, c, _⟩ := r1 o ho
          exact ⟨Lexer.Moved.of_lt hlt a b, c⟩
  · simp only [h48, if_false]
    obtain ⟨r1, r2⟩ := numericRest_good src fuel s hg
    refine ⟨fun o ho => ?_, r2⟩
    obtain ⟨a, b, c, d⟩ := r1 o ho
    have hv : s.PeekIsValidNatural = true := by simp [Lexer.PeekIsValidNatural, hn]
    exact ⟨⟨a, b, d hv⟩, c⟩

theorem MatchWord_frame (s : Lexer) (b : List Nat) :
    (s.MatchWord b).index = s.index ∧ (s.MatchWord b).source = s.source ∧
      (s.MatchWord b).peek = s.peek ∧ (s.MatchWord b).reads = s.reads ∧
      (s.MatchWord b).point = s.point ∧ (s.MatchWord b).token.Symbol ≠ .End := by
  unfold Lexer.MatchWord
  by_cases c1 : U.Text.Compare (literal "procedure") b = 0
  · rw [if_pos c1]
    exact ⟨rfl, rfl, rfl, rfl, rfl, fun h => TokenSymbol.noConfusion h⟩
  rw [if_neg c1]
  by_cases c2 : U.Text.Compare (literal "datum") b = 0
  · rw [if_pos c2]
    exact ⟨rfl, rfl, rfl, rfl, rfl, fun h => TokenSymbol.noConfusion h⟩
  rw [if_neg c2]
  by_cases c3 : U.Text.Compare (literal "give") b = 0
  · rw [if_pos c3]
    exact ⟨rfl, rfl, rfl, rfl, rfl, fun h => TokenSymbol.noConfusion h⟩
  rw [if_neg c3]
  by_cases c4 : U.Text.Compare (literal "Nat8") b = 0
  · rw [if_pos c4]
    exact ⟨rfl, rfl, rfl, rfl, rfl, fun h => TokenSymbol.noConfusion h⟩
  rw [if_neg c4]
  by_cases c5 : U.Text.Compare (literal "Nat16") b = 0
  · rw [if_pos c5]
    exact ⟨rfl, rfl, rfl, rfl, rfl, fun h => TokenSymbol.noConfusion h⟩
  rw [if_neg c5]
  by_cases c6 : U.Text.Compare (literal "Nat32") b = 0
  · rw [if_pos c6]
    exact ⟨rfl, rfl, rfl, rfl, rfl, fun h => TokenSymbol.noConfusion h⟩
  rw [if_neg c6]
  by_cases c7 : U.Text.Compare (literal "Nat64") b = 0
  · rw [if_pos c7]
    exact ⟨rfl, rfl, rfl, rfl, rfl, fun h => TokenSymbol.noConfusion h⟩
  rw [if_neg c7]
  by_cases c8 : U.Text.Compare (literal "Int8") b = 0
  · rw [if_pos c8]
    exact ⟨rfl, rfl, rfl, rfl, rfl, fun h => TokenSymbol.noConfusion h⟩
  rw [if_neg c8]
  by_cases c9 : U.Text.Compare (literal "Int16") b = 0
  · rw [if_pos c9]
    exact ⟨rfl, rfl, rfl, rfl, rfl, fun h => TokenSymbol.noConfusion h⟩
  rw [if_neg c9]
  by_cases c10 : U.Text.Compare (literal "Int32") b = 0
  · rw [if_pos c10]
    exact ⟨rfl, rfl, rfl, rfl, rfl, fun h => TokenSymbol.noConfusion h⟩
  rw [if_neg c10]
  by_cases c11 : U.Text.Compare (literal "Int64") b = 0
  · rw [if_pos c11]
    exact ⟨rfl, rfl, rfl, rfl, rfl, fun h => TokenSymbol.noConfusion h⟩
  rw [if_neg c11]
  exact ⟨rfl, rfl, rfl, rfl, rfl, fun h => TokenSymbol.noConfusion h⟩

theorem LexAlphabetic_good (src : List Nat) (fuel : Nat) (s : Lexer) (hg : s.Good src)
    (h0 : s.peek ≠ 0) :
    (∀ o, Lexer.LexAlphabetic fuel s = some o →
      Lexer.Moved src s o ∧ ∀ t, o = .returned t → t.token.Symbol ≠ .End) ∧
    ((terminator src : Int) - s.cursor < fuel →
      ∃ o, Lexer.LexAlphabetic fuel s = some o) := by
  obtain ⟨l1, l2⟩ := alphabeticLoop_good src fuel s [] hg h0
  unfold Lexer.LexAlphabetic
  constructor
  · intro o ho
    cases hr : Lexer.alphabeticLoop fuel s [] with
    | none => simp [hr] at ho
    | some r =>
      obtain ⟨o1, b⟩ := r
      obtain ⟨hm, _⟩ := l1 o1 b hr
      cases o1 with
      | thrown way error e t =>
        simp only [hr] at ho
        obtain rfl : Outcome.thrown way error e t = o := by simpa using ho
        exact ⟨hm, fun u hu => by cases hu⟩
      | returned t =>
        simp only [hr] at ho
        obtain rfl : Outcome.returned (t.MatchWord (U.Dynar.Put b 0).Flush) = o := by
          simpa using ho
        obtain ⟨f1, f2, f3, f4, _, f6⟩ := MatchWord_frame t (U.Dynar.Put b 0).Flush
        have hgt := hm.good
        have hlt := hm.lt t rfl
        have hgm : (t.MatchWord (U.Dynar.Put b 0).Flush).Good src :=
          ⟨by rw [f2]; exact hgt.source, by simpa [Lexer.cursor, f1] using hgt.lower,
            by simpa [Lexer.cursor, f1] using hgt.upper,
            by rw [f3]; simpa [Lexer.cursor, f1] using hgt.peek,
            by rw [f4]; exact hgt.reads⟩
        refine ⟨Lexer.Moved.of_returned hgm (by simpa [Lexer.cursor, f1] using hlt), ?_⟩
        intro u hu
        obtain rfl : t.MatchWord (U.Dynar.Put b 0).Flush = u := by simpa using hu
        exact f6
  · intro hf
    obtain ⟨⟨o1, b⟩, hr⟩ := l2 hf
    cases o1 with
    | thrown way error e t => exact ⟨_, by simp only [hr]; rfl⟩
    | returned t => exact ⟨_, by simp only [hr]; rfl⟩


theorem SINGLE_good (src : List Nat) (s u : Lexer) (fuel : Nat) (hg : u.Good src)
    (hc : u.cursor = s.cursor) (h0 : u.peek ≠ 0) (hsym : u.token.Symbol ≠ .End) :
    (∀ t, some (Lexer.SINGLE u) = some t →
      Lexer.Moved src s (.returned t) ∧ t.token.Symbol ≠ .End) ∧
    ((terminator src : Int) - s.cursor < fuel → ∃ t, some (Lexer.SINGLE u) = some t) := by
  obtain ⟨hga, hca⟩ := hg.step h0
  refine ⟨fun t ht => ?_, fun _ => ⟨_, rfl⟩⟩
  obtain rfl : u.Advance = t := by simpa [Lexer.SINGLE] using ht
  refine ⟨Lexer.Moved.of_returned hga (by rw [hca, hc]; omega), ?_⟩
  rw [Advance_token]
  exact hsym

theorem DOUBLE_good (src : List Nat) (s u : Lexer) (fuel : Nat) (hg : u.Good src)
    (hc : u.cursor = s.cursor) (h0 : u.peek ≠ 0) (hsym : u.token.Symbol ≠ .End)
    (h2 : u.Peek 2 ≠ 0) :
    (∀ t, some (Lexer.DOUBLE u) = some t →
      Lexer.Moved src s (.returned t) ∧ t.token.Symbol ≠ .End) ∧
    ((terminator src : Int) - s.cursor < fuel → ∃ t, some (Lexer.DOUBLE u) = some t) := by
  obtain ⟨hga, hca⟩ := hg.step h0
  obtain ⟨hgb, hcb⟩ := hga.step (by rw [Advance_peek_eq_Peek_two]; exact h2)
  refine ⟨fun t ht => ?_, fun _ => ⟨_, rfl⟩⟩
  obtain rfl : u.Advance.Advance = t := by simpa [Lexer.DOUBLE, Lexer.SINGLE] using ht
  refine ⟨Lexer.Moved.of_returned hgb (by rw [hcb, hca, hc]; omega), ?_⟩
  rw [Advance_token, Advance_token]
  exact hsym

theorem LexSymbolic_good (src : List Nat) (fuel : Nat) (s : Lexer) (hg : s.Good src)
    (h0 : s.peek ≠ 0) :
    (∀ t, Lexer.LexSymbolic fuel s = some t →
      Lexer.Moved src s (.returned t) ∧ t.token.Symbol ≠ .End) ∧
    ((terminator src : Int) - s.cursor < fuel → ∃ t, Lexer.LexSymbolic fuel s = some t) := by
  have hu : ∀ X, ((s.logPeek 2).setSymbol X).Good src :=
    fun X => (hg.logPeek_two h0).tagged X
  have hne : ∀ X : TokenSymbol, X ≠ .End → ((s.logPeek 2).setSymbol X).token.Symbol ≠ .End :=
    fun X hX => hX
  have hp2 : ∀ X, ((s.logPeek 2).setSymbol X).Peek 2 = s.Peek 2 := fun _ => rfl
  have single : ∀ X : TokenSymbol, X ≠ .End →
      (∀ t, some (Lexer.SINGLE ((s.logPeek 2).setSymbol X)) = some t →
        Lexer.Moved src s (.returned t) ∧ t.token.Symbol ≠ .End) ∧
      ((terminator src : Int) - s.cursor < fuel →
        ∃ t, some (Lexer.SINGLE ((s.logPeek 2).setSymbol X)) = some t) :=
    fun X hX => SINGLE_good src s _ fuel (hu X) rfl h0 (hne X hX)
  have double : ∀ X : TokenSymbol, X ≠ .End → s.Peek 2 ≠ 0 →
      (∀ t, some (Lexer.DOUBLE ((s.logPeek 2).setSymbol X)) = some t →
        Lexer.Moved src s (.returned t) ∧ t.token.Symbol ≠ .End) ∧
      ((terminator src : Int) - s.cursor < fuel →
        ∃ t, some (Lexer.DOUBLE ((s.logPeek 2).setSymbol X)) = some t) :=
    fun X hX h2 => DOUBLE_good src s _ fuel (hu X) rfl h0 (hne X hX) h2
  simp only [Lexer.LexSymbolic]
  by_cases p60 : s.peek = 60
  · rw [if_pos p60]
    by_cases c61 : s.Peek 2 = 61
    · rw [if_pos c61]
      exact double _ (by decide) (by omega)
    rw [if_neg c61]
    by_cases c60 : s.Peek 2 = 60
    · rw [if_pos c60]
      exact double _ (by decide) (by omega)
    rw [if_neg c60]
    exact single _ (by decide)
  rw [if_neg p60]
  by_cases p62 : s.peek = 62
  · rw [if_pos p62]
    by_cases c61 : s.Peek 2 = 61
    · rw [if_pos c61]
      exact double _ (by decide) (by omega)
    rw [if_neg c61]
    by_cases c60 : s.Peek 2 = 60
    · rw [if_pos c60]
      exact double _ (by decide) (by omega)
    rw [if_neg c60]
    exact single _ (by decide)
  rw [if_neg p62]
  by_cases p58 : s.peek = 58
  · rw [if_pos p58]
    by_cases c58 : s.Peek 2 = 58
    · rw [if_pos c58]
      exact double _ (by decide) (by omega)
    rw [if_neg c58]
    exact single _ (by decide)
  rw [if_neg p58]
  by_cases p43 : s.peek = 43
  · rw [if_pos p43]
    by_cases c43 : s.Peek 2 = 43
    · rw [if_pos c43]
      exact double _ (by decide) (by omega)
    rw [if_neg c43]
    exact single _ (by decide)
  rw [if_neg p43]
  by_cases p45 : s.peek = 45
  · rw [if_pos p45]
    by_cases c45 : s.Peek 2 = 45
    · rw [if_pos c45]
      exact double _ (by decide) (by omega)
    rw [if_neg c45]
    by_cases c62 : s.Peek 2 = 62
    · rw [if_pos c62]
      exact double _ (by decide) (by omega)
    rw [if_neg c62]
    exact single _ (by decide)
  rw [if_neg p45]
  by_cases p38 : s.peek = 38
  · rw [if_pos p38]
    by_cases c38 : s.Peek 2 = 38
    · rw [if_pos c38]
      exact double _ (by decide) (by omega)
    rw [if_neg c38]
    exact single _ (by decide)
  rw [if_neg p38]
  by_cases p124 : s.peek = 124
  · rw [if_pos p124]
    by_cases c43 : s.Peek 2 = 43
    · rw [if_pos c43]
      exact double _ (by decide) (by omega)
    rw [if_neg c43]
    exact single _ (by decide)
  rw [if_neg p124]
  by_cases p92 : s.peek = 92
  · rw [if_pos p92]
    by_cases c92 : s.Peek 2 = 92
    · rw [if_pos c92]
      obtain ⟨l1, l2⟩ := lineCommentLoop_good src fuel ((s.logPeek 2).setSymbol .Comment)
        (hu _) h0
      refine ⟨fun t ht => ?_, l2⟩
      obtain ⟨hm, htok⟩ := l1 t ht
      exact ⟨Lexer.Moved.of_le (s := s) (u := (s.logPeek 2).setSymbol .Comment) (le_refl _) hm,
        by rw [htok]; exact fun h => TokenSymbol.noConfusion h⟩
    rw [if_neg c92]
    by_cases c42 : s.Peek 2 = 42
    · rw [if_pos c42]
      cases fuel with
      | zero =>
        refine ⟨fun t ht => by simp [Lexer.blockCommentLoop] at ht, fun hf => ?_⟩
        have := hg.upper
        omega
      | succ n =>
        rw [blockCommentLoop_asterisk n _ (by rw [Advance_peek_eq_Peek_two]; exact c42)]
        exact SINGLE_good src s _ (n + 1) (hu _) rfl h0 (fun h => TokenSymbol.noConfusion h)
    rw [if_neg c42]
    exact single _ (by decide)
  rw [if_neg p92]
  by_cases p61 : s.peek = 61
  · rw [if_pos p61]
    by_cases c61 : s.Peek 2 = 61
    · rw [if_pos c61]
      exact double _ (by decide) (by omega)
    rw [if_neg c61]
    exact single _ (by decide)
  rw [if_neg p61]
  by_cases hpun : s.peek = 123 ∨ s.peek = 125 ∨ s.peek = 40 ∨ s.peek = 41 ∨ s.peek = 91 ∨
      s.peek = 93 ∨ s.peek = 34 ∨ s.peek = 44 ∨ s.peek = 59 ∨ s.peek = 33 ∨
      s.peek = 63 ∨ s.peek = 64
  · rw [if_pos hpun]
    exact SINGLE_good src s _ fuel (hg.tagged _) rfl h0 (fun h => TokenSymbol.noConfusion h)
  rw [if_neg hpun]
  exact SINGLE_good src s _ fuel ((hg.tagged _).valued _) rfl h0
    (fun h => TokenSymbol.noConfusion h)


/-! ## The driver keeps the invariant, moves the cursor on, and ends -/

theorem Lex_eq_dispatch (fuel : Nat) (s : Lexer) :
    Lexer.Lex fuel s =
      match Lexer.skipWhitespace fuel s with
      | none => none
      | some w =>
        if w.peek = 0 then some (.returned (w.setSymbol .End).EPILOGUE)
        else (Lexer.dispatch fuel w.setStart).map Outcome.epilogue := by
  unfold Lexer.Lex
  cases Lexer.skipWhitespace fuel s with
  | none => rfl
  | some w =>
    simp only
    by_cases hp : w.peek = 0
    · rw [if_pos hp, if_pos hp]
    · rw [if_neg hp, if_neg hp]
      show (match Lexer.dispatch fuel w.setStart with
        | none => none
        | some (Outcome.returned s) => some (Outcome.returned s.EPILOGUE)
        | some (Outcome.thrown way error e s) => some (Outcome.thrown way error e s)) = _
      cases Lexer.dispatch fuel w.setStart with
      | none => rfl
      | some o => cases o <;> rfl

theorem dispatch_good (src : List Nat) (fuel : Nat) (s : Lexer) (hg : s.Good src)
    (h0 : s.peek ≠ 0) :
    (∀ o, Lexer.dispatch fuel s = some o →
      Lexer.Moved src s o ∧ ∀ t, o = .returned t → t.token.Symbol ≠ .End) ∧
    ((terminator src : Int) - s.cursor < fuel → ∃ o, Lexer.dispatch fuel s = some o) := by
  unfold Lexer.dispatch
  by_cases ha : U.Text.IsAlphabetic s.peek = true
  · rw [if_pos ha]
    exact LexAlphabetic_good src fuel s hg h0
  · rw [if_neg ha]
    by_cases hn : U.Text.IsNumeric s.peek = true
    · rw [if_pos hn]
      exact LexNumeric_good src fuel s hg hn
    · rw [if_neg hn]
      obtain ⟨l1, l2⟩ := LexSymbolic_good src fuel s hg h0
      constructor
      · intro o ho
        cases hr : Lexer.LexSymbolic fuel s with
        | none => simp [hr] at ho
        | some t =>
          obtain ⟨hm, hsym⟩ := l1 t hr
          obtain rfl : Outcome.returned t = o := by simpa [hr] using ho
          refine ⟨hm, fun u hu => ?_⟩
          obtain rfl : t = u := by simpa using hu
          exact hsym
      · intro hf
        obtain ⟨t, ht⟩ := l2 hf
        exact ⟨_, by rw [ht]; rfl⟩

theorem epilogue_state_good {src : List Nat} {o : Outcome} (h : o.state.Good src) :
    o.epilogue.state.Good src := by
  cases o with
  | returned t => exact Lexer.Good.EPILOGUE h
  | thrown way error e t => exact h

theorem epilogue_state_cursor (o : Outcome) : o.epilogue.state.cursor = o.state.cursor := by
  cases o <;> rfl

theorem Lex_good (src : List Nat) (fuel : Nat) (s : Lexer) (hg : s.Good src) :
    (∀ o, Lexer.Lex fuel s = some o →
      o.state.Good src ∧ s.cursor ≤ o.state.cursor ∧
        ∀ t, o = .returned t →
          (t.token.Symbol = .End ∧ t.peek = 0 ∧ t.cursor = terminator src ∧
            t.token.End = ⟨t.point.Line, t.point.Column - 1⟩) ∨
          (t.token.Symbol ≠ .End ∧ s.cursor < t.cursor)) ∧
    ((terminator src : Int) - s.cursor < fuel → ∃ o, Lexer.Lex fuel s = some o) := by
  obtain ⟨w1, w2⟩ := skipWhitespace_good src fuel s hg
  rw [Lex_eq_dispatch]
  constructor
  · intro o ho
    cases hw : Lexer.skipWhitespace fuel s with
    | none => simp [hw] at ho
    | some w =>
      obtain ⟨hgw, hle, _, _⟩ := w1 w hw
      simp only [hw] at ho
      by_cases hp : w.peek = 0
      · rw [if_pos hp] at ho
        obtain rfl : Outcome.returned (w.setSymbol .End).EPILOGUE = o := by simpa using ho
        refine ⟨(hgw.tagged _).EPILOGUE, hle, fun t ht => Or.inl ?_⟩
        obtain rfl : (w.setSymbol .End).EPILOGUE = t := by simpa using ht
        refine ⟨rfl, hp, ?_, rfl⟩
        by_contra hne
        have hlt : w.cursor < terminator src := lt_of_le_of_ne hgw.upper hne
        have hlo := hgw.lower
        have := getD_before_terminator src w.cursor.toNat (by omega)
        exact this (by rw [← hgw.peek]; exact hp)
      · rw [if_neg hp] at ho
        obtain ⟨d1, _⟩ := dispatch_good src fuel w.setStart hgw.started hp
        cases hd : Lexer.dispatch fuel w.setStart with
        | none => simp [hd] at ho
        | some o1 =>
          obtain ⟨hm, htag⟩ := d1 o1 hd
          obtain rfl : o1.epilogue = o := by simpa [hd] using ho
          have hle2 : w.cursor ≤ o1.state.cursor := hm.le
          refine ⟨epilogue_state_good hm.good, by rw [epilogue_state_cursor]; omega,
            fun t ht => Or.inr ?_⟩
          cases o1 with
          | thrown way error e u => cases ht
          | returned u =>
            obtain rfl : u.EPILOGUE = t := by simpa [Outcome.epilogue] using ht
            have hlt : w.cursor < u.cursor := hm.lt u rfl
            exact ⟨htag u rfl, lt_of_le_of_lt hle hlt⟩
  · intro hf
    obtain ⟨w, hw⟩ := w2 hf
    obtain ⟨hgw, hle, _, _⟩ := w1 w hw
    simp only [hw]
    by_cases hp : w.peek = 0
    · rw [if_pos hp]
      exact ⟨_, rfl⟩
    · rw [if_neg hp]
      obtain ⟨_, d2⟩ := dispatch_good src fuel w.setStart hgw.started hp
      obtain ⟨o1, hd⟩ := d2 (by
        show (terminator src : Int) - w.cursor < fuel
        omega)
      exact ⟨_, by rw [hd]; rfl⟩


theorem Reachable_good {src : List Nat} {s : Lexer} (h : Lexer.Reachable src s) :
    s.Good src := by
  induction h with
  | construct => exact Good_new src
  | call fuel s o _ hcall ih => exact ((Lex_good src fuel s ih).1 o hcall).1

/-- C17: the cursor and lookahead invariant.  Over a zero-terminated buffer, in the state
the constructor builds and in every state a `Lex` call leaves (by a return or by an
exception), the cursor `index + 1` is at most the index of the terminating zero byte,
which lies inside the buffer, the lookahead is the buffer byte at the cursor, and every
read of the buffer made so far, `Peek(2)` included, was at an index no greater than the
terminator's. -/
theorem Reachable_invariant (src : List Nat) (hz : 0 ∈ src) (s : Lexer)
    (h : Lexer.Reachable src s) :
    s.source = src ∧ terminator src < src.length ∧
      0 ≤ s.cursor ∧ s.cursor ≤ terminator src ∧
      s.peek = src.getD s.cursor.toNat 0 ∧
      ∀ i ∈ s.reads, 0 ≤ i ∧ i ≤ terminator src := by
  have hg := Reachable_good h
  exact ⟨hg.source, terminator_lt_length hz, hg.lower, hg.upper, hg.peek, hg.reads⟩

theorem Reachable_invariant_witness :
    ∃ s, Lexer.Lex 1 (Lexer.new (buffer (bytes "<="))) = some (.returned s) ∧
      s.source = buffer (bytes "<=") ∧
      terminator (buffer (bytes "<=")) < (buffer (bytes "<=")).length ∧
      0 ≤ s.cursor ∧ s.cursor ≤ terminator (buffer (bytes "<=")) ∧
      s.peek = (buffer (bytes "<=")).getD s.cursor.toNat 0 ∧
      ∀ i ∈ s.reads, 0 ≤ i ∧ i ≤ terminator (buffer (bytes "<=")) :=
  by
  refine ⟨_, rfl, ?_⟩
  exact Reachable_invariant (buffer (bytes "<=")) (by decide) _
    (Lexer.Reachable.call 1 (Lexer.new (buffer (bytes "<="))) (Outcome.returned _)
      Lexer.Reachable.construct rfl)

/-- C16: `Lex` never blocks.  Over a zero-terminated buffer, in every state reachable
from construction by `Lex` calls, a `Lex` call given fuel no less than the length of the
buffer ends, by returning a token or by raising a fault. -/
theorem Lex_terminates (src : List Nat) (hz : 0 ∈ src) (s : Lexer)
    (h : Lexer.Reachable src s) (fuel : Nat) (hfuel : src.length ≤ fuel) :
    (∃ t, Lexer.Lex fuel s = some (.returned t)) ∨
      ∃ way error e t, Lexer.Lex fuel s = some (.thrown way error e t) := by
  have hg := Reachable_good h
  have hT := terminator_lt_length hz
  have hlo := hg.lower
  obtain ⟨o, ho⟩ := (Lex_good src fuel s hg).2 (by omega)
  cases o with
  | returned t => exact Or.inl ⟨t, ho⟩
  | thrown way error e t => exact Or.inr ⟨way, error, e, t, ho⟩

theorem Lex_terminates_witness :
    ((∃ t, Lexer.Lex 7 (Lexer.new (buffer (bytes "\\* abc"))) = some (.returned t)) ∨
      ∃ way error e t, Lexer.Lex 7 (Lexer.new (buffer (bytes "\\* abc"))) =
        some (.thrown way error e t)) ∧
    ((∃ t, Lexer.Lex 7 (Lexer.new (buffer (bytes "\\\\ abc"))) = some (.returned t)) ∨
      ∃ way error e t, Lexer.Lex 7 (Lexer.new (buffer (bytes "\\\\ abc"))) =
        some (.thrown way error e t)) :=
  ⟨Lex_terminates (buffer (bytes "\\* abc")) (by decide) _ Lexer.Reachable.construct 7
      (by decide),
    Lex_terminates (buffer (bytes "\\\\ abc")) (by decide) _ Lexer.Reachable.construct 7
      (by decide)⟩

theorem tokens_cursor (src : List Nat) (fuel : Nat) :
    ∀ (n : Nat) (s t : Lexer), s.Good src → Lexer.tokens fuel n s = some t →
      t.Good src ∧ s.cursor + n ≤ t.cursor := by
  intro n
  induction n with
  | zero =>
    intro s t hg h
    obtain rfl : s = t := by simpa [Lexer.tokens] using h
    exact ⟨hg, by simp⟩
  | succ n ih =>
    intro s t hg h
    unfold Lexer.tokens at h
    cases hl : Lexer.Lex fuel s with
    | none => simp [hl] at h
    | some o =>
      cases o with
      | thrown way error e u => simp [hl] at h
      | returned u =>
        simp only [hl] at h
        by_cases hsym : u.token.Symbol = .End
        · rw [if_pos hsym] at h
          cases h
        · rw [if_neg hsym] at h
          obtain ⟨hgu, _, hret⟩ := (Lex_good src fuel s hg).1 _ hl
          obtain ⟨hgt, hle⟩ := ih u t hgu h
          rcases hret u rfl with hend | hmove
          · exact absurd hend.1 hsym
          · refine ⟨hgt, ?_⟩
            have := hmove.2
            push_cast
            omega

/-- C18: progress.  In every reachable state, a `Lex` call that returns a token after
the whitespace loop stopped on a byte other than the terminator returns a token other
than `End`, and a `Lex` call that returns a token other than `End` (`Comment` and the
unrecognised-byte token `None` included) leaves the cursor strictly greater than it found
it; hence after `n` successive calls that each returned such a token the cursor has
moved on by at least `n`, and as it never passes the terminator, `n` is at most the
number of bytes between the cursor at the first call and the terminator (the whole
input, from construction). -/
theorem Lex_progress (src : List Nat) (s : Lexer) (h : Lexer.Reachable src s) :
    (∀ fuel w t, Lexer.skipWhitespace fuel s = some w → w.peek ≠ 0 →
      Lexer.Lex fuel s = some (.returned t) → t.token.Symbol ≠ .End) ∧
    (∀ fuel t, Lexer.Lex fuel s = some (.returned t) → t.token.Symbol ≠ .End →
      s.cursor < t.cursor) ∧
    (∀ fuel n t, Lexer.tokens fuel n s = some t →
      s.cursor + n ≤ t.cursor ∧ t.cursor ≤ terminator src) := by
  have hg := Reachable_good h
  refine ⟨?_, ?_, ?_⟩
  · intro fuel w t hw hp hcall
    rcases ((Lex_good src fuel s hg).1 _ hcall).2.2 t rfl with hend | hmove
    · exfalso
      rw [Lex_eq_dispatch] at hcall
      simp only [hw] at hcall
      rw [if_neg hp] at hcall
      obtain ⟨hgw, _⟩ := (skipWhitespace_good src fuel s hg).1 w hw
      obtain ⟨d1, _⟩ := dispatch_good src fuel w.setStart hgw.started hp
      cases hd : Lexer.dispatch fuel w.setStart with
      | none => simp [hd] at hcall
      | some o1 =>
        obtain ⟨_, htag⟩ := d1 o1 hd
        cases o1 with
        | thrown way error e u => simp [hd, Outcome.epilogue] at hcall
        | returned u =>
          obtain rfl : u.EPILOGUE = t := by simpa [hd, Outcome.epilogue] using hcall
          exact htag u rfl hend.1
    · exact hmove.1
  · intro fuel t hcall hsym
    rcases ((Lex_good src fuel s hg).1 _ hcall).2.2 t rfl with hend | hmove
    · exact absurd hend.1 hsym
    · exact hmove.2
  · intro fuel n t ht
    obtain ⟨hgt, hle⟩ := tokens_cursor src fuel n s t hg ht
    exact ⟨hle, hgt.upper⟩

theorem Lex_progress_witness :
    (∃ t, Lexer.Lex 4 (Lexer.new (buffer (bytes "a b"))) = some (.returned t) ∧
      t.token.Symbol ≠ .End ∧ (Lexer.new (buffer (bytes "a b"))).cursor < t.cursor) ∧
    (∃ t, Lexer.tokens 4 2 (Lexer.new (buffer (bytes "a b"))) = some t ∧
      (Lexer.new (buffer (bytes "a b"))).cursor + (2 : Nat) ≤ t.cursor ∧
        t.cursor ≤ terminator (buffer (bytes "a b"))) := by
  constructor
  · refine ⟨_, rfl, ?_, ?_⟩
    · exact (Lex_progress (buffer (bytes "a b")) _ Lexer.Reachable.construct).1 4 _ _
        rfl (by decide) rfl
    · exact (Lex_progress (buffer (bytes "a b")) _ Lexer.Reachable.construct).2.1 4 _
        rfl (by decide)
  · refine ⟨_, rfl, ?_⟩
    exact (Lex_progress (buffer (bytes "a b")) _ Lexer.Reachable.construct).2.2 4 2 _ rfl

theorem Lex_at_terminator (s : Lexer) (fuel : Nat) (h0 : s.peek = 0) :
    Lexer.Lex (fuel + 1) s = some (.returned (s.setSymbol .End).EPILOGUE) := by
  have hw : U.Text.IsWhitespace s.peek = false := by rw [h0]; decide
  rw [Lex_eq_dispatch, skipWhitespace_none fuel s hw]
  simp only
  rw [if_pos h0]

theorem End_fixed (t : Lexer) (hsym : t.token.Symbol = .End)
    (hend : t.token.End = ⟨t.point.Line, t.point.Column - 1⟩) :
    (t.setSymbol .End).EPILOGUE = t := by
  obtain ⟨point, index, source, peek, ⟨sym, val, st, en⟩, reads⟩ := t
  simp only at hsym hend
  subst hsym
  simp only [Lexer.setSymbol, Lexer.EPILOGUE, ← hend]

/-- C19: `End` is absorbing.  In any state whose lookahead byte is the terminator a
`Lex` call returns a token whose `Symbol` is `End` and leaves the cursor, the lookahead
byte, the position, the source and the log of reads as they were; hence, once a `Lex`
call from a reachable state has returned `End`, the lookahead is the terminator and
every later call returns `End` again and leaves the lexer, the `End` position of the
token included, exactly as it was. -/
theorem Lex_End_absorbing :
    (∀ (s : Lexer) (fuel : Nat), s.peek = 0 →
      ∃ t, Lexer.Lex (fuel + 1) s = some (.returned t) ∧ t.token.Symbol = .End ∧
        t.index = s.index ∧ t.peek = s.peek ∧ t.point = s.point ∧
        t.source = s.source ∧ t.reads = s.reads) ∧
    (∀ (src : List Nat) (s : Lexer) (fuel : Nat) (t : Lexer), Lexer.Reachable src s →
      Lexer.Lex fuel s = some (.returned t) → t.token.Symbol = .End →
        t.peek = 0 ∧ ∀ later, Lexer.Lex (later + 1) t = some (.returned t)) := by
  constructor
  · intro s fuel h0
    exact ⟨_, Lex_at_terminator s fuel h0, rfl, rfl, rfl, rfl, rfl, rfl⟩
  · intro src s fuel t h hcall hsym
    rcases ((Lex_good src fuel s (Reachable_good h)).1 _ hcall).2.2 t rfl with hend | hmove
    · refine ⟨hend.2.1, fun later => ?_⟩
      rw [Lex_at_terminator t later hend.2.1, End_fixed t hsym hend.2.2.2]
    · exact absurd hsym hmove.1

theorem Lex_End_absorbing_witness :
    (∃ t, Lexer.Lex 1 (Lexer.new (buffer [])) = some (.returned t) ∧
      t.token.Symbol = .End ∧ t.index = (Lexer.new (buffer [])).index ∧
      t.peek = (Lexer.new (buffer [])).peek ∧ t.point = (Lexer.new (buffer [])).point ∧
      t.source = (Lexer.new (buffer [])).source ∧
      t.reads = (Lexer.new (buffer [])).reads) ∧
    (∃ t, Lexer.Lex 2 (Lexer.new (buffer (bytes " "))) = some (.returned t) ∧
      t.token.Symbol = .End ∧
      t.peek = 0 ∧ ∀ later, Lexer.Lex (later + 1) t = some (.returned t)) := by
  constructor
  · exact Lex_End_absorbing.1 (Lexer.new (buffer [])) 0 rfl
  · refine ⟨_, rfl, rfl, ?_⟩
    exact Lex_End_absorbing.2 (buffer (bytes " ")) _ 2 _ Lexer.Reachable.construct rfl rfl

end Compiler
